import Mathlib

/-!
# Unblock-solve: a shallow embedding of the solver and its specification

The development follows `Unblock-solve.cc`.  The data model (`TileKind`, `Block`,
`Board`, `Move`), `renderPieces`, `copyPieces` and `SolveBoard` are transcribed
from the source; the theorems below are stated over these definitions.

Modelling conventions
* `int` fields whose values never leave a tiny range are `Int`; no overflow can
  occur on a 6x6 board, so no wrap-around is modelled.
* `Block::_id` is drawn by the only constructor of `Block` from the counter
  `Block::BlockId`, which starts at `0` and is incremented on each construction:
  ids are natural numbers, and `_id` is a `Nat`.  `Move::_blockId` also holds the
  sentinel `-1` and is an `Int`.
* `std::map<Board,Move>` and `std::set<Board>` are association lists searched with
  the key equivalence induced by `Board::operator<` (neither key is less than the
  other); `insert` leaves an existing entry untouched, as `std::map::insert` does.
* Loops that have no a-priori bound (`while(!queue.empty())` and the backtracking
  `while`) are driven by a fuel argument; `Outcome.outOfFuel` is the only artefact
  of the model and is shown never to be the final answer for enough fuel.
* An access outside the `_data` array is undefined behaviour in the source.  The
  model reads `empty` there and drops the write; for a flat index inside the
  array the row-major aliasing of `operator()` is kept.  No such access occurs on
  a valid input; what is stated about inputs that are not valid is restricted by
  `AccessesDefined` to inputs whose accesses stay inside the array.
* Definitions of the second part (`Block.cells`, `ValidInput`, `canMove`,
  `legalMoves`, `MoveStep`, `IsGoal`, `MovesTo`) state the specification; they are
  compared with the transcribed code by the theorems.
-/

namespace Unblock

/-- The board is SIZE x SIZE tiles. -/
abbrev SIZE : Int := 6

/-- The tile "bodies": `enum TileKind { empty = 0, block = 1, prisoner = 2 }`. -/
inductive TileKind where
  | empty
  | block
  | prisoner
deriving DecidableEq, Repr

/-- The numeric value of an enumerator. -/
def TileKind.toNat : TileKind → Nat
  | .empty => 0
  | .block => 1
  | .prisoner => 2

/-- The board is a list of Blocks: `struct Block`. -/
structure Block where
  _id : Nat
  _y : Int
  _x : Int
  _isHorizontal : Bool
  _kind : TileKind
  _length : Int
deriving DecidableEq, Repr

/-- The 2D view of a board: `struct Board`, with `_data[SIZE*SIZE]`. -/
structure Board where
  _data : List TileKind
deriving DecidableEq, Repr

/-- Initial state of `Board()`: all tiles set to empty. -/
def Board.init : Board := ⟨List.replicate 36 TileKind.empty⟩

/-- Read access through `operator()(y, x)`, that is `_data[y*SIZE+x]`. -/
def Board.get (b : Board) (y x : Int) : TileKind :=
  if 0 ≤ y * SIZE + x then b._data.getD (y * SIZE + x).toNat TileKind.empty else TileKind.empty

/-- Write access through `operator()(y, x)`, that is `_data[y*SIZE+x] = k`. -/
def Board.set (b : Board) (y x : Int) (k : TileKind) : Board :=
  if 0 ≤ y * SIZE + x then ⟨b._data.set (y * SIZE + x).toNat k⟩ else b

/-- The sign of `memcmp` over the two `_data` arrays.  Every enumerator is below
256, so byte-wise comparison of the `int`-sized cells is decided by the first cell
that differs. -/
def memcmp : List TileKind → List TileKind → Int
  | a :: as, b :: bs =>
    if a.toNat < b.toNat then -1
    else if b.toNat < a.toNat then 1
    else memcmp as bs
  | _, _ => 0

/-- The comparison `Board::operator<`: `memcmp(_data, r._data, sizeof(_data)) < 0`. -/
def Board.lt (l r : Board) : Bool := decide (memcmp l._data r._data < 0)

/-- Two keys are the same key of a `std::map`/`std::set` when neither is less
than the other. -/
def Board.sameKey (l r : Board) : Bool := !(l.lt r) && !(r.lt l)

/-- The inner loops of `renderPieces` for one block. -/
def renderBlock (tmp : Board) (p : Block) : Board :=
  if p._isHorizontal then
    (List.range p._length.toNat).foldl (fun t (i : Nat) => t.set p._y (p._x + (i : Int)) p._kind) tmp
  else
    (List.range p._length.toNat).foldl (fun t (i : Nat) => t.set (p._y + (i : Int)) p._x p._kind) tmp

/-- The function `renderPieces`: takes a list of blocks and renders them into a
`Board`. -/
def renderPieces (pieces : List Block) : Board :=
  pieces.foldl renderBlock Board.init

/-- The enumeration `Move::Direction`. -/
inductive Direction where
  | left
  | right
  | up
  | down
deriving DecidableEq, Repr

/-- The record `Move`: what block moved and to what direction. -/
structure Move where
  _blockId : Int
  _move : Direction
deriving DecidableEq, Repr

/-- The function `copyPieces`: element-wise `push_back` into a fresh list. -/
def copyPieces (pieces : List Block) : List Block :=
  pieces.foldl (fun copied p => copied ++ [p]) []

/-- The type `map<Board, Move>`. -/
abbrev MoveMap := List (Board × Move)

/-- The lookup `map::find`. -/
def MoveMap.find (m : MoveMap) (b : Board) : Option Move :=
  match m with
  | [] => none
  | e :: rest => if e.1.sameKey b then some e.2 else MoveMap.find rest b

/-- The insertion `map::insert`: no effect when the key is present. -/
def MoveMap.insert (m : MoveMap) (b : Board) (mv : Move) : MoveMap :=
  match MoveMap.find m b with
  | some _ => m
  | none => m ++ [(b, mv)]

/-- The type `set<Board>`. -/
abbrev BoardSet := List Board

/-- The test `visited.find(board) != visited.end()`. -/
def BoardSet.has (s : BoardSet) (b : Board) : Bool :=
  s.any (fun k => k.sameKey b)

/-- The insertion `set::insert`. -/
def BoardSet.insert (s : BoardSet) (b : Board) : BoardSet :=
  if BoardSet.has s b then s else s ++ [b]

/-- The three containers of `SolveBoard`. -/
structure SolverState where
  previousMoves : MoveMap
  visited : BoardSet
  queue : List (List Block)
deriving Repr

/-- How a call of `SolveBoard` ends. -/
inductive Outcome where
  /-- The success branch: the list `solution` that is printed before `exit(0)`. -/
  | solved (solution : List (List Block))
  /-- The queue ran empty and `SolveBoard` returned. -/
  | noSolution
  /-- One of the two `assert`s failed. -/
  | assertionFailed
  /-- The fuel of the model ran out. -/
  | outOfFuel
deriving DecidableEq, Repr

/-- The loop that looks for the prisoner block (lines 290-295). -/
def findPrisoner : List Block → Option Block
  | [] => none
  | piece :: rest => if piece._kind = TileKind.prisoner then some piece else findPrisoner rest

/-- The loop `for (x = ...; x < SIZE; x++)` of the goal test, with its `break`;
the first argument counts the iterations that remain before `x` reaches `SIZE`. -/
def allClearLoop (board : Board) (y : Int) : Nat → Int → Bool
  | 0, _ => true
  | n + 1, x => if board.get y x = TileKind.empty then allClearLoop board y n (x + 1) else false

/-- The flag `allClear` for the prisoner `it` (lines 299-304). -/
def allClear (board : Board) (it : Block) : Bool :=
  allClearLoop board it._y (SIZE - (it._x + it._length)).toNat (it._x + it._length)

/-- The `switch` of the backtracking loop: move a block in reverse direction. -/
def undoMove (d : Direction) (b : Block) : Block :=
  match d with
  | .left => { b with _x := b._x + 1 }
  | .right => { b with _x := b._x - 1 }
  | .up => { b with _y := b._y + 1 }
  | .down => { b with _y := b._y - 1 }

/-- The inner `for` of the backtracking loop: find the block that moved and move it
back; `none` when the loop reaches `pieces.end()` (the `assert` then fails). -/
def revertMove (mv : Move) : List Block → Option (List Block)
  | [] => none
  | b :: rest =>
    if (b._id : Int) = mv._blockId then some (undoMove mv._move b :: rest)
    else (revertMove mv rest).map (fun r => b :: r)

/-- The backtracking loop (lines 315-338). -/
def backtrack (previousMoves : MoveMap) : Nat → List Block → List (List Block) → Outcome
  | 0, _, _ => Outcome.outOfFuel
  | fuel + 1, pieces, solution =>
    match previousMoves.find (renderPieces pieces) with
    | none => Outcome.solved solution
    | some mv =>
      if mv._blockId = -1 then Outcome.solved solution
      else
        match revertMove mv pieces with
        | none => Outcome.assertionFailed
        | some moved => backtrack previousMoves fuel moved (copyPieces moved :: solution)

/-- The macro `COMMON_BODY(direction)`, with `pieces` the list as it stands while
`piece` is shifted. -/
def COMMON_BODY (pieces : List Block) (piece : Block) (direction : Direction)
    (s : SolverState) : SolverState :=
  let copied := copyPieces pieces
  { s with
    queue := s.queue ++ [copied]
    previousMoves := s.previousMoves.insert (renderPieces copied) ⟨(piece._id : Int), direction⟩ }

/-- The body of the expansion loop for one block.  The block is a reference into
the list `before ++ piece :: after`; it is shifted, the list is copied, and the
block is shifted back.  Returns the block as it is left behind. -/
def expandPiece (board : Board) (before : List Block) (piece : Block) (after : List Block)
    (s : SolverState) : Block × SolverState :=
  if piece._isHorizontal then
    let r1 : Block × SolverState :=
      if 0 < piece._x ∧ TileKind.empty = board.get piece._y (piece._x - 1) then
        let moved := { piece with _x := piece._x - 1 }
        let s1 := COMMON_BODY (before ++ moved :: after) moved Direction.left s
        ({ moved with _x := moved._x + 1 }, s1)
      else (piece, s)
    let piece := r1.1
    if piece._x + piece._length < SIZE ∧
        TileKind.empty = board.get piece._y (piece._x + piece._length) then
      let moved := { piece with _x := piece._x + 1 }
      let s2 := COMMON_BODY (before ++ moved :: after) moved Direction.right r1.2
      ({ moved with _x := moved._x - 1 }, s2)
    else (piece, r1.2)
  else
    let r1 : Block × SolverState :=
      if 0 < piece._y ∧ TileKind.empty = board.get (piece._y - 1) piece._x then
        let moved := { piece with _y := piece._y - 1 }
        let s1 := COMMON_BODY (before ++ moved :: after) moved Direction.up s
        ({ moved with _y := moved._y + 1 }, s1)
      else (piece, s)
    let piece := r1.1
    if piece._y + piece._length < SIZE ∧
        TileKind.empty = board.get (piece._y + piece._length) piece._x then
      let moved := { piece with _y := piece._y + 1 }
      let s2 := COMMON_BODY (before ++ moved :: after) moved Direction.down r1.2
      ({ moved with _y := moved._y - 1 }, s2)
    else (piece, r1.2)

/-- The expansion loop (lines 355-399) from the iterator position that has `before`
behind it and `rest` ahead.  Returns the list `pieces` as the loop leaves it. -/
def expandLoop (board : Board) : List Block → List Block → SolverState → List Block × SolverState
  | before, [], s => (before, s)
  | before, piece :: after, s =>
    let r := expandPiece board before piece after s
    expandLoop board (before ++ [r.1]) after r.2

/-- What one iteration of `while(!queue.empty())` leads to. -/
inductive StepResult where
  /-- The loop goes round again. -/
  | next (s : SolverState)
  /-- The dequeued list passed the goal test: the success branch is entered. -/
  | goal (pieces : List Block) (s : SolverState)
  /-- The queue is empty: the loop ends. -/
  | emptyQueue
  /-- No prisoner was found: `assert(it != pieces.end())` fails. -/
  | assertFailed
deriving Repr

/-- One iteration of the main loop of `SolveBoard` (lines 270-401). -/
def step (s : SolverState) : StepResult :=
  match s.queue with
  | [] => StepResult.emptyQueue
  | pieces :: rest =>
    let board := renderPieces pieces
    if s.visited.has board then
      StepResult.next { s with queue := rest }
    else
      let s1 : SolverState :=
        { previousMoves := s.previousMoves, visited := s.visited.insert board, queue := rest }
      match findPrisoner pieces with
      | none => StepResult.assertFailed
      | some it =>
        if allClear board it then StepResult.goal pieces s1
        else StepResult.next (expandLoop board [] pieces s1).2

/-- The main loop of `SolveBoard`. -/
def solveLoop : Nat → SolverState → Outcome
  | 0, _ => Outcome.outOfFuel
  | fuel + 1, s =>
    match step s with
    | .next s1 => solveLoop fuel s1
    | .goal pieces s1 => backtrack s1.previousMoves fuel pieces [copyPieces pieces]
    | .emptyQueue => Outcome.noSolution
    | .assertFailed => Outcome.assertionFailed

/-- The containers as they are when the main loop is entered (lines 252-269). -/
def initState (pieces : List Block) : SolverState :=
  { previousMoves := MoveMap.insert [] (renderPieces pieces) ⟨-1, Direction.left⟩
    visited := []
    queue := [copyPieces pieces] }

/-- The function `SolveBoard`. -/
def SolveBoard (fuel : Nat) (pieces : List Block) : Outcome :=
  solveLoop fuel (initState pieces)

/-! ## Specification-side definitions -/

/-- The cells `(y, x)` a block covers: `(y, x+i)` if horizontal, `(y+i, x)` if
vertical, for `0 ≤ i < length`. -/
def Block.cells (p : Block) : List (Int × Int) :=
  (List.range p._length.toNat).map
    (fun (i : Nat) => if p._isHorizontal then (p._y, p._x + (i : Int)) else (p._y + (i : Int), p._x))

/-- A cell `(y, x)` of the 6x6 grid. -/
def inGrid (c : Int × Int) : Prop := 0 ≤ c.1 ∧ c.1 < SIZE ∧ 0 ≤ c.2 ∧ c.2 < SIZE

instance (c : Int × Int) : Decidable (inGrid c) := by
  unfold inGrid
  infer_instance

/-- A piece of the data model: length 2 or 3, every covered cell on the grid, and a
kind that, as the source says of `_kind`, "can only be block or prisoner". -/
def Block.wellFormed (p : Block) : Prop :=
  (p._length = 2 ∨ p._length = 3) ∧ p._kind ≠ TileKind.empty ∧ ∀ c ∈ p.cells, inGrid c

instance (p : Block) : Decidable p.wellFormed := by
  unfold Block.wellFormed
  infer_instance

/-- Two blocks share no cell. -/
def disjointBlocks (p q : Block) : Prop := ∀ c ∈ p.cells, c ∉ q.cells

instance (p q : Block) : Decidable (disjointBlocks p q) := by
  unfold disjointBlocks
  infer_instance

/-- The precondition on the input of the solver: well-formed pieces on the grid,
pairwise disjoint, with unique ids, exactly one prisoner, which is horizontal. -/
def ValidInput (pieces : List Block) : Prop :=
  (∀ p ∈ pieces, p.wellFormed) ∧
  pieces.Pairwise disjointBlocks ∧
  (pieces.map (fun p => p._id)).Nodup ∧
  (pieces.filter (fun p => decide (p._kind = TileKind.prisoner))).length = 1 ∧
  ∀ p ∈ pieces, p._kind = TileKind.prisoner → p._isHorizontal = true

instance (pieces : List Block) : Decidable (ValidInput pieces) := by
  unfold ValidInput
  infer_instance

/-- A move of one cell: the block after it is shifted in direction `d`. -/
def applyMove (d : Direction) (b : Block) : Block :=
  match d with
  | .left => { b with _x := b._x - 1 }
  | .right => { b with _x := b._x + 1 }
  | .up => { b with _y := b._y - 1 }
  | .down => { b with _y := b._y + 1 }

/-- Legality of a move on a rendered grid: the direction matches the orientation
and the single cell the block would enter is on the grid and empty. -/
def canMove (board : Board) (p : Block) : Direction → Prop
  | .left => p._isHorizontal = true ∧ 0 < p._x ∧ board.get p._y (p._x - 1) = TileKind.empty
  | .right => p._isHorizontal = true ∧ p._x + p._length < SIZE ∧
      board.get p._y (p._x + p._length) = TileKind.empty
  | .up => p._isHorizontal = false ∧ 0 < p._y ∧ board.get (p._y - 1) p._x = TileKind.empty
  | .down => p._isHorizontal = false ∧ p._y + p._length < SIZE ∧
      board.get (p._y + p._length) p._x = TileKind.empty

instance (board : Board) (p : Block) (d : Direction) : Decidable (canMove board p d) := by
  cases d <;> unfold canMove <;> infer_instance

/-- MoveGen of the specification: all legal one-step successors with their moves,
for the pieces of `rest` in the list `before ++ rest`. -/
def legalMoves (board : Board) : List Block → List Block → List (List Block × Move)
  | _, [] => []
  | before, p :: after =>
    (([Direction.left, Direction.right, Direction.up, Direction.down].filter
        (fun d => decide (canMove board p d))).map
      (fun d => (before ++ applyMove d p :: after, (⟨(p._id : Int), d⟩ : Move)))) ++
    legalMoves board (before ++ [p]) after

/-- The effect of `COMMON_BODY` for one emitted successor. -/
def recordMove (s : SolverState) (e : List Block × Move) : SolverState :=
  { s with
    queue := s.queue ++ [e.1]
    previousMoves := s.previousMoves.insert (renderPieces e.1) e.2 }

/-- One legal move leads from `S` to `T`: one piece of `S` is shifted one cell
along its axis into an on-board cell that is empty in the render of `S`. -/
def MoveStep (S T : List Block) : Prop :=
  ∃ before p after d, S = before ++ p :: after ∧ canMove (renderPieces S) p d ∧
    T = before ++ applyMove d p :: after

/-- The successors the expansion loop of `SolveBoard` enqueues for the list `S`. -/
def generated (S : List Block) : List (List Block) :=
  (expandLoop (renderPieces S) [] S ⟨[], [], []⟩).2.queue

/-- GoalTest of the specification: every cell to the right of the prisoner on its
row is empty. -/
def IsGoal (pieces : List Block) : Prop :=
  ∃ z, findPrisoner pieces = some z ∧
    ∀ c : Int, z._x + z._length ≤ c → c < SIZE → (renderPieces pieces).get z._y c = TileKind.empty

/-- A sequence of `n` legal moves leads from `S` to `T`. -/
def MovesTo : Nat → List Block → List Block → Prop
  | 0, S, T => S = T
  | n + 1, S, T => ∃ R, MovesTo n S R ∧ MoveStep R T

/-- The state after `n` further iterations of the main loop, when all of them go
round again. -/
def runSteps : Nat → SolverState → Option SolverState
  | 0, s => some s
  | n + 1, s =>
    match step s with
    | .next s1 => runSteps n s1
    | _ => none

/-- Writing one kind into a list of cells. -/
def writeCells (tmp : Board) (cs : List (Int × Int)) (k : TileKind) : Board :=
  cs.foldl (fun t c => t.set c.1 c.2 k) tmp


/-- The entries of `m` are kept by `m2`. -/
def MoveMap.Extends (m m2 : MoveMap) : Prop :=
  ∀ k v, MoveMap.find m k = some v → MoveMap.find m2 k = some v

/-- The list `F` was reached from the input `P0` through the states `pre`, each
step being a legal move of a valid list whose record is the entry of the resulting
key in the parent map. -/
inductive TracedPath (previousMoves : MoveMap) (P0 : List Block) :
    List (List Block) → List Block → Prop where
  | base : MoveMap.find previousMoves (renderPieces P0) = some ⟨-1, Direction.left⟩ →
      TracedPath previousMoves P0 [] P0
  | move {pre : List (List Block)} {l1 l2 : List Block} {p : Block} {d : Direction} :
      TracedPath previousMoves P0 pre (l1 ++ p :: l2) →
      ValidInput (l1 ++ p :: l2) →
      canMove (renderPieces (l1 ++ p :: l2)) p d →
      MoveMap.find previousMoves (renderPieces (l1 ++ applyMove d p :: l2)) =
        some ⟨(p._id : Int), d⟩ →
      TracedPath previousMoves P0 (pre ++ [l1 ++ p :: l2]) (l1 ++ applyMove d p :: l2)

/-- The invariant of the main loop for the input `P0`. -/
structure Inv (P0 : List Block) (s : SolverState) : Prop where
  keys : ∀ e ∈ s.previousMoves, e.1._data.length = 36
  vkeys : ∀ k ∈ s.visited, k._data.length = 36
  valid : ∀ L ∈ s.queue, ValidInput L ∧ L.length = P0.length
  queued : ∀ L ∈ s.queue, (MoveMap.find s.previousMoves (renderPieces L)).isSome = true
  seen : ∀ k ∈ s.visited, (MoveMap.find s.previousMoves k).isSome = true
  nodup : s.visited.Nodup
  sentinel : MoveMap.find s.previousMoves (renderPieces P0) = some ⟨-1, Direction.left⟩
  first : ∀ k, k._data.length = 36 →
    (MoveMap.find s.previousMoves k).isSome = true → k ∉ s.visited →
    ∃ pre F post, s.queue = pre ++ F :: post ∧ renderPieces F = k ∧
      (∀ L ∈ pre, renderPieces L ≠ k) ∧
      ∃ path, TracedPath s.previousMoves P0 path F ∧ path.length ≤ s.visited.length

instance : Fintype TileKind :=
  ⟨⟨{TileKind.empty, TileKind.block, TileKind.prisoner}, by simp⟩, by intro x; cases x <;> simp⟩

/-- The measure that decreases on every iteration that goes round again. -/
def potential (n : Nat) (s : SolverState) : Nat :=
  s.queue.length + (3 ^ 36 - s.visited.length) * (4 * n + 1)

/-- The cell a block would enter when it moves one cell in direction `d`. -/
def targetCell (p : Block) : Direction → Int × Int
  | .left => (p._y, p._x - 1)
  | .right => (p._y, p._x + p._length)
  | .up => (p._y - 1, p._x)
  | .down => (p._y + p._length, p._x)

/-- The direction matches the orientation: left/right for a horizontal block,
up/down for a vertical one. -/
def orientationMatches (p : Block) : Direction → Prop
  | .left => p._isHorizontal = true
  | .right => p._isHorizontal = true
  | .up => p._isHorizontal = false
  | .down => p._isHorizontal = false

/-- Scenario S1: the prisoner at (2,0) of length 2, no other piece. -/
def scenarioS1 : List Block :=
  [⟨0, 2, 0, true, TileKind.prisoner, 2⟩]

/-- Scenario S3: the prisoner at (2,0) of length 2 and a vertical ordinary piece of
length 2 at (2,3). -/
def scenarioS3 : List Block :=
  [⟨0, 2, 0, true, TileKind.prisoner, 2⟩, ⟨1, 2, 3, false, TileKind.block, 2⟩]

/-- Scenario S3 after the ordinary piece moved down to (3,3). -/
def scenarioS3down : List Block :=
  [⟨0, 2, 0, true, TileKind.prisoner, 2⟩, ⟨1, 3, 3, false, TileKind.block, 2⟩]

/-- The shape of scenario S5: the prisoner at (2,0) of length 2, a vertical piece
of length 3 at (0,3), and horizontal pieces of length 3 at (3,0) and (3,3). -/
def scenarioS5 : List Block :=
  [⟨0, 2, 0, true, TileKind.prisoner, 2⟩, ⟨1, 0, 3, false, TileKind.block, 3⟩,
   ⟨2, 3, 0, true, TileKind.block, 3⟩, ⟨3, 3, 3, true, TileKind.block, 3⟩]

/-- Scenario S5 after the prisoner moved right to (2,1). -/
def scenarioS5right : List Block :=
  [⟨0, 2, 1, true, TileKind.prisoner, 2⟩, ⟨1, 0, 3, false, TileKind.block, 3⟩,
   ⟨2, 3, 0, true, TileKind.block, 3⟩, ⟨3, 3, 3, true, TileKind.block, 3⟩]

/-- The key that passes the visited check in the next iteration, if any. -/
def passedKey (s : SolverState) : Option Board :=
  match s.queue with
  | [] => none
  | pieces :: _ =>
    if s.visited.has (renderPieces pieces) then none else some (renderPieces pieces)

/-- The keys that pass the visited check (and so reach the goal test and the
expansion) during the next `n` iterations of the main loop, in order. -/
def expandedKeys : Nat → SolverState → List Board
  | 0, _ => []
  | n + 1, s =>
    (match passedKey s with
      | some k => [k]
      | none => []) ++
    (match step s with
      | .next s1 => expandedKeys n s1
      | _ => [])

/-- The on-board and no-overlap preconditions on a piece list: every piece has a
kind other than `empty`, covers cells of the grid only, and no two pieces share a
cell. -/
def Placed (pieces : List Block) : Prop :=
  (∀ p ∈ pieces, p._kind ≠ TileKind.empty ∧ ∀ c ∈ p.cells, inGrid c) ∧
  pieces.Pairwise disjointBlocks

instance (pieces : List Block) : Decidable (Placed pieces) := by
  unfold Placed
  infer_instance

/-- Scenario S3 with the two pieces in the other order and with other ids. -/
def scenarioS3relabelled : List Block :=
  [⟨7, 2, 3, false, TileKind.block, 2⟩, ⟨5, 2, 0, true, TileKind.prisoner, 2⟩]

/-- A board packed into one number, two bits per cell: the "36 two-bit fields" of
the specification.  Used to evaluate the search on large inputs. -/
def encodeKey (b : Board) : Nat :=
  b._data.foldr (fun k acc => k.toNat + 4 * acc) 0

/-- The containers of `SolveBoard` with every key packed by `encodeKey`. -/
structure PackedState where
  previousMoves : List (Nat × Move)
  visited : List Nat
  queue : List (List Block)

/-- The lookup `map::find` on packed keys. -/
def packedFind : List (Nat × Move) → Nat → Option Move
  | [], _ => none
  | e :: rest, k => if e.1 = k then some e.2 else packedFind rest k

/-- The insertion `map::insert` on packed keys. -/
def packedInsert (m : List (Nat × Move)) (k : Nat) (mv : Move) : List (Nat × Move) :=
  match packedFind m k with
  | some _ => m
  | none => m ++ [(k, mv)]

/-- The effect of `COMMON_BODY` on packed containers. -/
def packedRecord (s : PackedState) (e : List Block × Move) : PackedState :=
  { s with
    queue := s.queue ++ [e.1]
    previousMoves := packedInsert s.previousMoves (encodeKey (renderPieces e.1)) e.2 }

/-- The counterpart of `StepResult` for packed containers. -/
inductive PackedResult where
  | next (s : PackedState)
  | goal (pieces : List Block) (s : PackedState)
  | emptyQueue
  | assertFailed

/-- One iteration of the main loop on packed containers. -/
def packedStep (s : PackedState) : PackedResult :=
  match s.queue with
  | [] => PackedResult.emptyQueue
  | pieces :: rest =>
    let board := renderPieces pieces
    let k := encodeKey board
    if s.visited.contains k then
      PackedResult.next { s with queue := rest }
    else
      let s1 : PackedState :=
        { previousMoves := s.previousMoves, visited := s.visited ++ [k], queue := rest }
      match findPrisoner pieces with
      | none => PackedResult.assertFailed
      | some it =>
        if allClear board it then PackedResult.goal pieces s1
        else PackedResult.next ((legalMoves board [] pieces).foldl packedRecord s1)

/-- The backtracking loop on a packed parent map. -/
def packedBacktrack (previousMoves : List (Nat × Move)) :
    Nat → List Block → List (List Block) → Outcome
  | 0, _, _ => Outcome.outOfFuel
  | fuel + 1, pieces, solution =>
    match packedFind previousMoves (encodeKey (renderPieces pieces)) with
    | none => Outcome.solved solution
    | some mv =>
      if mv._blockId = -1 then Outcome.solved solution
      else
        match revertMove mv pieces with
        | none => Outcome.assertionFailed
        | some moved => packedBacktrack previousMoves fuel moved (moved :: solution)

/-- The main loop on packed containers. -/
def packedLoop : Nat → PackedState → Outcome
  | 0, _ => Outcome.outOfFuel
  | fuel + 1, s =>
    match packedStep s with
    | .next s1 => packedLoop fuel s1
    | .goal pieces s1 => packedBacktrack s1.previousMoves fuel pieces [pieces]
    | .emptyQueue => Outcome.noSolution
    | .assertFailed => Outcome.assertionFailed

/-- Packing the keys of the containers. -/
def packState (s : SolverState) : PackedState :=
  { previousMoves := s.previousMoves.map (fun e => (encodeKey e.1, e.2))
    visited := s.visited.map encodeKey
    queue := s.queue }

/-- The number of moves of a reported solution. -/
def Outcome.moves : Outcome → Option Nat
  | .solved solution => some (solution.length - 1)
  | _ => none

/-- Scenario S2: the prisoner at (2,0) of length 2 and a vertical ordinary piece of
length 2 at (0,3). -/
def scenarioS2 : List Block :=
  [⟨0, 2, 0, true, TileKind.prisoner, 2⟩, ⟨1, 0, 3, false, TileKind.block, 2⟩]

/-- Scenario S3 after the ordinary piece moved up to (1,3). -/
def scenarioS3up : List Block :=
  [⟨0, 2, 0, true, TileKind.prisoner, 2⟩, ⟨1, 1, 3, false, TileKind.block, 2⟩]

/-- Scenario S4: the prisoner at (2,0) of length 2, a vertical ordinary piece of
length 2 at (2,3) and a horizontal ordinary piece of length 2 at (0,3). -/
def scenarioS4 : List Block :=
  [⟨0, 2, 0, true, TileKind.prisoner, 2⟩, ⟨1, 2, 3, false, TileKind.block, 2⟩,
   ⟨2, 0, 3, true, TileKind.block, 2⟩]

/-- Scenario S4 after the vertical piece moved down to (3,3). -/
def scenarioS4down : List Block :=
  [⟨0, 2, 0, true, TileKind.prisoner, 2⟩, ⟨1, 3, 3, false, TileKind.block, 2⟩,
   ⟨2, 0, 3, true, TileKind.block, 2⟩]

/-- A malformed input: the vertical piece at (1,1) overlaps the prisoner at (2,1). -/
def malformedOverlap : List Block :=
  [⟨0, 2, 0, true, TileKind.prisoner, 2⟩, ⟨1, 1, 1, false, TileKind.block, 2⟩,
   ⟨2, 2, 4, false, TileKind.block, 2⟩]

/-- The list `malformedOverlap` after the vertical piece at (2,4) moved down. -/
def malformedOverlapDown : List Block :=
  [⟨0, 2, 0, true, TileKind.prisoner, 2⟩, ⟨1, 1, 1, false, TileKind.block, 2⟩,
   ⟨2, 3, 4, false, TileKind.block, 2⟩]

/-- A malformed input: no prisoner. -/
def malformedNoPrisoner : List Block :=
  [⟨0, 0, 0, true, TileKind.block, 2⟩]

/-- A malformed input: a prisoner of length 4 and a second prisoner. -/
def malformedLengthAndPrisoners : List Block :=
  [⟨0, 2, 0, true, TileKind.prisoner, 4⟩, ⟨1, 2, 4, false, TileKind.block, 2⟩,
   ⟨2, 4, 0, true, TileKind.prisoner, 2⟩]

/-- Four ordinary pieces of length 2 around the empty cell (1,1): horizontal at (0,0),
vertical at (0,2), horizontal at (2,1), vertical at (1,0); the prisoner at (4,0)
and a vertical piece at (4,5) that blocks its row. -/
def pinwheelP : List Block :=
  [⟨0, 4, 0, true, TileKind.prisoner, 2⟩,
    ⟨1, 0, 0, true, TileKind.block, 2⟩,
    ⟨2, 0, 2, false, TileKind.block, 2⟩,
    ⟨3, 2, 1, true, TileKind.block, 2⟩,
    ⟨4, 1, 0, false, TileKind.block, 2⟩,
    ⟨5, 4, 5, false, TileKind.block, 2⟩]

/-- The pieces of `pinwheelP` with the four pieces around (1,1) at (0,1), (1,2), (2,0)
and (0,0): the same cells are covered. -/
def pinwheelQ : List Block :=
  [⟨0, 4, 0, true, TileKind.prisoner, 2⟩,
    ⟨1, 0, 1, true, TileKind.block, 2⟩,
    ⟨2, 1, 2, false, TileKind.block, 2⟩,
    ⟨3, 2, 0, true, TileKind.block, 2⟩,
    ⟨4, 0, 0, false, TileKind.block, 2⟩,
    ⟨5, 4, 5, false, TileKind.block, 2⟩]

/-- The states after each of twelve moves that lead from `pinwheelP` to `pinwheelQ`. -/
def pinwheelPathPQ : List (List Block) :=
  [[⟨0, 4, 0, true, TileKind.prisoner, 2⟩,
    ⟨1, 0, 0, true, TileKind.block, 2⟩,
    ⟨2, 0, 2, false, TileKind.block, 2⟩,
    ⟨3, 2, 2, true, TileKind.block, 2⟩,
    ⟨4, 1, 0, false, TileKind.block, 2⟩,
    ⟨5, 4, 5, false, TileKind.block, 2⟩],
   [⟨0, 4, 0, true, TileKind.prisoner, 2⟩,
    ⟨1, 0, 0, true, TileKind.block, 2⟩,
    ⟨2, 0, 2, false, TileKind.block, 2⟩,
    ⟨3, 2, 3, true, TileKind.block, 2⟩,
    ⟨4, 1, 0, false, TileKind.block, 2⟩,
    ⟨5, 4, 5, false, TileKind.block, 2⟩],
   [⟨0, 4, 0, true, TileKind.prisoner, 2⟩,
    ⟨1, 0, 0, true, TileKind.block, 2⟩,
    ⟨2, 1, 2, false, TileKind.block, 2⟩,
    ⟨3, 2, 3, true, TileKind.block, 2⟩,
    ⟨4, 1, 0, false, TileKind.block, 2⟩,
    ⟨5, 4, 5, false, TileKind.block, 2⟩],
   [⟨0, 4, 0, true, TileKind.prisoner, 2⟩,
    ⟨1, 0, 1, true, TileKind.block, 2⟩,
    ⟨2, 1, 2, false, TileKind.block, 2⟩,
    ⟨3, 2, 3, true, TileKind.block, 2⟩,
    ⟨4, 1, 0, false, TileKind.block, 2⟩,
    ⟨5, 4, 5, false, TileKind.block, 2⟩],
   [⟨0, 4, 0, true, TileKind.prisoner, 2⟩,
    ⟨1, 0, 1, true, TileKind.block, 2⟩,
    ⟨2, 2, 2, false, TileKind.block, 2⟩,
    ⟨3, 2, 3, true, TileKind.block, 2⟩,
    ⟨4, 1, 0, false, TileKind.block, 2⟩,
    ⟨5, 4, 5, false, TileKind.block, 2⟩],
   [⟨0, 4, 0, true, TileKind.prisoner, 2⟩,
    ⟨1, 0, 1, true, TileKind.block, 2⟩,
    ⟨2, 3, 2, false, TileKind.block, 2⟩,
    ⟨3, 2, 3, true, TileKind.block, 2⟩,
    ⟨4, 1, 0, false, TileKind.block, 2⟩,
    ⟨5, 4, 5, false, TileKind.block, 2⟩],
   [⟨0, 4, 0, true, TileKind.prisoner, 2⟩,
    ⟨1, 0, 1, true, TileKind.block, 2⟩,
    ⟨2, 3, 2, false, TileKind.block, 2⟩,
    ⟨3, 2, 2, true, TileKind.block, 2⟩,
    ⟨4, 1, 0, false, TileKind.block, 2⟩,
    ⟨5, 4, 5, false, TileKind.block, 2⟩],
   [⟨0, 4, 0, true, TileKind.prisoner, 2⟩,
    ⟨1, 0, 1, true, TileKind.block, 2⟩,
    ⟨2, 3, 2, false, TileKind.block, 2⟩,
    ⟨3, 2, 1, true, TileKind.block, 2⟩,
    ⟨4, 1, 0, false, TileKind.block, 2⟩,
    ⟨5, 4, 5, false, TileKind.block, 2⟩],
   [⟨0, 4, 0, true, TileKind.prisoner, 2⟩,
    ⟨1, 0, 1, true, TileKind.block, 2⟩,
    ⟨2, 3, 2, false, TileKind.block, 2⟩,
    ⟨3, 2, 1, true, TileKind.block, 2⟩,
    ⟨4, 0, 0, false, TileKind.block, 2⟩,
    ⟨5, 4, 5, false, TileKind.block, 2⟩],
   [⟨0, 4, 0, true, TileKind.prisoner, 2⟩,
    ⟨1, 0, 1, true, TileKind.block, 2⟩,
    ⟨2, 3, 2, false, TileKind.block, 2⟩,
    ⟨3, 2, 0, true, TileKind.block, 2⟩,
    ⟨4, 0, 0, false, TileKind.block, 2⟩,
    ⟨5, 4, 5, false, TileKind.block, 2⟩],
   [⟨0, 4, 0, true, TileKind.prisoner, 2⟩,
    ⟨1, 0, 1, true, TileKind.block, 2⟩,
    ⟨2, 2, 2, false, TileKind.block, 2⟩,
    ⟨3, 2, 0, true, TileKind.block, 2⟩,
    ⟨4, 0, 0, false, TileKind.block, 2⟩,
    ⟨5, 4, 5, false, TileKind.block, 2⟩],
   [⟨0, 4, 0, true, TileKind.prisoner, 2⟩,
    ⟨1, 0, 1, true, TileKind.block, 2⟩,
    ⟨2, 1, 2, false, TileKind.block, 2⟩,
    ⟨3, 2, 0, true, TileKind.block, 2⟩,
    ⟨4, 0, 0, false, TileKind.block, 2⟩,
    ⟨5, 4, 5, false, TileKind.block, 2⟩]]

/-- The states after each of twelve moves that lead from `pinwheelQ` back to
`pinwheelP`. -/
def pinwheelPathQP : List (List Block) :=
  [[⟨0, 4, 0, true, TileKind.prisoner, 2⟩,
    ⟨1, 0, 1, true, TileKind.block, 2⟩,
    ⟨2, 2, 2, false, TileKind.block, 2⟩,
    ⟨3, 2, 0, true, TileKind.block, 2⟩,
    ⟨4, 0, 0, false, TileKind.block, 2⟩,
    ⟨5, 4, 5, false, TileKind.block, 2⟩],
   [⟨0, 4, 0, true, TileKind.prisoner, 2⟩,
    ⟨1, 0, 1, true, TileKind.block, 2⟩,
    ⟨2, 3, 2, false, TileKind.block, 2⟩,
    ⟨3, 2, 0, true, TileKind.block, 2⟩,
    ⟨4, 0, 0, false, TileKind.block, 2⟩,
    ⟨5, 4, 5, false, TileKind.block, 2⟩],
   [⟨0, 4, 0, true, TileKind.prisoner, 2⟩,
    ⟨1, 0, 1, true, TileKind.block, 2⟩,
    ⟨2, 3, 2, false, TileKind.block, 2⟩,
    ⟨3, 2, 1, true, TileKind.block, 2⟩,
    ⟨4, 0, 0, false, TileKind.block, 2⟩,
    ⟨5, 4, 5, false, TileKind.block, 2⟩],
   [⟨0, 4, 0, true, TileKind.prisoner, 2⟩,
    ⟨1, 0, 1, true, TileKind.block, 2⟩,
    ⟨2, 3, 2, false, TileKind.block, 2⟩,
    ⟨3, 2, 2, true, TileKind.block, 2⟩,
    ⟨4, 0, 0, false, TileKind.block, 2⟩,
    ⟨5, 4, 5, false, TileKind.block, 2⟩],
   [⟨0, 4, 0, true, TileKind.prisoner, 2⟩,
    ⟨1, 0, 1, true, TileKind.block, 2⟩,
    ⟨2, 3, 2, false, TileKind.block, 2⟩,
    ⟨3, 2, 3, true, TileKind.block, 2⟩,
    ⟨4, 0, 0, false, TileKind.block, 2⟩,
    ⟨5, 4, 5, false, TileKind.block, 2⟩],
   [⟨0, 4, 0, true, TileKind.prisoner, 2⟩,
    ⟨1, 0, 1, true, TileKind.block, 2⟩,
    ⟨2, 2, 2, false, TileKind.block, 2⟩,
    ⟨3, 2, 3, true, TileKind.block, 2⟩,
    ⟨4, 0, 0, false, TileKind.block, 2⟩,
    ⟨5, 4, 5, false, TileKind.block, 2⟩],
   [⟨0, 4, 0, true, TileKind.prisoner, 2⟩,
    ⟨1, 0, 1, true, TileKind.block, 2⟩,
    ⟨2, 1, 2, false, TileKind.block, 2⟩,
    ⟨3, 2, 3, true, TileKind.block, 2⟩,
    ⟨4, 0, 0, false, TileKind.block, 2⟩,
    ⟨5, 4, 5, false, TileKind.block, 2⟩],
   [⟨0, 4, 0, true, TileKind.prisoner, 2⟩,
    ⟨1, 0, 1, true, TileKind.block, 2⟩,
    ⟨2, 1, 2, false, TileKind.block, 2⟩,
    ⟨3, 2, 3, true, TileKind.block, 2⟩,
    ⟨4, 1, 0, false, TileKind.block, 2⟩,
    ⟨5, 4, 5, false, TileKind.block, 2⟩],
   [⟨0, 4, 0, true, TileKind.prisoner, 2⟩,
    ⟨1, 0, 0, true, TileKind.block, 2⟩,
    ⟨2, 1, 2, false, TileKind.block, 2⟩,
    ⟨3, 2, 3, true, TileKind.block, 2⟩,
    ⟨4, 1, 0, false, TileKind.block, 2⟩,
    ⟨5, 4, 5, false, TileKind.block, 2⟩],
   [⟨0, 4, 0, true, TileKind.prisoner, 2⟩,
    ⟨1, 0, 0, true, TileKind.block, 2⟩,
    ⟨2, 0, 2, false, TileKind.block, 2⟩,
    ⟨3, 2, 3, true, TileKind.block, 2⟩,
    ⟨4, 1, 0, false, TileKind.block, 2⟩,
    ⟨5, 4, 5, false, TileKind.block, 2⟩],
   [⟨0, 4, 0, true, TileKind.prisoner, 2⟩,
    ⟨1, 0, 0, true, TileKind.block, 2⟩,
    ⟨2, 0, 2, false, TileKind.block, 2⟩,
    ⟨3, 2, 2, true, TileKind.block, 2⟩,
    ⟨4, 1, 0, false, TileKind.block, 2⟩,
    ⟨5, 4, 5, false, TileKind.block, 2⟩],
   [⟨0, 4, 0, true, TileKind.prisoner, 2⟩,
    ⟨1, 0, 0, true, TileKind.block, 2⟩,
    ⟨2, 0, 2, false, TileKind.block, 2⟩,
    ⟨3, 2, 1, true, TileKind.block, 2⟩,
    ⟨4, 1, 0, false, TileKind.block, 2⟩,
    ⟨5, 4, 5, false, TileKind.block, 2⟩]]

/-- Every state of `path` is one of the successors the expansion loop generates
from the state before it, starting from `S`. -/
def legalPath : List Block → List (List Block) → Bool
  | _, [] => true
  | S, R :: rest => decide (R ∈ generated S) && legalPath R rest

/-- The top and bottom "borders" of each tile:
`enum BorderKind { notBorder = 0, white = 1, black = 2 }`. -/
inductive BorderKind where
  | notBorder
  | white
  | black
deriving DecidableEq, Repr

/-- The local state of `ScanBodiesAndBordersAndEmitStartingPiecePositions`: the
list `pieces`, the array `isTileKnown[SIZE][SIZE]` in row-major order, and the
class-global counter `Block::BlockId` from which the constructor of `Block` draws
the ids. -/
structure ScanState where
  pieces : List Block
  isTileKnown : List Bool
  BlockId : Nat
deriving Repr

/-- The statement `pieces.push_back(Block(y, x, isHorizontal, kind, length))`: the
constructor takes the id from the counter and increments it. -/
def pushBlock (st : ScanState) (y x : Nat) (isHorizontal : Bool) (kind : TileKind)
    (length : Int) : ScanState :=
  { st with
    pieces := st.pieces ++ [⟨st.BlockId, (y : Int), (x : Int), isHorizontal, kind, length⟩]
    BlockId := st.BlockId + 1 }

/-- The assignment `isTileKnown[y][x] = true`. -/
def markKnown (st : ScanState) (y x : Nat) : ScanState :=
  { st with isTileKnown := st.isTileKnown.set (y * 6 + x) true }

/-- The loop that scans horizontally for the end of a block (lines 89-93); the
first argument bounds the iterations, of which there are at most five.  Returns
`xend` and the state. -/
def scanHorizontal (g_borders : Nat → Nat → BorderKind) (y : Nat) :
    Nat → Nat → ScanState → Nat × ScanState
  | 0, xend, st => (xend, st)
  | n + 1, xend, st =>
    if xend < 6 ∧ g_borders (2 * y + 1) xend = BorderKind.black ∧
        g_borders (2 * y) xend = BorderKind.white then
      scanHorizontal g_borders y n (xend + 1) (markKnown st y xend)
    else (xend, st)

/-- The loop that scans vertically for the end of a block (lines 117-120); the
first argument bounds the iterations, of which there are at most five.  Returns
`yend` and the state. -/
def scanVertical (g_borders : Nat → Nat → BorderKind) (x : Nat) :
    Nat → Nat → ScanState → Nat × ScanState
  | 0, yend, st => (yend, st)
  | n + 1, yend, st =>
    if yend < 6 ∧ g_borders (2 * yend + 1) x ≠ BorderKind.black then
      scanVertical g_borders x n (yend + 1) (markKnown st yend x)
    else (yend, st)

/-- The body of the two `for` loops for the tile `(y, x)` (lines 69-127). -/
def scanTile (g_tiles : Nat → Nat → TileKind) (g_borders : Nat → Nat → BorderKind)
    (st : ScanState) (y x : Nat) : ScanState :=
  if st.isTileKnown.getD (y * 6 + x) false = true then st
  else if TileKind.empty = g_tiles y x then markKnown st y x
  else if g_borders (2 * y) x = BorderKind.white ∧
      g_borders (2 * y + 1) x = BorderKind.black then
    let r := scanHorizontal g_borders y 6 (x + 1) (markKnown st y x)
    if (r.1 : Int) - (x : Int) = 4 then
      pushBlock (pushBlock r.2 y x true (g_tiles y x) 2) y (x + 2) true (g_tiles y (x + 2)) 2
    else pushBlock r.2 y x true (g_tiles y x) ((r.1 : Int) - (x : Int))
  else if g_borders (2 * y) x = BorderKind.white then
    let r := scanVertical g_borders x 6 (y + 1) (markKnown st y x)
    pushBlock r.2 y x false (g_tiles y x) ((r.1 : Int) - (y : Int) + 1)
  else markKnown st y x

/-- One pass of the two nested `for` loops over the 36 tiles (lines 67-129). -/
def scanPass (g_tiles : Nat → Nat → TileKind) (g_borders : Nat → Nat → BorderKind)
    (st : ScanState) : ScanState :=
  (List.range 6).foldl
    (fun st y => (List.range 6).foldl (fun st x => scanTile g_tiles g_borders st y x) st) st

/-- The flag `allDone` (lines 130-133). -/
def allDone (st : ScanState) : Bool :=
  (List.range 6).all (fun y => (List.range 6).all (fun x => st.isTileKnown.getD (y * 6 + x) false))

/-- The loop `while (true)` of the scanner, driven by fuel; `none` when the fuel
runs out. -/
def scanLoop (g_tiles : Nat → Nat → TileKind) (g_borders : Nat → Nat → BorderKind) :
    Nat → ScanState → Option (List Block)
  | 0, _ => none
  | fuel + 1, st =>
    let st1 := scanPass g_tiles g_borders st
    if allDone st1 then some st1.pieces else scanLoop g_tiles g_borders fuel st1

/-- The function `ScanBodiesAndBordersAndEmitStartingPiecePositions`, called at
startup, when the counter `Block::BlockId` is 0. -/
def ScanBodiesAndBordersAndEmitStartingPiecePositions (g_tiles : Nat → Nat → TileKind)
    (g_borders : Nat → Nat → BorderKind) (fuel : Nat) : Option (List Block) :=
  scanLoop g_tiles g_borders fuel ⟨[], List.replicate 36 false, 0⟩

/-- Tile bodies with one block tile, at (5,0). -/
def bottomTiles : Nat → Nat → TileKind :=
  fun y x => if y = 5 ∧ x = 0 then TileKind.block else TileKind.empty

/-- Borders with a white top border on the tile (5,0) and no other border. -/
def bottomBorders : Nat → Nat → BorderKind :=
  fun r x => if r = 10 ∧ x = 0 then BorderKind.white else BorderKind.notBorder

/-- How the backtracking loop ends. -/
inductive BacktrackEnd where
  /-- The entry with block id -1 was found: the starting board is reached. -/
  | sentinel
  /-- The lookup `previousMoves.find(board)` returned `end()`. -/
  | lookupFailed
  /-- No piece has the recorded block id: `assert(it != pieces.end())` fails. -/
  | assertFailed
  /-- The fuel of the model ran out. -/
  | outOfFuel
deriving DecidableEq, Repr

/-- The backtracking loop (lines 315-338), observed for the way it ends. -/
def backtrackEnd (previousMoves : MoveMap) : Nat → List Block → BacktrackEnd
  | 0, _ => BacktrackEnd.outOfFuel
  | fuel + 1, pieces =>
    match previousMoves.find (renderPieces pieces) with
    | none => BacktrackEnd.lookupFailed
    | some mv =>
      if mv._blockId = -1 then BacktrackEnd.sentinel
      else
        match revertMove mv pieces with
        | none => BacktrackEnd.assertFailed
        | some moved => backtrackEnd previousMoves fuel moved

/-- The cells `renderPieces` writes. -/
def renderAccesses (pieces : List Block) : List (Int × Int) :=
  pieces.flatMap (fun p => p.cells)

/-- The cells the loop of the goal test reads, up to its `break`. -/
def allClearReads (board : Board) (y : Int) : Nat → Int → List (Int × Int)
  | 0, _ => []
  | n + 1, x =>
    (y, x) :: (if board.get y x = TileKind.empty then allClearReads board y n (x + 1) else [])

/-- The cells the goal test reads for the prisoner `it`. -/
def goalAccesses (board : Board) (it : Block) : List (Int × Int) :=
  allClearReads board it._y (SIZE - (it._x + it._length)).toNat (it._x + it._length)

/-- The cells the move generation reads for one block: a cell is read only when
the comparison before `&&` holds. -/
def expandAccesses (piece : Block) : List (Int × Int) :=
  if piece._isHorizontal then
    (if 0 < piece._x then [(piece._y, piece._x - 1)] else []) ++
    (if piece._x + piece._length < SIZE then [(piece._y, piece._x + piece._length)] else [])
  else
    (if 0 < piece._y then [(piece._y - 1, piece._x)] else []) ++
    (if piece._y + piece._length < SIZE then [(piece._y + piece._length, piece._x)] else [])

/-- Exchanging the ids `a` and `b` in a piece list. -/
def exchangeIds (a b : Nat) (pieces : List Block) : List Block :=
  pieces.map (fun p =>
    if p._id = a then { p with _id := b }
    else if p._id = b then { p with _id := a }
    else p)

/-- The transposition of the ids `a` and `b`. -/
def swapId (a b : Nat) (i : Nat) : Nat :=
  if i = a then b else if i = b then a else i

/-- A block with its id renamed by `f`. -/
def relabelBlock (f : Nat → Nat) (p : Block) : Block := { p with _id := f p._id }

/-- A piece list with the ids renamed by `f`. -/
def relabel (f : Nat → Nat) (pieces : List Block) : List Block :=
  pieces.map (relabelBlock f)

/-- A recorded move with the block id renamed by `f`; the sentinel is kept. -/
def relabelMove (f : Nat → Nat) (mv : Move) : Move :=
  if 0 ≤ mv._blockId then ⟨(f mv._blockId.toNat : Int), mv._move⟩ else mv

/-- The containers of the search with all ids renamed by `f`. -/
def relabelState (f : Nat → Nat) (s : SolverState) : SolverState :=
  { previousMoves := s.previousMoves.map (fun e => (e.1, relabelMove f e.2))
    visited := s.visited
    queue := s.queue.map (relabel f) }

/-- An outcome with all ids renamed by `f`. -/
def relabelOutcome (f : Nat → Nat) : Outcome → Outcome
  | .solved solution => Outcome.solved (solution.map (relabel f))
  | .noSolution => Outcome.noSolution
  | .assertionFailed => Outcome.assertionFailed
  | .outOfFuel => Outcome.outOfFuel

/-- A board with two ordinary vertical pieces of length 2 (ids 1 and 2) in front of
the prisoner. -/
def scenarioTwins : List Block :=
  [⟨0, 2, 0, true, TileKind.prisoner, 2⟩, ⟨1, 2, 3, false, TileKind.block, 2⟩,
   ⟨2, 1, 4, false, TileKind.block, 2⟩]

/-- The solution found for `scenarioTwins`: piece 1 moves down, then piece 2 moves up. -/
def scenarioTwinsSolution : List (List Block) :=
  [scenarioTwins,
   [⟨0, 2, 0, true, TileKind.prisoner, 2⟩, ⟨1, 3, 3, false, TileKind.block, 2⟩,
    ⟨2, 1, 4, false, TileKind.block, 2⟩],
   [⟨0, 2, 0, true, TileKind.prisoner, 2⟩, ⟨1, 3, 3, false, TileKind.block, 2⟩,
    ⟨2, 0, 4, false, TileKind.block, 2⟩]]

/-- A result of one iteration with all ids renamed by `f`. -/
def relabelStep (f : Nat → Nat) : StepResult → StepResult
  | .next s => StepResult.next (relabelState f s)
  | .goal pieces s => StepResult.goal (relabel f pieces) (relabelState f s)
  | .emptyQueue => StepResult.emptyQueue
  | .assertFailed => StepResult.assertFailed

/-- A valid board of ten pieces, listed in the order in which the scanner emits
them (row by row, by the top-left cell), whose prisoner (piece 0, in row 0) can be
freed in 17 moves. -/
def pinwheelBoard : List Block :=
  [⟨0, 0, 0, true, TileKind.prisoner, 2⟩,
   ⟨1, 0, 2, false, TileKind.block, 2⟩,
   ⟨2, 0, 5, false, TileKind.block, 2⟩,
   ⟨3, 1, 0, false, TileKind.block, 2⟩,
   ⟨4, 1, 3, false, TileKind.block, 2⟩,
   ⟨5, 2, 1, true, TileKind.block, 2⟩,
   ⟨6, 3, 0, false, TileKind.block, 3⟩,
   ⟨7, 3, 5, false, TileKind.block, 2⟩,
   ⟨8, 4, 2, false, TileKind.block, 2⟩,
   ⟨9, 4, 3, true, TileKind.block, 2⟩]

/-- Seventeen successive one-cell moves from `pinwheelBoard`; after the last one the
prisoner has a clear row to the right edge. -/
def pinwheelBoardPath : List (List Block) :=
  [[⟨0, 0, 0, true, TileKind.prisoner, 2⟩,
    ⟨1, 0, 2, false, TileKind.block, 2⟩,
    ⟨2, 0, 5, false, TileKind.block, 2⟩,
    ⟨3, 1, 0, false, TileKind.block, 2⟩,
    ⟨4, 2, 3, false, TileKind.block, 2⟩,
    ⟨5, 2, 1, true, TileKind.block, 2⟩,
    ⟨6, 3, 0, false, TileKind.block, 3⟩,
    ⟨7, 3, 5, false, TileKind.block, 2⟩,
    ⟨8, 4, 2, false, TileKind.block, 2⟩,
    ⟨9, 4, 3, true, TileKind.block, 2⟩],
   [⟨0, 0, 0, true, TileKind.prisoner, 2⟩,
    ⟨1, 0, 2, false, TileKind.block, 2⟩,
    ⟨2, 0, 5, false, TileKind.block, 2⟩,
    ⟨3, 1, 0, false, TileKind.block, 2⟩,
    ⟨4, 2, 3, false, TileKind.block, 2⟩,
    ⟨5, 2, 1, true, TileKind.block, 2⟩,
    ⟨6, 3, 0, false, TileKind.block, 3⟩,
    ⟨7, 2, 5, false, TileKind.block, 2⟩,
    ⟨8, 4, 2, false, TileKind.block, 2⟩,
    ⟨9, 4, 3, true, TileKind.block, 2⟩],
   [⟨0, 0, 0, true, TileKind.prisoner, 2⟩,
    ⟨1, 0, 2, false, TileKind.block, 2⟩,
    ⟨2, 0, 5, false, TileKind.block, 2⟩,
    ⟨3, 1, 0, false, TileKind.block, 2⟩,
    ⟨4, 2, 3, false, TileKind.block, 2⟩,
    ⟨5, 2, 1, true, TileKind.block, 2⟩,
    ⟨6, 3, 0, false, TileKind.block, 3⟩,
    ⟨7, 2, 5, false, TileKind.block, 2⟩,
    ⟨8, 4, 2, false, TileKind.block, 2⟩,
    ⟨9, 4, 4, true, TileKind.block, 2⟩],
   [⟨0, 0, 0, true, TileKind.prisoner, 2⟩,
    ⟨1, 0, 2, false, TileKind.block, 2⟩,
    ⟨2, 0, 5, false, TileKind.block, 2⟩,
    ⟨3, 1, 0, false, TileKind.block, 2⟩,
    ⟨4, 3, 3, false, TileKind.block, 2⟩,
    ⟨5, 2, 1, true, TileKind.block, 2⟩,
    ⟨6, 3, 0, false, TileKind.block, 3⟩,
    ⟨7, 2, 5, false, TileKind.block, 2⟩,
    ⟨8, 4, 2, false, TileKind.block, 2⟩,
    ⟨9, 4, 4, true, TileKind.block, 2⟩],
   [⟨0, 0, 0, true, TileKind.prisoner, 2⟩,
    ⟨1, 0, 2, false, TileKind.block, 2⟩,
    ⟨2, 0, 5, false, TileKind.block, 2⟩,
    ⟨3, 1, 0, false, TileKind.block, 2⟩,
    ⟨4, 3, 3, false, TileKind.block, 2⟩,
    ⟨5, 2, 2, true, TileKind.block, 2⟩,
    ⟨6, 3, 0, false, TileKind.block, 3⟩,
    ⟨7, 2, 5, false, TileKind.block, 2⟩,
    ⟨8, 4, 2, false, TileKind.block, 2⟩,
    ⟨9, 4, 4, true, TileKind.block, 2⟩],
   [⟨0, 0, 0, true, TileKind.prisoner, 2⟩,
    ⟨1, 0, 2, false, TileKind.block, 2⟩,
    ⟨2, 0, 5, false, TileKind.block, 2⟩,
    ⟨3, 1, 0, false, TileKind.block, 2⟩,
    ⟨4, 3, 3, false, TileKind.block, 2⟩,
    ⟨5, 2, 3, true, TileKind.block, 2⟩,
    ⟨6, 3, 0, false, TileKind.block, 3⟩,
    ⟨7, 2, 5, false, TileKind.block, 2⟩,
    ⟨8, 4, 2, false, TileKind.block, 2⟩,
    ⟨9, 4, 4, true, TileKind.block, 2⟩],
   [⟨0, 0, 0, true, TileKind.prisoner, 2⟩,
    ⟨1, 1, 2, false, TileKind.block, 2⟩,
    ⟨2, 0, 5, false, TileKind.block, 2⟩,
    ⟨3, 1, 0, false, TileKind.block, 2⟩,
    ⟨4, 3, 3, false, TileKind.block, 2⟩,
    ⟨5, 2, 3, true, TileKind.block, 2⟩,
    ⟨6, 3, 0, false, TileKind.block, 3⟩,
    ⟨7, 2, 5, false, TileKind.block, 2⟩,
    ⟨8, 4, 2, false, TileKind.block, 2⟩,
    ⟨9, 4, 4, true, TileKind.block, 2⟩],
   [⟨0, 0, 1, true, TileKind.prisoner, 2⟩,
    ⟨1, 1, 2, false, TileKind.block, 2⟩,
    ⟨2, 0, 5, false, TileKind.block, 2⟩,
    ⟨3, 1, 0, false, TileKind.block, 2⟩,
    ⟨4, 3, 3, false, TileKind.block, 2⟩,
    ⟨5, 2, 3, true, TileKind.block, 2⟩,
    ⟨6, 3, 0, false, TileKind.block, 3⟩,
    ⟨7, 2, 5, false, TileKind.block, 2⟩,
    ⟨8, 4, 2, false, TileKind.block, 2⟩,
    ⟨9, 4, 4, true, TileKind.block, 2⟩],
   [⟨0, 0, 2, true, TileKind.prisoner, 2⟩,
    ⟨1, 1, 2, false, TileKind.block, 2⟩,
    ⟨2, 0, 5, false, TileKind.block, 2⟩,
    ⟨3, 1, 0, false, TileKind.block, 2⟩,
    ⟨4, 3, 3, false, TileKind.block, 2⟩,
    ⟨5, 2, 3, true, TileKind.block, 2⟩,
    ⟨6, 3, 0, false, TileKind.block, 3⟩,
    ⟨7, 2, 5, false, TileKind.block, 2⟩,
    ⟨8, 4, 2, false, TileKind.block, 2⟩,
    ⟨9, 4, 4, true, TileKind.block, 2⟩],
   [⟨0, 0, 3, true, TileKind.prisoner, 2⟩,
    ⟨1, 1, 2, false, TileKind.block, 2⟩,
    ⟨2, 0, 5, false, TileKind.block, 2⟩,
    ⟨3, 1, 0, false, TileKind.block, 2⟩,
    ⟨4, 3, 3, false, TileKind.block, 2⟩,
    ⟨5, 2, 3, true, TileKind.block, 2⟩,
    ⟨6, 3, 0, false, TileKind.block, 3⟩,
    ⟨7, 2, 5, false, TileKind.block, 2⟩,
    ⟨8, 4, 2, false, TileKind.block, 2⟩,
    ⟨9, 4, 4, true, TileKind.block, 2⟩],
   [⟨0, 0, 3, true, TileKind.prisoner, 2⟩,
    ⟨1, 0, 2, false, TileKind.block, 2⟩,
    ⟨2, 0, 5, false, TileKind.block, 2⟩,
    ⟨3, 1, 0, false, TileKind.block, 2⟩,
    ⟨4, 3, 3, false, TileKind.block, 2⟩,
    ⟨5, 2, 3, true, TileKind.block, 2⟩,
    ⟨6, 3, 0, false, TileKind.block, 3⟩,
    ⟨7, 2, 5, false, TileKind.block, 2⟩,
    ⟨8, 4, 2, false, TileKind.block, 2⟩,
    ⟨9, 4, 4, true, TileKind.block, 2⟩],
   [⟨0, 0, 3, true, TileKind.prisoner, 2⟩,
    ⟨1, 0, 2, false, TileKind.block, 2⟩,
    ⟨2, 0, 5, false, TileKind.block, 2⟩,
    ⟨3, 1, 0, false, TileKind.block, 2⟩,
    ⟨4, 3, 3, false, TileKind.block, 2⟩,
    ⟨5, 2, 2, true, TileKind.block, 2⟩,
    ⟨6, 3, 0, false, TileKind.block, 3⟩,
    ⟨7, 2, 5, false, TileKind.block, 2⟩,
    ⟨8, 4, 2, false, TileKind.block, 2⟩,
    ⟨9, 4, 4, true, TileKind.block, 2⟩],
   [⟨0, 0, 3, true, TileKind.prisoner, 2⟩,
    ⟨1, 0, 2, false, TileKind.block, 2⟩,
    ⟨2, 0, 5, false, TileKind.block, 2⟩,
    ⟨3, 1, 0, false, TileKind.block, 2⟩,
    ⟨4, 3, 3, false, TileKind.block, 2⟩,
    ⟨5, 2, 1, true, TileKind.block, 2⟩,
    ⟨6, 3, 0, false, TileKind.block, 3⟩,
    ⟨7, 2, 5, false, TileKind.block, 2⟩,
    ⟨8, 4, 2, false, TileKind.block, 2⟩,
    ⟨9, 4, 4, true, TileKind.block, 2⟩],
   [⟨0, 0, 3, true, TileKind.prisoner, 2⟩,
    ⟨1, 0, 2, false, TileKind.block, 2⟩,
    ⟨2, 0, 5, false, TileKind.block, 2⟩,
    ⟨3, 1, 0, false, TileKind.block, 2⟩,
    ⟨4, 2, 3, false, TileKind.block, 2⟩,
    ⟨5, 2, 1, true, TileKind.block, 2⟩,
    ⟨6, 3, 0, false, TileKind.block, 3⟩,
    ⟨7, 2, 5, false, TileKind.block, 2⟩,
    ⟨8, 4, 2, false, TileKind.block, 2⟩,
    ⟨9, 4, 4, true, TileKind.block, 2⟩],
   [⟨0, 0, 3, true, TileKind.prisoner, 2⟩,
    ⟨1, 0, 2, false, TileKind.block, 2⟩,
    ⟨2, 0, 5, false, TileKind.block, 2⟩,
    ⟨3, 1, 0, false, TileKind.block, 2⟩,
    ⟨4, 2, 3, false, TileKind.block, 2⟩,
    ⟨5, 2, 1, true, TileKind.block, 2⟩,
    ⟨6, 3, 0, false, TileKind.block, 3⟩,
    ⟨7, 2, 5, false, TileKind.block, 2⟩,
    ⟨8, 4, 2, false, TileKind.block, 2⟩,
    ⟨9, 4, 3, true, TileKind.block, 2⟩],
   [⟨0, 0, 3, true, TileKind.prisoner, 2⟩,
    ⟨1, 0, 2, false, TileKind.block, 2⟩,
    ⟨2, 0, 5, false, TileKind.block, 2⟩,
    ⟨3, 1, 0, false, TileKind.block, 2⟩,
    ⟨4, 2, 3, false, TileKind.block, 2⟩,
    ⟨5, 2, 1, true, TileKind.block, 2⟩,
    ⟨6, 3, 0, false, TileKind.block, 3⟩,
    ⟨7, 3, 5, false, TileKind.block, 2⟩,
    ⟨8, 4, 2, false, TileKind.block, 2⟩,
    ⟨9, 4, 3, true, TileKind.block, 2⟩],
   [⟨0, 0, 3, true, TileKind.prisoner, 2⟩,
    ⟨1, 0, 2, false, TileKind.block, 2⟩,
    ⟨2, 1, 5, false, TileKind.block, 2⟩,
    ⟨3, 1, 0, false, TileKind.block, 2⟩,
    ⟨4, 2, 3, false, TileKind.block, 2⟩,
    ⟨5, 2, 1, true, TileKind.block, 2⟩,
    ⟨6, 3, 0, false, TileKind.block, 3⟩,
    ⟨7, 3, 5, false, TileKind.block, 2⟩,
    ⟨8, 4, 2, false, TileKind.block, 2⟩,
    ⟨9, 4, 3, true, TileKind.block, 2⟩]]

/-- A cell `(y, x)` whose flat index `y*SIZE+x` lies inside the array `_data` of
`SIZE*SIZE` tiles, so that `operator()(y, x)` is a defined access. -/
def inArray (c : Int × Int) : Prop := 0 ≤ c.1 * SIZE + c.2 ∧ c.1 * SIZE + c.2 < SIZE * SIZE

instance (c : Int × Int) : Decidable (inArray c) := by
  unfold inArray
  infer_instance

/-- The coordinates and the length of a block are small enough for every `int`
expression of the search (`y*SIZE+x`, `x+length`, a shift by one) to stay far from
overflow. -/
def Block.fieldsBounded (p : Block) : Prop :=
  p._y.natAbs < 2 ^ 24 ∧ p._x.natAbs < 2 ^ 24 ∧ p._length.natAbs < 2 ^ 24

instance (p : Block) : Decidable p.fieldsBounded := by
  unfold Block.fieldsBounded
  infer_instance

/-- Every board access of `SolveBoard` on `pieces` up to the end of its first
iteration has defined behaviour in the source: the fields are bounded, every cell
`renderPieces` writes is inside the array and, when there is a prisoner, so is
every cell the goal test reads and, when the goal test fails, every cell the move
generation reads. -/
def AccessesDefined (pieces : List Block) : Prop :=
  (∀ p ∈ pieces, p.fieldsBounded) ∧
  (∀ c ∈ renderAccesses pieces, inArray c) ∧
  match findPrisoner pieces with
  | none => True
  | some z =>
    (∀ c ∈ goalAccesses (renderPieces pieces) z, inArray c) ∧
    (allClear (renderPieces pieces) z = false →
      ∀ p ∈ pieces, ∀ c ∈ expandAccesses p, inArray c)

instance (pieces : List Block) : Decidable (AccessesDefined pieces) := by
  unfold AccessesDefined
  cases findPrisoner pieces <;> infer_instance

/-- A malformed input: the horizontal piece at (0,5) of length 2 has its second cell
outside the 6x6 grid, at column 6; the write lands in the array, on the tile (1,0). -/
def malformedOffGrid : List Block :=
  [⟨0, 2, 0, true, TileKind.prisoner, 2⟩, ⟨1, 0, 5, true, TileKind.block, 2⟩]

/-! ## Keys: `Board::operator<` and key equality -/

theorem memcmp_self (a : List TileKind) : memcmp a a = 0 := by
  induction a with
  | nil => simp [memcmp]
  | cons x xs ih => simp [memcmp, ih]

theorem TileKind.toNat_inj {a b : TileKind} (h : a.toNat = b.toNat) : a = b := by
  cases a <;> cases b <;> simp [TileKind.toNat] at h <;> rfl

theorem memcmp_sameKey {a b : List TileKind} (hl : a.length = b.length)
    (h1 : ¬ memcmp a b < 0) (h2 : ¬ memcmp b a < 0) : a = b := by
  induction a generalizing b with
  | nil => cases b with
    | nil => rfl
    | cons y ys => simp at hl
  | cons x xs ih => cases b with
    | nil => simp at hl
    | cons y ys =>
      simp only [List.length_cons, Nat.add_right_cancel_iff] at hl
      simp only [memcmp] at h1 h2
      by_cases hxy : x.toNat < y.toNat
      · simp [hxy] at h1
      · by_cases hyx : y.toNat < x.toNat
        · simp [hyx] at h2
        · have hx : x = y := TileKind.toNat_inj (by omega)
          simp only [hxy, hyx, if_false] at h1 h2
          rw [hx, ih hl h1 h2]

theorem sameKey_refl (a : Board) : a.sameKey a = true := by
  simp [Board.sameKey, Board.lt, memcmp_self]

theorem sameKey_iff {a b : Board} (hl : a._data.length = b._data.length) :
    a.sameKey b = true ↔ a = b := by
  constructor
  · intro h
    simp only [Board.sameKey, Board.lt, Bool.and_eq_true, Bool.not_eq_true',
      decide_eq_false_iff_not] at h
    cases a; cases b
    simp only [Board.mk.injEq]
    exact memcmp_sameKey hl h.1 h.2
  · rintro rfl
    exact sameKey_refl a

/-! ## Reading and writing cells -/

theorem Board.set_length (b : Board) (y x : Int) (k : TileKind) :
    (b.set y x k)._data.length = b._data.length := by
  unfold Board.set
  split <;> simp

theorem writeCells_length (cs : List (Int × Int)) (k : TileKind) (b : Board) :
    (writeCells b cs k)._data.length = b._data.length := by
  induction cs generalizing b with
  | nil => rfl
  | cons c cs ih => simp only [writeCells, List.foldl_cons] at ih ⊢; rw [ih, Board.set_length]

theorem renderBlock_eq (tmp : Board) (p : Block) :
    renderBlock tmp p = writeCells tmp p.cells p._kind := by
  unfold renderBlock writeCells Block.cells
  split <;> simp [List.foldl_map, *]

theorem Board.get_set (b : Board) (hb : b._data.length = 36) {c d : Int × Int}
    (hc : inGrid c) (hd : inGrid d) (k : TileKind) :
    (b.set c.1 c.2 k).get d.1 d.2 = if c = d then k else b.get d.1 d.2 := by
  obtain ⟨c1, c2⟩ := c
  obtain ⟨d1, d2⟩ := d
  simp only [inGrid, SIZE] at hc hd
  have h0 : (0 : Int) ≤ c1 * 6 + c2 := by omega
  have h1 : (0 : Int) ≤ d1 * 6 + d2 := by omega
  simp only [Board.get, Board.set, SIZE, h0, h1, if_true, List.getD_eq_getElem?_getD,
    List.getElem?_set, Prod.mk.injEq]
  by_cases h : c1 = d1 ∧ c2 = d2
  · obtain ⟨rfl, rfl⟩ := h
    have : (c1 * 6 + c2).toNat < b._data.length := by omega
    simp [this]
  · have : (c1 * 6 + c2).toNat ≠ (d1 * 6 + d2).toNat := by omega
    simp [this, h]

theorem get_writeCells (cs : List (Int × Int)) (k : TileKind) (b : Board)
    (hb : b._data.length = 36) (hcs : ∀ c ∈ cs, inGrid c) {d : Int × Int} (hd : inGrid d) :
    (writeCells b cs k).get d.1 d.2 = if d ∈ cs then k else b.get d.1 d.2 := by
  induction cs generalizing b with
  | nil => simp [writeCells]
  | cons c cs ih =>
    have hc := hcs c (List.mem_cons_self _ _)
    have hrest : ∀ c ∈ cs, inGrid c := fun x hx => hcs x (List.mem_cons_of_mem _ hx)
    have := ih (b.set c.1 c.2 k) (by rw [Board.set_length]; exact hb) hrest
    simp only [writeCells, List.foldl_cons] at this ⊢
    rw [this, Board.get_set b hb hc hd]
    by_cases h1 : d ∈ cs
    · simp [h1]
    · by_cases h2 : c = d
      · simp [h2]
      · have : ¬ d = c := fun h => h2 h.symm
        simp [h1, h2, this]

theorem getD_replicate_self (n i : Nat) (a : TileKind) : (List.replicate n a).getD i a = a := by
  rw [List.getD_eq_getElem?_getD, List.getElem?_replicate]
  split <;> rfl

theorem Board.init_get (y x : Int) : Board.init.get y x = TileKind.empty := by
  unfold Board.get Board.init
  split
  · exact getD_replicate_self _ _ _
  · rfl

theorem mem_cells {p : Block} {c : Int × Int} :
    c ∈ p.cells ↔
      (p._isHorizontal = true ∧ c.1 = p._y ∧ p._x ≤ c.2 ∧ c.2 < p._x + p._length) ∨
      (p._isHorizontal = false ∧ c.2 = p._x ∧ p._y ≤ c.1 ∧ c.1 < p._y + p._length) := by
  obtain ⟨c1, c2⟩ := c
  simp only [Block.cells, List.mem_map, List.mem_range, Int.lt_toNat]
  constructor
  · rintro ⟨i, hi, h⟩
    cases hh : p._isHorizontal
    · simp only [hh, Bool.false_eq_true, if_false, Prod.mk.injEq] at h
      right
      exact ⟨rfl, by omega, by omega, by omega⟩
    · simp only [hh, if_true, Prod.mk.injEq] at h
      left
      exact ⟨rfl, by omega, by omega, by omega⟩
  · rintro (⟨hh, h1, h2, h3⟩ | ⟨hh, h1, h2, h3⟩)
    · have e := Int.toNat_of_nonneg (show 0 ≤ c2 - p._x by omega)
      refine ⟨(c2 - p._x).toNat, by omega, ?_⟩
      simp only [hh, if_true, Prod.mk.injEq]
      constructor <;> omega
    · have e := Int.toNat_of_nonneg (show 0 ≤ c1 - p._y by omega)
      refine ⟨(c1 - p._y).toNat, by omega, ?_⟩
      simp only [hh, Bool.false_eq_true, if_false, Prod.mk.injEq]
      constructor <;> omega

theorem renderBlock_length (b : Board) (p : Block) :
    (renderBlock b p)._data.length = b._data.length := by
  rw [renderBlock_eq, writeCells_length]

theorem foldl_renderBlock_length (P : List Block) (b : Board) :
    (P.foldl renderBlock b)._data.length = b._data.length := by
  induction P generalizing b with
  | nil => rfl
  | cons p P ih => rw [List.foldl_cons, ih, renderBlock_length]

theorem renderPieces_length (P : List Block) : (renderPieces P)._data.length = 36 := by
  unfold renderPieces
  rw [foldl_renderBlock_length]
  rfl

theorem get_foldl_renderBlock_of_not_mem (P : List Block) (b : Board) (hb : b._data.length = 36)
    (hP : ∀ p ∈ P, ∀ c ∈ p.cells, inGrid c) {d : Int × Int} (hd : inGrid d)
    (hnot : ∀ p ∈ P, d ∉ p.cells) :
    (P.foldl renderBlock b).get d.1 d.2 = b.get d.1 d.2 := by
  induction P generalizing b with
  | nil => rfl
  | cons p P ih =>
    rw [List.foldl_cons, ih (renderBlock b p) (by rw [renderBlock_length]; exact hb)
      (fun q hq => hP q (List.mem_cons_of_mem _ hq)) (fun q hq => hnot q (List.mem_cons_of_mem _ hq))]
    rw [renderBlock_eq, get_writeCells _ _ _ hb (hP p (List.mem_cons_self _ _)) hd]
    simp [hnot p (List.mem_cons_self _ _)]

theorem get_foldl_renderBlock_of_mem (l1 l2 : List Block) (p : Block) (b : Board)
    (hb : b._data.length = 36)
    (hP : ∀ q ∈ l1 ++ p :: l2, ∀ c ∈ q.cells, inGrid c) {d : Int × Int}
    (hd : d ∈ p.cells) (hnot : ∀ q ∈ l2, d ∉ q.cells) :
    ((l1 ++ p :: l2).foldl renderBlock b).get d.1 d.2 = p._kind := by
  have hdg : inGrid d := hP p (by simp) d hd
  rw [List.foldl_append, List.foldl_cons]
  rw [get_foldl_renderBlock_of_not_mem l2 _
    (by rw [renderBlock_length, foldl_renderBlock_length]; exact hb)
    (fun q hq => hP q (by simp [hq])) hdg hnot]
  rw [renderBlock_eq, get_writeCells _ _ _ (by rw [foldl_renderBlock_length]; exact hb)
    (hP p (by simp)) hdg]
  simp [hd]

/-! ## The render of a list of placed pieces -/

theorem render_get_of_mem {P : List Block} (hgrid : ∀ p ∈ P, ∀ c ∈ p.cells, inGrid c)
    (hdisj : P.Pairwise disjointBlocks) {p : Block} (hp : p ∈ P) {d : Int × Int}
    (hd : d ∈ p.cells) : (renderPieces P).get d.1 d.2 = p._kind := by
  obtain ⟨l1, l2, rfl⟩ := List.append_of_mem hp
  unfold renderPieces
  apply get_foldl_renderBlock_of_mem l1 l2 p Board.init rfl hgrid hd
  intro q hq
  rw [List.pairwise_append, List.pairwise_cons] at hdisj
  exact hdisj.2.1.1 q hq d hd

theorem render_get_of_not_mem {P : List Block} (hgrid : ∀ p ∈ P, ∀ c ∈ p.cells, inGrid c)
    {d : Int × Int} (hd : inGrid d) (hnot : ∀ p ∈ P, d ∉ p.cells) :
    (renderPieces P).get d.1 d.2 = TileKind.empty := by
  unfold renderPieces
  rw [get_foldl_renderBlock_of_not_mem P Board.init rfl hgrid hd hnot, Board.init_get]

theorem wf_bounds {p : Block} (h : p.wellFormed) :
    0 ≤ p._y ∧ 0 ≤ p._x ∧ (p._length = 2 ∨ p._length = 3) ∧
    (p._isHorizontal = true → p._y < 6 ∧ p._x + p._length ≤ 6) ∧
    (p._isHorizontal = false → p._x < 6 ∧ p._y + p._length ≤ 6) := by
  obtain ⟨hl, _, hc⟩ := h
  cases hh : p._isHorizontal
  · have h1 := hc (p._y, p._x) (mem_cells.2 (Or.inr ⟨hh, rfl, by dsimp only; omega, by dsimp only; omega⟩))
    have h2 := hc (p._y + p._length - 1, p._x)
      (mem_cells.2 (Or.inr ⟨hh, rfl, by dsimp only; omega, by dsimp only; omega⟩))
    simp only [inGrid, SIZE] at h1 h2
    refine ⟨by omega, by omega, hl, by simp, fun _ => ⟨by omega, by omega⟩⟩
  · have h1 := hc (p._y, p._x) (mem_cells.2 (Or.inl ⟨hh, rfl, by dsimp only; omega, by dsimp only; omega⟩))
    have h2 := hc (p._y, p._x + p._length - 1)
      (mem_cells.2 (Or.inl ⟨hh, rfl, by dsimp only; omega, by dsimp only; omega⟩))
    simp only [inGrid, SIZE] at h1 h2
    refine ⟨by omega, by omega, hl, fun _ => ⟨by omega, by omega⟩, by simp⟩

theorem wf_of_bounds {p : Block} (hk : p._kind ≠ TileKind.empty)
    (hl : p._length = 2 ∨ p._length = 3) (hy : 0 ≤ p._y) (hx : 0 ≤ p._x)
    (hh : p._isHorizontal = true → p._y < 6 ∧ p._x + p._length ≤ 6)
    (hv : p._isHorizontal = false → p._x < 6 ∧ p._y + p._length ≤ 6) : p.wellFormed := by
  refine ⟨hl, hk, ?_⟩
  intro c hc
  rw [mem_cells] at hc
  simp only [inGrid, SIZE]
  rcases hc with ⟨h, h1, h2, h3⟩ | ⟨h, h1, h2, h3⟩
  · have := hh h
    omega
  · have := hv h
    omega

theorem disjointBlocks_symm {p q : Block} (h : disjointBlocks p q) : disjointBlocks q p :=
  fun c hc hp => h c hp hc

theorem pairwise_replace {R : Block → Block → Prop} (hsymm : ∀ a b, R a b → R b a)
    {l1 l2 : List Block} {a b : Block} (h : (l1 ++ a :: l2).Pairwise R)
    (hb : ∀ q ∈ l1 ++ l2, R b q) : (l1 ++ b :: l2).Pairwise R := by
  rw [List.pairwise_append, List.pairwise_cons] at h ⊢
  refine ⟨h.1, ⟨fun q hq => hb q (List.mem_append_right _ hq), h.2.1.2⟩, ?_⟩
  intro x hx y hy
  rcases List.mem_cons.1 hy with rfl | hy2
  · exact hsymm _ _ (hb x (List.mem_append_left _ hx))
  · exact h.2.2 x hx y (List.mem_cons_of_mem _ hy2)

/-- Replacing one piece of a valid list by a piece with the same id, kind and
orientation that is well-formed and avoids all the other pieces gives a valid list. -/
theorem valid_replace {l1 l2 : List Block} {p m : Block} (hv : ValidInput (l1 ++ p :: l2))
    (hid : m._id = p._id) (hkind : m._kind = p._kind) (hor : m._isHorizontal = p._isHorizontal)
    (hwf : m.wellFormed) (hdis : ∀ q ∈ l1 ++ l2, disjointBlocks m q) :
    ValidInput (l1 ++ m :: l2) := by
  obtain ⟨h1, h2, h3, h4, h5⟩ := hv
  refine ⟨?_, pairwise_replace (fun a b => disjointBlocks_symm) h2 hdis, ?_, ?_, ?_⟩
  · intro q hq
    rcases List.mem_append.1 hq with hq | hq
    · exact h1 q (List.mem_append_left _ hq)
    · rcases List.mem_cons.1 hq with rfl | hq
      · exact hwf
      · exact h1 q (List.mem_append_right _ (List.mem_cons_of_mem _ hq))
  · simpa [hid] using h3
  · simp only [List.filter_append, List.filter_cons, hkind, List.length_append] at h4 ⊢
    by_cases hk : p._kind = TileKind.prisoner
    · simpa [hk] using h4
    · simpa [hk] using h4
  · intro q hq hk
    rcases List.mem_append.1 hq with hq | hq
    · exact h5 q (List.mem_append_left _ hq) hk
    · rcases List.mem_cons.1 hq with rfl | hq
      · rw [hor]
        exact h5 p (by simp) (by rw [← hkind]; exact hk)
      · exact h5 q (List.mem_append_right _ (List.mem_cons_of_mem _ hq)) hk

/-- A cell that is empty in the render of a valid list is covered by no piece. -/
theorem not_covered_of_empty {P : List Block} (hv : ValidInput P) {d : Int × Int}
    (he : (renderPieces P).get d.1 d.2 = TileKind.empty) : ∀ q ∈ P, d ∉ q.cells := by
  intro q hq hd
  have := render_get_of_mem (fun p hp => (hv.1 p hp).2.2) hv.2.1 hq hd
  rw [he] at this
  exact (hv.1 q hq).2.1 this.symm

theorem applyMove_fields (d : Direction) (p : Block) :
    (applyMove d p)._id = p._id ∧ (applyMove d p)._kind = p._kind ∧
    (applyMove d p)._isHorizontal = p._isHorizontal ∧ (applyMove d p)._length = p._length := by
  cases d <;> exact ⟨rfl, rfl, rfl, rfl⟩

/-- A legal move of one piece of a valid list gives a valid list. -/
theorem valid_move {l1 l2 : List Block} {p : Block} {d : Direction}
    (hv : ValidInput (l1 ++ p :: l2)) (hc : canMove (renderPieces (l1 ++ p :: l2)) p d) :
    ValidInput (l1 ++ applyMove d p :: l2) := by
  obtain ⟨fid, fkind, fhor, flen⟩ := applyMove_fields d p
  have hpwf := hv.1 p (by simp)
  obtain ⟨b1, b2, b3, b4, b5⟩ := wf_bounds hpwf
  have hdp : ∀ q ∈ l1 ++ l2, disjointBlocks p q := by
    intro q hq
    have := hv.2.1
    rw [List.pairwise_append, List.pairwise_cons] at this
    rcases List.mem_append.1 hq with hq | hq
    · exact disjointBlocks_symm (this.2.2 q hq p (List.mem_cons_self _ _))
    · exact this.2.1.1 q hq
  have hmem : ∀ q ∈ l1 ++ l2, q ∈ l1 ++ p :: l2 := by
    intro q hq
    rcases List.mem_append.1 hq with hq | hq
    · exact List.mem_append_left _ hq
    · exact List.mem_append_right _ (List.mem_cons_of_mem _ hq)
  apply valid_replace hv fid fkind fhor
  · apply wf_of_bounds (by rw [fkind]; exact hpwf.2.1) (by rw [flen]; exact b3)
    all_goals cases d <;> simp only [canMove, SIZE] at hc <;> simp only [applyMove] <;>
      (try intro hh) <;> (try have := b4 hc.1) <;> (try have := b5 hc.1) <;>
      (try simp_all) <;> omega
  · intro q hq c hc1 hc2
    have hq2 := hmem q hq
    cases d <;> simp only [canMove, SIZE] at hc <;> obtain ⟨ho, hb, he⟩ := hc <;>
      rw [mem_cells] at hc1 <;> simp only [applyMove, ho] at hc1 <;> simp at hc1
    · by_cases hcell : c.2 = p._x - 1
      · have : c = (p._y, p._x - 1) := Prod.ext hc1.1 hcell
        exact not_covered_of_empty hv (d := (p._y, p._x - 1)) he q hq2 (this ▸ hc2)
      · exact hdp q hq c (mem_cells.2 (Or.inl ⟨ho, hc1.1, by omega, by omega⟩)) hc2
    · by_cases hcell : c.2 = p._x + p._length
      · have : c = (p._y, p._x + p._length) := Prod.ext hc1.1 hcell
        exact not_covered_of_empty hv (d := (p._y, p._x + p._length)) he q hq2 (this ▸ hc2)
      · exact hdp q hq c (mem_cells.2 (Or.inl ⟨ho, hc1.1, by omega, by omega⟩)) hc2
    · by_cases hcell : c.1 = p._y - 1
      · have : c = (p._y - 1, p._x) := Prod.ext hcell hc1.1
        exact not_covered_of_empty hv (d := (p._y - 1, p._x)) he q hq2 (this ▸ hc2)
      · exact hdp q hq c (mem_cells.2 (Or.inr ⟨ho, hc1.1, by omega, by omega⟩)) hc2
    · by_cases hcell : c.1 = p._y + p._length
      · have : c = (p._y + p._length, p._x) := Prod.ext hcell hc1.1
        exact not_covered_of_empty hv (d := (p._y + p._length, p._x)) he q hq2 (this ▸ hc2)
      · exact hdp q hq c (mem_cells.2 (Or.inr ⟨ho, hc1.1, by omega, by omega⟩)) hc2

/-! ## The expansion loop against MoveGen of the specification -/

theorem copyPieces_eq (P : List Block) : copyPieces P = P := by
  have h : ∀ (l acc : List Block), l.foldl (fun copied p => copied ++ [p]) acc = acc ++ l := by
    intro l
    induction l with
    | nil => intro acc; simp
    | cons a l ih => intro acc; simp [ih]
  simpa [copyPieces] using h P []

theorem filter_canMove (board : Board) (p : Block) :
    [Direction.left, Direction.right, Direction.up, Direction.down].filter
        (fun d => decide (canMove board p d)) =
      (if canMove board p Direction.left then [Direction.left] else []) ++
      (if canMove board p Direction.right then [Direction.right] else []) ++
      (if canMove board p Direction.up then [Direction.up] else []) ++
      (if canMove board p Direction.down then [Direction.down] else []) := by
  by_cases h1 : canMove board p Direction.left <;> by_cases h2 : canMove board p Direction.right <;>
    by_cases h3 : canMove board p Direction.up <;> by_cases h4 : canMove board p Direction.down <;>
    simp [List.filter_cons, h1, h2, h3, h4]

theorem expandPiece_eq (board : Board) (before : List Block) (p : Block) (after : List Block)
    (s : SolverState) :
    expandPiece board before p after s =
      (p, (([Direction.left, Direction.right, Direction.up, Direction.down].filter
          (fun d => decide (canMove board p d))).map
        (fun d => (before ++ applyMove d p :: after, (⟨(p._id : Int), d⟩ : Move)))).foldl
          recordMove s) := by
  rw [filter_canMove]
  obtain ⟨id, y, x, h, k, l⟩ := p
  cases h
  · have e1 : ¬ canMove board ⟨id, y, x, false, k, l⟩ Direction.left := by simp [canMove]
    have e2 : ¬ canMove board ⟨id, y, x, false, k, l⟩ Direction.right := by simp [canMove]
    rw [if_neg e1, if_neg e2]
    unfold expandPiece
    simp only [Bool.false_eq_true, if_false, canMove, eq_comm (a := TileKind.empty)]
    by_cases c1 : 0 < y ∧ board.get (y - 1) x = TileKind.empty
    · rw [if_pos c1]
      simp only [sub_add_cancel]
      by_cases c2 : y + l < SIZE ∧ board.get (y + l) x = TileKind.empty
      · rw [if_pos c2]
        simp [c1, c2, COMMON_BODY, copyPieces_eq, recordMove, applyMove]
      · rw [if_neg c2]
        simp [c1, c2, COMMON_BODY, copyPieces_eq, recordMove, applyMove]
    · rw [if_neg c1]
      simp only
      by_cases c2 : y + l < SIZE ∧ board.get (y + l) x = TileKind.empty
      · rw [if_pos c2]
        simp [c1, c2, COMMON_BODY, copyPieces_eq, recordMove, applyMove]
      · rw [if_neg c2]
        simp [c1, c2]
  · have e1 : ¬ canMove board ⟨id, y, x, true, k, l⟩ Direction.up := by simp [canMove]
    have e2 : ¬ canMove board ⟨id, y, x, true, k, l⟩ Direction.down := by simp [canMove]
    rw [if_neg e1, if_neg e2]
    unfold expandPiece
    simp only [if_true, canMove, eq_comm (a := TileKind.empty)]
    by_cases c1 : 0 < x ∧ board.get y (x - 1) = TileKind.empty
    · rw [if_pos c1]
      simp only [sub_add_cancel]
      by_cases c2 : x + l < SIZE ∧ board.get y (x + l) = TileKind.empty
      · rw [if_pos c2]
        simp [c1, c2, COMMON_BODY, copyPieces_eq, recordMove, applyMove]
      · rw [if_neg c2]
        simp [c1, c2, COMMON_BODY, copyPieces_eq, recordMove, applyMove]
    · rw [if_neg c1]
      simp only
      by_cases c2 : x + l < SIZE ∧ board.get y (x + l) = TileKind.empty
      · rw [if_pos c2]
        simp [c1, c2, COMMON_BODY, copyPieces_eq, recordMove, applyMove]
      · rw [if_neg c2]
        simp [c1, c2]

theorem expandLoop_eq (board : Board) (rest before : List Block) (s : SolverState) :
    expandLoop board before rest s =
      (before ++ rest, (legalMoves board before rest).foldl recordMove s) := by
  induction rest generalizing before s with
  | nil => simp [expandLoop, legalMoves]
  | cons p after ih =>
    rw [expandLoop, expandPiece_eq, ih]
    simp [legalMoves, List.foldl_append]

theorem mem_legalMoves {board : Board} {rest before : List Block} {T : List Block} {m : Move} :
    (T, m) ∈ legalMoves board before rest ↔
      ∃ l1 p l2 d, rest = l1 ++ p :: l2 ∧ canMove board p d ∧
        T = before ++ l1 ++ applyMove d p :: l2 ∧ m = ⟨(p._id : Int), d⟩ := by
  induction rest generalizing before with
  | nil => simp [legalMoves]
  | cons q after ih =>
    rw [legalMoves, List.mem_append, ih]
    constructor
    · rintro (h | ⟨l1, p, l2, d, h1, h2, h3, h4⟩)
      · simp only [List.mem_map, List.mem_filter, decide_eq_true_eq, Prod.mk.injEq] at h
        obtain ⟨d, ⟨_, hc⟩, h3, h4⟩ := h
        exact ⟨[], q, after, d, rfl, hc, by simp [h3], h4.symm⟩
      · exact ⟨q :: l1, p, l2, d, by simp [h1], h2, by simp [h3], h4⟩
    · rintro ⟨l1, p, l2, d, h1, h2, h3, h4⟩
      cases l1 with
      | nil =>
        simp only [List.nil_append, List.cons.injEq] at h1
        obtain ⟨rfl, rfl⟩ := h1
        left
        simp only [List.mem_map, List.mem_filter, decide_eq_true_eq, Prod.mk.injEq]
        refine ⟨d, ⟨by cases d <;> simp, h2⟩, by simp [h3], h4.symm⟩
      | cons a l1 =>
        simp only [List.cons_append, List.cons.injEq] at h1
        obtain ⟨rfl, rfl⟩ := h1
        right
        exact ⟨l1, p, l2, d, rfl, h2, by simp [h3], h4⟩

theorem foldl_recordMove_queue (em : List (List Block × Move)) (s : SolverState) :
    (em.foldl recordMove s).queue = s.queue ++ em.map Prod.fst := by
  induction em generalizing s with
  | nil => simp
  | cons e em ih => simp [ih, recordMove]

theorem foldl_recordMove_visited (em : List (List Block × Move)) (s : SolverState) :
    (em.foldl recordMove s).visited = s.visited := by
  induction em generalizing s with
  | nil => simp
  | cons e em ih => simp [ih, recordMove]

theorem foldl_recordMove_previousMoves (em : List (List Block × Move)) (s : SolverState) :
    (em.foldl recordMove s).previousMoves =
      em.foldl (fun m e => MoveMap.insert m (renderPieces e.1) e.2) s.previousMoves := by
  induction em generalizing s with
  | nil => simp
  | cons e em ih => simp [ih, recordMove]

theorem mem_generated {S T : List Block} :
    T ∈ generated S ↔ ∃ m, (T, m) ∈ legalMoves (renderPieces S) [] S := by
  simp [generated, expandLoop_eq, foldl_recordMove_queue]

theorem generated_iff_moveStep {S T : List Block} : T ∈ generated S ↔ MoveStep S T := by
  rw [mem_generated]
  constructor
  · rintro ⟨m, hm⟩
    obtain ⟨l1, p, l2, d, h1, h2, h3, _⟩ := mem_legalMoves.1 hm
    exact ⟨l1, p, l2, d, h1, h2, by simpa using h3⟩
  · rintro ⟨l1, p, l2, d, h1, h2, h3⟩
    exact ⟨⟨(p._id : Int), d⟩, mem_legalMoves.2 ⟨l1, p, l2, d, h1, h2, by simpa using h3, rfl⟩⟩

/-! ## The parent map and the visited set -/

theorem MoveMap.find_append (m m2 : MoveMap) (b : Board) :
    MoveMap.find (m ++ m2) b = (MoveMap.find m b).orElse (fun _ => MoveMap.find m2 b) := by
  induction m with
  | nil => simp [MoveMap.find]
  | cons e m ih =>
    simp only [List.cons_append, MoveMap.find]
    split
    · rfl
    · exact ih

theorem MoveMap.find_insert_of_some {m : MoveMap} {k : Board} {v : Move} (b : Board) (mv : Move)
    (h : MoveMap.find m k = some v) : MoveMap.find (MoveMap.insert m b mv) k = some v := by
  unfold MoveMap.insert
  split
  · exact h
  · rw [MoveMap.find_append, h]
    rfl

theorem MoveMap.find_insert_self (m : MoveMap) (b : Board) (mv : Move) :
    MoveMap.find (MoveMap.insert m b mv) b =
      some ((MoveMap.find m b).getD mv) := by
  unfold MoveMap.insert
  split
  · rename_i v hv
    rw [hv]
    rfl
  · rename_i hv
    rw [MoveMap.find_append, hv]
    simp [MoveMap.find, sameKey_refl]

theorem MoveMap.find_insert_of_ne {m : MoveMap} {k b : Board} (mv : Move)
    (h : b.sameKey k = false) : MoveMap.find (MoveMap.insert m b mv) k = MoveMap.find m k := by
  unfold MoveMap.insert
  split
  · rfl
  · rw [MoveMap.find_append]
    cases hk : MoveMap.find m k with
    | some v => rfl
    | none => simp [MoveMap.find, h]

theorem MoveMap.mem_insert {m : MoveMap} {b : Board} {mv : Move} {e : Board × Move}
    (h : e ∈ MoveMap.insert m b mv) : e ∈ m ∨ e = (b, mv) := by
  unfold MoveMap.insert at h
  split at h
  · exact Or.inl h
  · simpa using h

theorem BoardSet.has_iff {s : BoardSet} {b : Board} (hs : ∀ k ∈ s, k._data.length = 36)
    (hb : b._data.length = 36) : BoardSet.has s b = true ↔ b ∈ s := by
  simp only [BoardSet.has, List.any_eq_true]
  constructor
  · rintro ⟨k, hk, hkb⟩
    rw [sameKey_iff (by rw [hs k hk, hb])] at hkb
    exact hkb ▸ hk
  · intro h
    exact ⟨b, h, sameKey_refl b⟩

theorem MoveMap.extends_refl (m : MoveMap) : MoveMap.Extends m m := fun _ _ h => h

theorem MoveMap.extends_trans {a b c : MoveMap} (h1 : MoveMap.Extends a b)
    (h2 : MoveMap.Extends b c) : MoveMap.Extends a c := fun k v h => h2 k v (h1 k v h)

theorem MoveMap.extends_insert (m : MoveMap) (b : Board) (mv : Move) :
    MoveMap.Extends m (MoveMap.insert m b mv) := fun _ _ h => MoveMap.find_insert_of_some b mv h

/-! ## Backtracking along recorded moves -/

theorem undoMove_applyMove (d : Direction) (p : Block) : undoMove d (applyMove d p) = p := by
  obtain ⟨id, y, x, h, k, l⟩ := p
  cases d <;> simp [undoMove, applyMove]

theorem revertMove_moved {l1 l2 : List Block} {p : Block} (d : Direction)
    (hid : ∀ q ∈ l1, q._id ≠ p._id) :
    revertMove ⟨(p._id : Int), d⟩ (l1 ++ applyMove d p :: l2) = some (l1 ++ p :: l2) := by
  induction l1 with
  | nil =>
    simp [revertMove, (applyMove_fields d p).1, undoMove_applyMove]
  | cons a l1 ih =>
    have ha : ¬ ((a._id : Int) = (p._id : Int)) := by
      have := hid a (List.mem_cons_self _ _)
      omega
    simp only [List.cons_append, revertMove, ha, if_false, List.append_eq]
    rw [ih (fun q hq => hid q (List.mem_cons_of_mem _ hq))]
    rfl

theorem TracedPath.mono {m m2 : MoveMap} (h : MoveMap.Extends m m2) {P0 : List Block}
    {pre : List (List Block)} {F : List Block} (t : TracedPath m P0 pre F) :
    TracedPath m2 P0 pre F := by
  induction t with
  | base h0 => exact TracedPath.base (h _ _ h0)
  | move _ hv hc hf ih => exact TracedPath.move ih hv hc (h _ _ hf)

theorem ids_before_ne {l1 l2 : List Block} {p : Block} (hv : ValidInput (l1 ++ p :: l2)) :
    ∀ q ∈ l1, q._id ≠ p._id := by
  intro q hq he
  have := hv.2.2.1
  rw [List.map_append, List.map_cons, List.nodup_append] at this
  exact this.2.2 (List.mem_map_of_mem _ hq) (he ▸ List.mem_cons_self _ _)

theorem backtrack_traced {m : MoveMap} {P0 : List Block} {pre : List (List Block)}
    {F : List Block} (t : TracedPath m P0 pre F) :
    ∀ (fuel : Nat) (sol : List (List Block)), pre.length < fuel →
      backtrack m fuel F sol = Outcome.solved (pre ++ sol) := by
  induction t with
  | base h0 =>
    intro fuel sol hf
    cases fuel with
    | zero => omega
    | succ fuel => simp [backtrack, h0]
  | @move pre l1 l2 p d _ hv hc hfind ih =>
    intro fuel sol hf
    cases fuel with
    | zero => omega
    | succ fuel =>
      have hne : ¬ ((p._id : Int) = -1) := by omega
      simp only [backtrack, hfind, hne, if_false]
      rw [revertMove_moved d (ids_before_ne hv)]
      simp only [copyPieces_eq]
      rw [ih fuel _ (by simp at hf; omega)]
      simp

theorem TracedPath.valid {m : MoveMap} {P0 : List Block} (h0 : ValidInput P0)
    {pre : List (List Block)} {F : List Block} (t : TracedPath m P0 pre F) : ValidInput F := by
  induction t with
  | base _ => exact h0
  | move _ hv hc _ _ => exact valid_move hv hc

theorem TracedPath.chain {m : MoveMap} {P0 : List Block}
    {pre : List (List Block)} {F : List Block} (t : TracedPath m P0 pre F) :
    (pre ++ [F]).head? = some P0 ∧ List.Chain' MoveStep (pre ++ [F]) := by
  induction t with
  | base _ => simp
  | @move pre l1 l2 p d _ hv hc _ ih =>
    constructor
    · have := ih.1
      cases pre <;> simpa using this
    · rw [List.append_assoc]
      have hstep : MoveStep (l1 ++ p :: l2) (l1 ++ applyMove d p :: l2) :=
        ⟨l1, p, l2, d, rfl, hc, rfl⟩
      rw [List.chain'_append] at ih ⊢
      refine ⟨ih.2.1, by simp [hstep], ?_⟩
      intro x hx y hy
      simp only [List.cons_append, List.nil_append, List.head?_cons, Option.mem_def,
        Option.some.injEq] at hy
      exact ih.2.2.2 x hx y (by simpa using hy)

theorem TracedPath.movesTo {m : MoveMap} {P0 : List Block}
    {pre : List (List Block)} {F : List Block} (t : TracedPath m P0 pre F) :
    MovesTo pre.length P0 F := by
  induction t with
  | base _ => rfl
  | @move pre l1 l2 p d _ hv hc _ ih =>
    rw [List.length_append, List.length_singleton]
    exact ⟨_, ih, ⟨l1, p, l2, d, rfl, hc, rfl⟩⟩

theorem MoveMap.find_key_length {m : MoveMap} (hm : ∀ e ∈ m, e.1._data.length = 36)
    {k : Board} {v : Move} (h : MoveMap.find m k = some v) (hk : k._data.length = 36) :
    (k, v) ∈ m := by
  induction m with
  | nil => simp [MoveMap.find] at h
  | cons e m ih =>
    simp only [MoveMap.find] at h
    split at h
    · rename_i hs
      rw [sameKey_iff (by rw [hm e (List.mem_cons_self _ _), hk])] at hs
      simp only [Option.some.injEq] at h
      rw [← hs, ← h]
      exact List.mem_cons_self _ _
    · exact List.mem_cons_of_mem _ (ih (fun e he => hm e (List.mem_cons_of_mem _ he)) h)

theorem MoveMap.find_isSome_length {m : MoveMap} (hm : ∀ e ∈ m, e.1._data.length = 36)
    {k : Board} (h : (MoveMap.find m k).isSome = true) : ∃ e ∈ m, e.1.sameKey k = true := by
  induction m with
  | nil => simp [MoveMap.find] at h
  | cons e m ih =>
    simp only [MoveMap.find] at h
    split at h
    · rename_i hs
      exact ⟨e, List.mem_cons_self _ _, hs⟩
    · obtain ⟨e2, he2, hs⟩ := ih (fun e he => hm e (List.mem_cons_of_mem _ he)) h
      exact ⟨e2, List.mem_cons_of_mem _ he2, hs⟩

theorem initState_inv {P0 : List Block} (h0 : ValidInput P0) : Inv P0 (initState P0) := by
  have hfind : MoveMap.find (initState P0).previousMoves (renderPieces P0) =
      some ⟨-1, Direction.left⟩ := by
    simp [initState, MoveMap.insert, MoveMap.find, sameKey_refl]
  refine ⟨?_, ?_, ?_, ?_, ?_, ?_, hfind, ?_⟩
  · intro e he
    simp only [initState, MoveMap.insert, MoveMap.find, List.nil_append, List.mem_singleton] at he
    rw [he]
    exact renderPieces_length P0
  · intro k hk
    simp [initState] at hk
  · intro L hL
    simp only [initState, copyPieces_eq, List.mem_singleton] at hL
    rw [hL]
    exact ⟨h0, rfl⟩
  · intro L hL
    simp only [initState, copyPieces_eq, List.mem_singleton] at hL
    rw [hL, hfind]
    rfl
  · intro k hk
    simp [initState] at hk
  · simp [initState]
  · intro k hk hf _
    have hkeq : renderPieces P0 = k := by
      simp only [initState, MoveMap.insert, MoveMap.find, List.nil_append] at hf
      split at hf
      · rename_i hs
        exact (sameKey_iff (by rw [renderPieces_length, hk])).1 hs
      · simp at hf
    refine ⟨[], P0, [], by simp [initState, copyPieces_eq], hkeq, by simp, [], ?_, by simp⟩
    exact TracedPath.base hfind
theorem recordMove_inv {P0 : List Block} {s : SolverState} {T : List Block} {m : Move}
    (hI : Inv P0 s) (hT : ValidInput T ∧ T.length = P0.length)
    (hpath : ∀ m2, MoveMap.Extends s.previousMoves m2 →
      MoveMap.find m2 (renderPieces T) = some m →
      ∃ path, TracedPath m2 P0 path T ∧ path.length ≤ s.visited.length) :
    Inv P0 (recordMove s (T, m)) := by
  have hext := MoveMap.extends_insert s.previousMoves (renderPieces T) m
  have hsome : ∀ k, (MoveMap.find s.previousMoves k).isSome = true →
      (MoveMap.find (MoveMap.insert s.previousMoves (renderPieces T) m) k).isSome = true := by
    intro k hk
    obtain ⟨v, hv⟩ := Option.isSome_iff_exists.1 hk
    rw [hext k v hv]
    rfl
  refine ⟨?_, hI.vkeys, ?_, ?_, ?_, hI.nodup, hext _ _ hI.sentinel, ?_⟩
  · intro e he
    rcases MoveMap.mem_insert he with h | h
    · exact hI.keys e h
    · rw [h]
      exact renderPieces_length T
  · intro L hL
    simp only [recordMove, List.mem_append, List.mem_singleton] at hL
    rcases hL with h | h
    · exact hI.valid L h
    · rw [h]
      exact hT
  · intro L hL
    simp only [recordMove, List.mem_append, List.mem_singleton] at hL
    rcases hL with h | h
    · exact hsome _ (hI.queued L h)
    · rw [h]
      simp only [recordMove]
      rw [MoveMap.find_insert_self]
      rfl
  · intro k hk
    exact hsome _ (hI.seen k hk)
  · intro k hk hf hv
    simp only [recordMove] at hf hv ⊢
    by_cases hold : (MoveMap.find s.previousMoves k).isSome = true
    · obtain ⟨pre, F, post, h1, h2, h3, path, h4, h5⟩ := hI.first k hk hold hv
      exact ⟨pre, F, post ++ [T], by simp [h1], h2, h3, path, h4.mono hext, h5⟩
    · have hnone : MoveMap.find s.previousMoves k = none := by
        cases h : MoveMap.find s.previousMoves k with
        | none => rfl
        | some v => simp [h] at hold
      have hkT : renderPieces T = k := by
        by_contra hne
        have hs : (renderPieces T).sameKey k = false := by
          cases h : (renderPieces T).sameKey k with
          | false => rfl
          | true => exact absurd ((sameKey_iff (by rw [renderPieces_length, hk])).1 h) hne
        rw [MoveMap.find_insert_of_ne m hs, hnone] at hf
        simp at hf
      have hfT : MoveMap.find (MoveMap.insert s.previousMoves (renderPieces T) m)
          (renderPieces T) = some m := by
        rw [MoveMap.find_insert_self, hkT, hnone]
        rfl
      obtain ⟨path, h4, h5⟩ := hpath _ hext hfT
      refine ⟨s.queue, T, [], by simp, hkT, ?_, path, h4, h5⟩
      intro L hL hLk
      have := hI.queued L hL
      rw [hLk, hnone] at this
      simp at this

theorem foldl_recordMove_inv {P0 : List Block} (m0 : MoveMap) (n : Nat)
    (em : List (List Block × Move)) :
    ∀ (s : SolverState), Inv P0 s → MoveMap.Extends m0 s.previousMoves → n ≤ s.visited.length →
    (∀ e ∈ em, (ValidInput e.1 ∧ e.1.length = P0.length) ∧
      ∀ m2, MoveMap.Extends m0 m2 → MoveMap.find m2 (renderPieces e.1) = some e.2 →
        ∃ path, TracedPath m2 P0 path e.1 ∧ path.length ≤ n) →
    Inv P0 (em.foldl recordMove s) := by
  induction em with
  | nil => intro s hI _ _ _; exact hI
  | cons e em ih =>
    intro s hI hext hn hem
    rw [List.foldl_cons]
    have he := hem e (List.mem_cons_self _ _)
    apply ih
    · apply recordMove_inv hI he.1
      intro m2 hm2 hf
      obtain ⟨path, h1, h2⟩ := he.2 m2 (MoveMap.extends_trans hext hm2) hf
      exact ⟨path, h1, by omega⟩
    · exact MoveMap.extends_trans hext (MoveMap.extends_insert _ _ _)
    · exact hn
    · exact fun e2 he2 => hem e2 (List.mem_cons_of_mem _ he2)

/-- The list at the head of the queue whose key is not yet visited is the list
that was first enqueued under this key, and its recorded path is valid. -/
theorem head_traced {P0 : List Block} {s : SolverState} (hI : Inv P0 s) {L : List Block}
    {rest : List (List Block)} (hq : s.queue = L :: rest)
    (hv : BoardSet.has s.visited (renderPieces L) = false) :
    ∃ path, TracedPath s.previousMoves P0 path L ∧ path.length ≤ s.visited.length := by
  have hL : L ∈ s.queue := by rw [hq]; exact List.mem_cons_self _ _
  have hnv : renderPieces L ∉ s.visited := by
    intro h
    rw [(BoardSet.has_iff hI.vkeys (renderPieces_length L)).2 h] at hv
    exact Bool.noConfusion hv
  obtain ⟨pre, F, post, h1, h2, h3, path, h4, h5⟩ :=
    hI.first _ (renderPieces_length L) (hI.queued L hL) hnv
  cases pre with
  | nil =>
    rw [hq] at h1
    simp only [List.nil_append, List.cons.injEq] at h1
    rw [h1.1]
    exact ⟨path, h4, h5⟩
  | cons a pre =>
    rw [hq] at h1
    simp only [List.cons_append, List.cons.injEq] at h1
    exact absurd rfl (h1.1 ▸ h3 a (List.mem_cons_self _ _))

/-! ## One iteration of the main loop -/

theorem step_next_cases {s s2 : SolverState} (h : step s = StepResult.next s2) :
    ∃ L rest, s.queue = L :: rest ∧
      ((BoardSet.has s.visited (renderPieces L) = true ∧ s2 = { s with queue := rest }) ∨
       (BoardSet.has s.visited (renderPieces L) = false ∧
        ∃ it, findPrisoner L = some it ∧ allClear (renderPieces L) it = false ∧
          s2 = (legalMoves (renderPieces L) [] L).foldl recordMove
            ⟨s.previousMoves, s.visited ++ [renderPieces L], rest⟩)) := by
  unfold step at h
  split at h
  · exact StepResult.noConfusion h
  · rename_i L rest hq
    refine ⟨L, rest, hq, ?_⟩
    dsimp only at h
    split at h
    · rename_i hv
      left
      exact ⟨hv, (StepResult.next.inj h).symm⟩
    · rename_i hv
      right
      have hv2 : BoardSet.has s.visited (renderPieces L) = false := by simpa using hv
      refine ⟨hv2, ?_⟩
      split at h
      · exact StepResult.noConfusion h
      · rename_i it hit
        refine ⟨it, hit, ?_⟩
        split at h
        · exact StepResult.noConfusion h
        · rename_i hc
          refine ⟨by simpa using hc, ?_⟩
          rw [expandLoop_eq] at h
          simp only [BoardSet.insert, hv2] at h
          exact (StepResult.next.inj h).symm

theorem step_goal_cases {s s1 : SolverState} {P : List Block}
    (h : step s = StepResult.goal P s1) :
    ∃ rest, s.queue = P :: rest ∧ BoardSet.has s.visited (renderPieces P) = false ∧
      (∃ it, findPrisoner P = some it ∧ allClear (renderPieces P) it = true) ∧
      s1 = ⟨s.previousMoves, s.visited ++ [renderPieces P], rest⟩ := by
  unfold step at h
  split at h
  · exact StepResult.noConfusion h
  · rename_i L rest hq
    dsimp only at h
    split at h
    · exact StepResult.noConfusion h
    · rename_i hv
      have hv2 : BoardSet.has s.visited (renderPieces L) = false := by simpa using hv
      split at h
      · exact StepResult.noConfusion h
      · rename_i it hit
        split at h
        · rename_i hc
          obtain ⟨h1, h2⟩ := StepResult.goal.inj h
          subst h1
          refine ⟨rest, hq, hv2, ⟨it, hit, hc⟩, ?_⟩
          simp only [BoardSet.insert, hv2] at h2
          exact h2.symm
        · exact StepResult.noConfusion h

/-- Dequeuing a list with an unvisited key and marking the key keeps the invariant. -/
theorem dequeue_inv {P0 : List Block} {s : SolverState} (hI : Inv P0 s) {L : List Block}
    {rest : List (List Block)} (hq : s.queue = L :: rest)
    (hv : BoardSet.has s.visited (renderPieces L) = false) :
    Inv P0 ⟨s.previousMoves, s.visited ++ [renderPieces L], rest⟩ := by
  have hL : L ∈ s.queue := by rw [hq]; exact List.mem_cons_self _ _
  have hsub : ∀ X ∈ rest, X ∈ s.queue := fun X hX => by rw [hq]; exact List.mem_cons_of_mem _ hX
  have hnv : renderPieces L ∉ s.visited := by
    intro h
    rw [(BoardSet.has_iff hI.vkeys (renderPieces_length L)).2 h] at hv
    exact Bool.noConfusion hv
  refine ⟨hI.keys, ?_, fun X hX => hI.valid X (hsub X hX), fun X hX => hI.queued X (hsub X hX),
    ?_, ?_, hI.sentinel, ?_⟩
  · intro k hk
    rcases List.mem_append.1 hk with h | h
    · exact hI.vkeys k h
    · rw [List.mem_singleton.1 h]
      exact renderPieces_length L
  · intro k hk
    rcases List.mem_append.1 hk with h | h
    · exact hI.seen k h
    · rw [List.mem_singleton.1 h]
      exact hI.queued L hL
  · rw [List.nodup_append]
    refine ⟨hI.nodup, List.nodup_singleton _, ?_⟩
    intro a ha hb
    rw [List.mem_singleton.1 hb] at ha
    exact hnv ha
  · intro k hk hf hkv
    simp only [List.mem_append, List.mem_singleton, not_or] at hkv
    obtain ⟨pre, F, post, h1, h2, h3, path, h4, h5⟩ := hI.first k hk hf hkv.1
    cases pre with
    | nil =>
      rw [hq] at h1
      simp only [List.nil_append, List.cons.injEq] at h1
      exact absurd (h1.1 ▸ h2).symm hkv.2
    | cons a pre =>
      rw [hq] at h1
      simp only [List.cons_append, List.cons.injEq] at h1
      refine ⟨pre, F, post, h1.2, h2, fun X hX => h3 X (List.mem_cons_of_mem _ hX), path, h4, ?_⟩
      simp only [List.length_append, List.length_singleton]
      omega

theorem legalMoves_length_eq {board : Board} {rest before T : List Block} {m : Move}
    (h : (T, m) ∈ legalMoves board before rest) : T.length = (before ++ rest).length := by
  obtain ⟨l1, p, l2, d, h1, _, h3, _⟩ := mem_legalMoves.1 h
  rw [h1, h3]
  simp

/-- The invariant is kept by every iteration that goes round again. -/
theorem step_inv {P0 : List Block} {s s2 : SolverState} (hI : Inv P0 s)
    (h : step s = StepResult.next s2) : Inv P0 s2 := by
  obtain ⟨L, rest, hq, hcase | hcase⟩ := step_next_cases h
  · obtain ⟨hv, rfl⟩ := hcase
    have hsub : ∀ X ∈ rest, X ∈ s.queue :=
      fun X hX => by rw [hq]; exact List.mem_cons_of_mem _ hX
    refine ⟨hI.keys, hI.vkeys, fun X hX => hI.valid X (hsub X hX),
      fun X hX => hI.queued X (hsub X hX), hI.seen, hI.nodup, hI.sentinel, ?_⟩
    intro k hk hf hkv
    obtain ⟨pre, F, post, h1, h2, h3, path, h4, h5⟩ := hI.first k hk hf hkv
    cases pre with
    | nil =>
      rw [hq] at h1
      simp only [List.nil_append, List.cons.injEq] at h1
      have : renderPieces L ∈ s.visited :=
        (BoardSet.has_iff hI.vkeys (renderPieces_length L)).1 hv
      rw [h1.1, h2] at this
      exact absurd this hkv
    | cons a pre =>
      rw [hq] at h1
      simp only [List.cons_append, List.cons.injEq] at h1
      exact ⟨pre, F, post, h1.2, h2, fun X hX => h3 X (List.mem_cons_of_mem _ hX), path, h4, h5⟩
  · obtain ⟨hv, it, _, _, rfl⟩ := hcase
    have hL : L ∈ s.queue := by rw [hq]; exact List.mem_cons_self _ _
    obtain ⟨path, ht, hlen⟩ := head_traced hI hq hv
    have hLv := hI.valid L hL
    apply foldl_recordMove_inv s.previousMoves (path.length + 1) _ _ (dequeue_inv hI hq hv)
      (MoveMap.extends_refl _)
    · simp only [List.length_append, List.length_singleton]
      omega
    · rintro ⟨T, m⟩ he
      obtain ⟨l1, p, l2, d, h1, h2, h3, h4⟩ := mem_legalMoves.1 he
      simp only [List.nil_append] at h1 h3
      subst h1
      refine ⟨⟨?_, ?_⟩, ?_⟩
      · rw [h3]
        exact valid_move hLv.1 h2
      · rw [legalMoves_length_eq he]
        exact hLv.2
      · intro m2 hm2 hf
        refine ⟨path ++ [l1 ++ p :: l2], ?_, by simp⟩
        dsimp only at hf
        rw [h3] at hf ⊢
        rw [h4] at hf
        exact TracedPath.move (ht.mono hm2) hLv.1 h2 hf

/-! ## The goal test -/

theorem allClearLoop_iff (board : Board) (y : Int) (n : Nat) (x : Int) :
    allClearLoop board y n x = true ↔
      ∀ i : Nat, i < n → board.get y (x + (i : Int)) = TileKind.empty := by
  induction n generalizing x with
  | zero => simp [allClearLoop]
  | succ n ih =>
    simp only [allClearLoop]
    constructor
    · intro h i hi
      split at h
      · rename_i h0
        cases i with
        | zero => simpa using h0
        | succ i =>
          have := (ih (x + 1)).1 h i (by omega)
          rw [show x + ((i + 1 : Nat) : Int) = x + 1 + (i : Int) by push_cast; ring]
          exact this
      · exact absurd h (by simp)
    · intro h
      have h0 := h 0 (by omega)
      simp only [Nat.cast_zero, add_zero] at h0
      rw [if_pos h0, ih]
      intro i hi
      have := h (i + 1) (by omega)
      rw [show x + ((i + 1 : Nat) : Int) = x + 1 + (i : Int) by push_cast; ring] at this
      exact this

theorem allClear_iff (board : Board) (it : Block) :
    allClear board it = true ↔
      ∀ c : Int, it._x + it._length ≤ c → c < SIZE → board.get it._y c = TileKind.empty := by
  unfold allClear
  rw [allClearLoop_iff]
  constructor
  · intro h c h1 h2
    have e := Int.toNat_of_nonneg (show 0 ≤ c - (it._x + it._length) by omega)
    have := h (c - (it._x + it._length)).toNat (by
      rw [Int.lt_toNat, e]
      omega)
    rw [e] at this
    simpa using this
  · intro h i hi
    rw [Int.lt_toNat] at hi
    exact h _ (by omega) (by omega)

/-! ## Termination of the main loop -/

theorem card_tileKind : Fintype.card TileKind = 3 := rfl

theorem keys_length_le {l : List Board} (hk : ∀ k ∈ l, k._data.length = 36) (hn : l.Nodup) :
    l.length ≤ 3 ^ 36 := by
  let f : Board → (Fin 36 → TileKind) := fun b i => b._data.getD i.val TileKind.empty
  have hinj : ∀ a ∈ l, ∀ b ∈ l, f a = f b → a = b := by
    intro a ha b hb hab
    have hla := hk a ha
    have hlb := hk b hb
    cases a with
    | mk da =>
      cases b with
      | mk db =>
        simp only [Board.mk.injEq]
        simp only at hla hlb
        apply List.ext_getElem (by rw [hla, hlb])
        intro i h1 h2
        have := congrFun hab ⟨i, by omega⟩
        simp only [f, List.getD_eq_getElem?_getD] at this
        rw [List.getElem?_eq_getElem h1, List.getElem?_eq_getElem h2] at this
        simpa using this
  have h2 : (l.map f).Nodup := List.Nodup.map_on hinj hn
  have h3 := List.Nodup.length_le_card h2
  rw [List.length_map, Fintype.card_fun, card_tileKind, Fintype.card_fin] at h3
  exact h3

theorem legalMoves_length_le (board : Board) (rest before : List Block) :
    (legalMoves board before rest).length ≤ 4 * rest.length := by
  induction rest generalizing before with
  | nil => simp [legalMoves]
  | cons p rest ih =>
    simp only [legalMoves, List.length_append, List.length_map, List.length_cons]
    have h1 := ih (before ++ [p])
    have h2 := List.length_filter_le (fun d => decide (canMove board p d))
      [Direction.left, Direction.right, Direction.up, Direction.down]
    simp only [List.length_cons, List.length_nil] at h2
    omega

theorem step_potential {P0 : List Block} {s s2 : SolverState} (hI : Inv P0 s)
    (h : step s = StepResult.next s2) :
    potential P0.length s2 < potential P0.length s := by
  obtain ⟨L, rest, hq, hcase | hcase⟩ := step_next_cases h
  · obtain ⟨_, rfl⟩ := hcase
    simp only [potential, hq, List.length_cons]
    omega
  · obtain ⟨hv, it, _, _, rfl⟩ := hcase
    have hI1 := dequeue_inv hI hq hv
    have hb := keys_length_le hI1.vkeys hI1.nodup
    simp only [List.length_append, List.length_singleton] at hb
    have hL := (hI.valid L (by rw [hq]; exact List.mem_cons_self _ _)).2
    have hm := legalMoves_length_le (renderPieces L) L []
    simp only [potential, foldl_recordMove_queue, foldl_recordMove_visited, hq,
      List.length_append, List.length_map, List.length_cons, List.length_singleton,
      List.length_nil, Nat.zero_add]
    rw [hL] at hm
    have e : 3 ^ 36 - s.visited.length = (3 ^ 36 - (s.visited.length + 1)) + 1 := by omega
    rw [e, Nat.add_mul]
    omega

theorem backtrack_traced_short {m : MoveMap} {P0 : List Block} {pre : List (List Block)}
    {F : List Block} (t : TracedPath m P0 pre F) :
    ∀ (fuel : Nat) (sol : List (List Block)), fuel ≤ pre.length →
      backtrack m fuel F sol = Outcome.outOfFuel := by
  induction t with
  | base h0 =>
    intro fuel sol hf
    simp only [List.length_nil, Nat.le_zero] at hf
    rw [hf]
    rfl
  | @move pre l1 l2 p d _ hv hc hfind ih =>
    intro fuel sol hf
    cases fuel with
    | zero => rfl
    | succ fuel =>
      have hne : ¬ ((p._id : Int) = -1) := by omega
      simp only [backtrack, hfind, hne, if_false]
      rw [revertMove_moved d (ids_before_ne hv)]
      exact ih fuel _ (by simp at hf; omega)

theorem findPrisoner_eq_none {L : List Block} :
    findPrisoner L = none ↔ ∀ p ∈ L, p._kind ≠ TileKind.prisoner := by
  induction L with
  | nil => simp [findPrisoner]
  | cons a L ih =>
    simp only [findPrisoner]
    split
    · rename_i h
      simp [h]
    · rename_i h
      simp [ih, h]

theorem findPrisoner_some {L : List Block} {it : Block} (h : findPrisoner L = some it) :
    it ∈ L ∧ it._kind = TileKind.prisoner := by
  induction L with
  | nil => simp [findPrisoner] at h
  | cons a L ih =>
    simp only [findPrisoner] at h
    split at h
    · rename_i hk
      simp only [Option.some.injEq] at h
      rw [← h]
      exact ⟨List.mem_cons_self _ _, hk⟩
    · exact ⟨List.mem_cons_of_mem _ (ih h).1, (ih h).2⟩

theorem findPrisoner_of_valid {L : List Block} (hv : ValidInput L) :
    ∃ it, findPrisoner L = some it := by
  cases h : findPrisoner L with
  | some it => exact ⟨it, rfl⟩
  | none =>
    rw [findPrisoner_eq_none] at h
    have h4 := hv.2.2.2.1
    have : L.filter (fun p => decide (p._kind = TileKind.prisoner)) = [] := by
      rw [List.filter_eq_nil_iff]
      intro p hp
      simpa using h p hp
    rw [this] at h4
    simp at h4

theorem step_no_assert {P0 : List Block} {s : SolverState} (hI : Inv P0 s) :
    step s ≠ StepResult.assertFailed := by
  intro h
  unfold step at h
  split at h
  · exact StepResult.noConfusion h
  · rename_i L rest hq
    dsimp only at h
    split at h
    · exact StepResult.noConfusion h
    · split at h
      · rename_i hnone
        obtain ⟨it, hit⟩ := findPrisoner_of_valid
          (hI.valid L (by rw [hq]; exact List.mem_cons_self _ _)).1
        rw [hit] at hnone
        exact Option.noConfusion hnone
      · split at h <;> exact StepResult.noConfusion h

theorem step_emptyQueue {s : SolverState} (h : step s = StepResult.emptyQueue) :
    s.queue = [] := by
  unfold step at h
  split at h
  · assumption
  · dsimp only at h
    split at h
    · exact StepResult.noConfusion h
    · split at h
      · exact StepResult.noConfusion h
      · split at h <;> exact StepResult.noConfusion h

/-- What a successful run of the main loop returns: the recorded path of the
dequeued list that passed the goal test. -/
theorem solveLoop_solved {P0 : List Block} {sol : List (List Block)} :
    ∀ (fuel : Nat) (s : SolverState), Inv P0 s → solveLoop fuel s = Outcome.solved sol →
      ∃ (m : MoveMap) (path : List (List Block)) (F : List Block),
        sol = path ++ [F] ∧ TracedPath m P0 path F ∧
        (∃ it, findPrisoner F = some it ∧ allClear (renderPieces F) it = true) := by
  intro fuel
  induction fuel with
  | zero => intro s _ h; exact Outcome.noConfusion h
  | succ fuel ih =>
    intro s hI h
    simp only [solveLoop] at h
    split at h
    · rename_i s1 hs
      exact ih s1 (step_inv hI hs) h
    · rename_i P s1 hs
      obtain ⟨rest, hq, hv, hgoal, rfl⟩ := step_goal_cases hs
      obtain ⟨path, ht, _⟩ := head_traced hI hq hv
      dsimp only at h
      by_cases hf : path.length < fuel
      · rw [backtrack_traced ht fuel _ hf, copyPieces_eq] at h
        exact ⟨s.previousMoves, path, P, (Outcome.solved.inj h).symm, ht, hgoal⟩
      · rw [backtrack_traced_short ht fuel _ (by omega)] at h
        exact Outcome.noConfusion h
    · exact Outcome.noConfusion h
    · exact Outcome.noConfusion h

/-- With enough fuel the main loop ends in the success branch or with an empty
queue. -/
theorem solveLoop_total {P0 : List Block} :
    ∀ (fuel : Nat) (s : SolverState), Inv P0 s →
      potential P0.length s + 3 ^ 36 + 2 ≤ fuel →
      (∃ sol, solveLoop fuel s = Outcome.solved sol) ∨ solveLoop fuel s = Outcome.noSolution := by
  intro fuel
  induction fuel with
  | zero => intro s _ h; omega
  | succ fuel ih =>
    intro s hI hfuel
    simp only [solveLoop]
    split
    · rename_i s1 hs
      have := step_potential hI hs
      exact ih s1 (step_inv hI hs) (by omega)
    · rename_i P s1 hs
      obtain ⟨rest, hq, hv, hgoal, rfl⟩ := step_goal_cases hs
      obtain ⟨path, ht, hlen⟩ := head_traced hI hq hv
      have hb := keys_length_le hI.vkeys hI.nodup
      left
      exact ⟨_, backtrack_traced ht fuel _ (by omega)⟩
    · exact Or.inr rfl
    · rename_i hs
      exact absurd hs (step_no_assert hI)

theorem backtrack_mono (m : MoveMap) :
    ∀ (fuel : Nat) (P : List Block) (sol : List (List Block)) (r : Outcome),
      backtrack m fuel P sol = r → r ≠ Outcome.outOfFuel → backtrack m (fuel + 1) P sol = r := by
  intro fuel
  induction fuel with
  | zero => intro P sol r h hr; exact absurd h.symm hr
  | succ fuel ih =>
    intro P sol r h hr
    rw [backtrack] at h ⊢
    split
    · rename_i hnone
      rw [hnone] at h
      exact h
    · rename_i mv hsome
      rw [hsome] at h
      dsimp only at h ⊢
      split
      · rename_i hid
        rw [if_pos hid] at h
        exact h
      · rename_i hid
        rw [if_neg hid] at h
        split
        · rename_i hrev
          rw [hrev] at h
          exact h
        · rename_i moved hrev
          rw [hrev] at h
          exact ih _ _ _ h hr

theorem solveLoop_mono :
    ∀ (fuel : Nat) (s : SolverState) (r : Outcome),
      solveLoop fuel s = r → r ≠ Outcome.outOfFuel → solveLoop (fuel + 1) s = r := by
  intro fuel
  induction fuel with
  | zero => intro s r h hr; exact absurd h.symm hr
  | succ fuel ih =>
    intro s r h hr
    rw [solveLoop] at h ⊢
    split
    · rename_i s1 hs
      rw [hs] at h
      exact ih _ _ h hr
    · rename_i P s1 hs
      rw [hs] at h
      exact backtrack_mono _ _ _ _ _ h hr
    · rename_i hs
      rw [hs] at h
      exact h
    · rename_i hs
      rw [hs] at h
      exact h

theorem solveLoop_mono_le {fuel fuel2 : Nat} (hle : fuel ≤ fuel2) {s : SolverState} {r : Outcome}
    (h : solveLoop fuel s = r) (hr : r ≠ Outcome.outOfFuel) : solveLoop fuel2 s = r := by
  induction hle with
  | refl => exact h
  | step _ ih => exact solveLoop_mono _ _ _ ih hr

/-! ## The claims -/

theorem isGoal_of_allClear {F : List Block}
    (h : ∃ it, findPrisoner F = some it ∧ allClear (renderPieces F) it = true) : IsGoal F := by
  obtain ⟨it, h1, h2⟩ := h
  exact ⟨it, h1, (allClear_iff _ _).1 h2⟩

/-- C1 (solution validity).  For every valid input on which `SolveBoard` reports
success, the reconstructed sequence starts with the input piece list, every next
state is one of the successors the expansion loop generates from its predecessor
(one piece shifted one cell along its axis into an on-board cell that is empty in
the render of the predecessor), and the last state satisfies the goal test. -/
theorem C1_solution_validity (P0 : List Block) (h0 : ValidInput P0) (fuel : Nat)
    (sol : List (List Block)) (h : SolveBoard fuel P0 = Outcome.solved sol) :
    sol.head? = some P0 ∧
    List.Chain' (fun S T => T ∈ generated S ∧ MoveStep S T) sol ∧
    ∃ Sn, sol.getLast? = some Sn ∧ IsGoal Sn := by
  obtain ⟨m, path, F, rfl, ht, hg⟩ := solveLoop_solved fuel _ (initState_inv h0) h
  refine ⟨ht.chain.1, ?_, F, by simp, isGoal_of_allClear hg⟩
  exact List.Chain'.imp (fun S T hST => ⟨generated_iff_moveStep.2 hST, hST⟩) ht.chain.2

theorem C1_solution_validity_witness :
    ValidInput scenarioS3 ∧
    SolveBoard 10 scenarioS3 = Outcome.solved [scenarioS3, scenarioS3down] ∧
    ([scenarioS3, scenarioS3down].head? = some scenarioS3 ∧
      List.Chain' (fun S T => T ∈ generated S ∧ MoveStep S T) [scenarioS3, scenarioS3down] ∧
      ∃ Sn, [scenarioS3, scenarioS3down].getLast? = some Sn ∧ IsGoal Sn) :=
  ⟨by decide, by decide,
    C1_solution_validity scenarioS3 (by decide) 10 [scenarioS3, scenarioS3down] (by decide)⟩

theorem canMove_iff_target {p : Block} (hp : p.wellFormed) (board : Board) (d : Direction) :
    canMove board p d ↔
      orientationMatches p d ∧ inGrid (targetCell p d) ∧
        board.get (targetCell p d).1 (targetCell p d).2 = TileKind.empty := by
  obtain ⟨b1, b2, b3, b4, b5⟩ := wf_bounds hp
  cases d <;> simp only [canMove, orientationMatches, targetCell, inGrid, SIZE] <;>
    constructor
  · rintro ⟨h1, h2, h3⟩
    have := b4 h1
    exact ⟨h1, ⟨by omega, by omega, by omega, by omega⟩, h3⟩
  · rintro ⟨h1, h2, h3⟩
    exact ⟨h1, by omega, h3⟩
  · rintro ⟨h1, h2, h3⟩
    have := b4 h1
    exact ⟨h1, ⟨by omega, by omega, by omega, by omega⟩, h3⟩
  · rintro ⟨h1, h2, h3⟩
    exact ⟨h1, by omega, h3⟩
  · rintro ⟨h1, h2, h3⟩
    have := b5 h1
    exact ⟨h1, ⟨by omega, by omega, by omega, by omega⟩, h3⟩
  · rintro ⟨h1, h2, h3⟩
    exact ⟨h1, by omega, h3⟩
  · rintro ⟨h1, h2, h3⟩
    have := b5 h1
    exact ⟨h1, ⟨by omega, by omega, by omega, by omega⟩, h3⟩
  · rintro ⟨h1, h2, h3⟩
    exact ⟨h1, by omega, h3⟩

/-- C3 (move generation emits exactly the legal moves).  For every valid piece
list `P` with board `B = renderPieces P`, the expansion loop leaves `P` as it was
and applies `COMMON_BODY` to a list `em` of `(successor, Move)` pairs in which a
pair occurs if and only if it is the shift of a piece `p` of `P` in a direction
`d` with the Move `(p._id, d)`, where `d` matches the orientation of `p` and the
cell `p` would enter is on the grid and empty in `B`: left iff `p._x > 0` and
`B(p._y, p._x-1)` is empty, right iff `p._x + p._length < 6` and
`B(p._y, p._x+p._length)` is empty, up iff `p._y > 0` and `B(p._y-1, p._x)` is
empty, down iff `p._y + p._length < 6` and `B(p._y+p._length, p._x)` is empty. -/
theorem C3_moveGen_exact (P : List Block) (hP : ValidInput P) (s : SolverState) :
    ∃ em : List (List Block × Move),
      expandLoop (renderPieces P) [] P s = (P, em.foldl recordMove s) ∧
      (∀ T m, (T, m) ∈ em ↔
        ∃ l1 p l2 d, P = l1 ++ p :: l2 ∧ canMove (renderPieces P) p d ∧
          T = l1 ++ applyMove d p :: l2 ∧ m = ⟨(p._id : Int), d⟩) ∧
      (∀ p ∈ P, ∀ d, canMove (renderPieces P) p d ↔
        orientationMatches p d ∧ inGrid (targetCell p d) ∧
          (renderPieces P).get (targetCell p d).1 (targetCell p d).2 = TileKind.empty) ∧
      (∀ p : Block,
        (canMove (renderPieces P) p Direction.left ↔ p._isHorizontal = true ∧ 0 < p._x ∧
          (renderPieces P).get p._y (p._x - 1) = TileKind.empty) ∧
        (canMove (renderPieces P) p Direction.right ↔ p._isHorizontal = true ∧
          p._x + p._length < 6 ∧
          (renderPieces P).get p._y (p._x + p._length) = TileKind.empty) ∧
        (canMove (renderPieces P) p Direction.up ↔ p._isHorizontal = false ∧ 0 < p._y ∧
          (renderPieces P).get (p._y - 1) p._x = TileKind.empty) ∧
        (canMove (renderPieces P) p Direction.down ↔ p._isHorizontal = false ∧
          p._y + p._length < 6 ∧
          (renderPieces P).get (p._y + p._length) p._x = TileKind.empty)) := by
  refine ⟨legalMoves (renderPieces P) [] P, ?_, ?_, ?_, ?_⟩
  · rw [expandLoop_eq]
    rfl
  · intro T m
    rw [mem_legalMoves]
    simp
  · intro p hp d
    exact canMove_iff_target (hP.1 p hp) _ d
  · intro p
    exact ⟨Iff.rfl, Iff.rfl, Iff.rfl, Iff.rfl⟩

theorem C3_moveGen_exact_witness :
    ValidInput scenarioS3 ∧
    ∃ em : List (List Block × Move),
      expandLoop (renderPieces scenarioS3) [] scenarioS3 ⟨[], [], []⟩ =
        (scenarioS3, em.foldl recordMove ⟨[], [], []⟩) ∧
      (∀ T m, (T, m) ∈ em ↔
        ∃ l1 p l2 d, scenarioS3 = l1 ++ p :: l2 ∧ canMove (renderPieces scenarioS3) p d ∧
          T = l1 ++ applyMove d p :: l2 ∧ m = ⟨(p._id : Int), d⟩) :=
  ⟨by decide,
    (C3_moveGen_exact scenarioS3 (by decide) ⟨[], [], []⟩).imp (fun _ h => ⟨h.1, h.2.1⟩)⟩

/-- C4 (goal test).  For a piece list `P` with prisoner `z` (the block the search
for the prisoner finds) and board `B = renderPieces P`, the flag `allClear` is
true if and only if every cell `B(z._y, c)` with `z._x + z._length ≤ c < 6` is
empty; it is true when the prisoner touches the right edge; and an iteration of
the main loop that dequeues `P` with an unvisited key enters the success branch
exactly when the flag is true. -/
theorem C4_goal_test (P : List Block) (z : Block) (hz : findPrisoner P = some z) :
    (allClear (renderPieces P) z = true ↔
      ∀ c : Int, z._x + z._length ≤ c → c < 6 →
        (renderPieces P).get z._y c = TileKind.empty) ∧
    (z._x + z._length = 6 → allClear (renderPieces P) z = true) ∧
    (∀ (s : SolverState) (rest : List (List Block)), s.queue = P :: rest →
      BoardSet.has s.visited (renderPieces P) = false →
      ((∃ s1, step s = StepResult.goal P s1) ↔ allClear (renderPieces P) z = true)) := by
  refine ⟨allClear_iff _ _, ?_, ?_⟩
  · intro h
    rw [allClear_iff]
    intro c h1 h2
    simp only [SIZE] at h2
    omega
  · intro s rest hq hv
    constructor
    · rintro ⟨s1, hs⟩
      obtain ⟨_, _, _, ⟨it, hit, hc⟩, _⟩ := step_goal_cases hs
      rw [hz] at hit
      rw [Option.some.inj hit]
      exact hc
    · intro hc
      refine ⟨⟨s.previousMoves, BoardSet.insert s.visited (renderPieces P), rest⟩, ?_⟩
      simp [step, hq, hv, hz, hc]

theorem C4_goal_test_witness :
    findPrisoner scenarioS3down = some ⟨0, 2, 0, true, TileKind.prisoner, 2⟩ ∧
    allClear (renderPieces scenarioS3down) ⟨0, 2, 0, true, TileKind.prisoner, 2⟩ = true ∧
    allClear (renderPieces scenarioS3) ⟨0, 2, 0, true, TileKind.prisoner, 2⟩ = false ∧
    (allClear (renderPieces scenarioS3down) ⟨0, 2, 0, true, TileKind.prisoner, 2⟩ = true ↔
      ∀ c : Int, (2 : Int) ≤ c → c < 6 →
        (renderPieces scenarioS3down).get 2 c = TileKind.empty) :=
  ⟨by decide, by decide, by decide,
    by simpa using
      (C4_goal_test scenarioS3down ⟨0, 2, 0, true, TileKind.prisoner, 2⟩ (by decide)).1⟩

theorem runSteps_inv {P0 : List Block} :
    ∀ (n : Nat) (s s2 : SolverState), Inv P0 s → runSteps n s = some s2 → Inv P0 s2 := by
  intro n
  induction n with
  | zero =>
    intro s s2 hI h
    simp only [runSteps, Option.some.injEq] at h
    exact h ▸ hI
  | succ n ih =>
    intro s s2 hI h
    simp only [runSteps] at h
    split at h
    · rename_i s1 hs
      exact ih s1 s2 (step_inv hI hs) h
    · exact Option.noConfusion h

theorem valid_of_moveStep {S T : List Block} (hS : ValidInput S) (h : MoveStep S T) :
    ValidInput T := by
  obtain ⟨l1, p, l2, d, rfl, hc, rfl⟩ := h
  exact valid_move hS hc

/-- C5 (validity is an invariant of the search).  If the input piece list is
valid, every piece list on the queue of every state the main loop reaches is
valid, and so is every successor the expansion loop generates from it: no
generated move makes two pieces overlap or pushes a piece off the board. -/
theorem C5_validity_invariant (P0 : List Block) (h0 : ValidInput P0) (n : Nat)
    (s : SolverState) (h : runSteps n (initState P0) = some s) :
    (∀ L ∈ s.queue, ValidInput L) ∧
    (∀ L ∈ s.queue, ∀ T ∈ generated L, ValidInput T) := by
  have hI := runSteps_inv n _ _ (initState_inv h0) h
  refine ⟨fun L hL => (hI.valid L hL).1, fun L hL T hT => ?_⟩
  exact valid_of_moveStep (hI.valid L hL).1 (generated_iff_moveStep.1 hT)

theorem C5_validity_invariant_witness :
    ValidInput scenarioS3 ∧
    ∃ s, runSteps 1 (initState scenarioS3) = some s ∧ s.queue.length = 3 ∧
      (∀ L ∈ s.queue, ValidInput L) ∧ (∀ L ∈ s.queue, ∀ T ∈ generated L, ValidInput T) :=
  ⟨by decide, _, rfl, by decide, C5_validity_invariant scenarioS3 (by decide) 1 _ rfl⟩

theorem solveLoop_no_assert {P0 : List Block} :
    ∀ (fuel : Nat) (s : SolverState), Inv P0 s →
      solveLoop fuel s ≠ Outcome.assertionFailed := by
  intro fuel
  induction fuel with
  | zero => intro s _ h; exact Outcome.noConfusion h
  | succ fuel ih =>
    intro s hI h
    simp only [solveLoop] at h
    split at h
    · rename_i s1 hs
      exact ih s1 (step_inv hI hs) h
    · rename_i P s1 hs
      obtain ⟨rest, hq, hv, _, rfl⟩ := step_goal_cases hs
      obtain ⟨path, ht, _⟩ := head_traced hI hq hv
      dsimp only at h
      by_cases hf : path.length < fuel
      · rw [backtrack_traced ht fuel _ hf] at h
        exact Outcome.noConfusion h
      · rw [backtrack_traced_short ht fuel _ (by omega)] at h
        exact Outcome.noConfusion h
    · exact Outcome.noConfusion h
    · rename_i hs
      exact step_no_assert hI hs

theorem backtrack_ne_noSolution (m : MoveMap) :
    ∀ (fuel : Nat) (P : List Block) (sol : List (List Block)),
      backtrack m fuel P sol ≠ Outcome.noSolution := by
  intro fuel
  induction fuel with
  | zero => intro P sol h; exact Outcome.noConfusion h
  | succ fuel ih =>
    intro P sol h
    simp only [backtrack] at h
    split at h
    · exact Outcome.noConfusion h
    · split at h
      · exact Outcome.noConfusion h
      · split at h
        · exact Outcome.noConfusion h
        · exact ih _ _ h

theorem solveLoop_noSolution :
    ∀ (fuel : Nat) (s : SolverState), solveLoop fuel s = Outcome.noSolution →
      ∃ k s2, runSteps k s = some s2 ∧ s2.queue = [] := by
  intro fuel
  induction fuel with
  | zero => intro s h; exact Outcome.noConfusion h
  | succ fuel ih =>
    intro s h
    simp only [solveLoop] at h
    split at h
    · rename_i s1 hs
      obtain ⟨k, s2, h1, h2⟩ := ih s1 h
      exact ⟨k + 1, s2, by simp [runSteps, hs, h1], h2⟩
    · exact absurd h (backtrack_ne_noSolution _ _ _ _)
    · rename_i hs
      exact ⟨0, s, rfl, step_emptyQueue hs⟩
    · exact Outcome.noConfusion h

/-- C6 (unsolvable result).  For every valid input from which no goal state is
reachable by legal moves, `SolveBoard` reports no solution for every amount of
fuel from an explicit bound on, never enters the success branch and never fails
an assertion, and the main loop reaches a state whose queue is empty. -/
theorem C6_unsolvable (P0 : List Block) (h0 : ValidInput P0)
    (hno : ∀ n T, MovesTo n P0 T → ¬ IsGoal T) :
    (∀ fuel, potential P0.length (initState P0) + 3 ^ 36 + 2 ≤ fuel →
      SolveBoard fuel P0 = Outcome.noSolution) ∧
    (∀ fuel, SolveBoard fuel P0 = Outcome.noSolution ∨ SolveBoard fuel P0 = Outcome.outOfFuel) ∧
    ∃ k s, runSteps k (initState P0) = some s ∧ s.queue = [] := by
  have hI := initState_inv h0
  have hns : ∀ fuel sol, SolveBoard fuel P0 ≠ Outcome.solved sol := by
    intro fuel sol h
    obtain ⟨m, path, F, _, ht, hg⟩ := solveLoop_solved fuel _ hI h
    exact hno _ F ht.movesTo (isGoal_of_allClear hg)
  have hbig : ∀ fuel, potential P0.length (initState P0) + 3 ^ 36 + 2 ≤ fuel →
      SolveBoard fuel P0 = Outcome.noSolution := by
    intro fuel hf
    rcases solveLoop_total fuel _ hI hf with ⟨sol, h⟩ | h
    · exact absurd h (hns fuel sol)
    · exact h
  refine ⟨hbig, ?_, solveLoop_noSolution _ _ (hbig _ (le_refl _))⟩
  intro fuel
  cases h : SolveBoard fuel P0 with
  | solved sol => exact absurd h (hns fuel sol)
  | noSolution => exact Or.inl rfl
  | assertionFailed => exact absurd h (solveLoop_no_assert fuel _ hI)
  | outOfFuel => exact Or.inr rfl

theorem scenarioS5_closed :
    ∀ n T, MovesTo n scenarioS5 T → T = scenarioS5 ∨ T = scenarioS5right := by
  intro n
  induction n with
  | zero =>
    intro T h
    exact Or.inl h.symm
  | succ n ih =>
    rintro T ⟨R, hR, hstep⟩
    rw [← generated_iff_moveStep] at hstep
    rcases ih R hR with rfl | rfl
    · have e : generated scenarioS5 = [scenarioS5right] := by decide
      rw [e] at hstep
      exact Or.inr (List.mem_singleton.1 hstep)
    · have e : generated scenarioS5right = [scenarioS5] := by decide
      rw [e] at hstep
      exact Or.inl (List.mem_singleton.1 hstep)

theorem not_isGoal_of_allClear {F : List Block} {z : Block} (hz : findPrisoner F = some z)
    (h : allClear (renderPieces F) z = false) : ¬ IsGoal F := by
  rintro ⟨it, h1, h2⟩
  rw [hz] at h1
  rw [← Option.some.inj h1, ← allClear_iff, h] at h2
  exact Bool.noConfusion h2

theorem scenarioS5_no_goal : ∀ n T, MovesTo n scenarioS5 T → ¬ IsGoal T := by
  intro n T h
  rcases scenarioS5_closed n T h with rfl | rfl
  · exact not_isGoal_of_allClear (z := ⟨0, 2, 0, true, TileKind.prisoner, 2⟩) (by decide)
      (by decide)
  · exact not_isGoal_of_allClear (z := ⟨0, 2, 1, true, TileKind.prisoner, 2⟩) (by decide)
      (by decide)

theorem C6_unsolvable_witness :
    ValidInput scenarioS5 ∧ SolveBoard 10 scenarioS5 = Outcome.noSolution ∧
    ((∀ fuel, potential scenarioS5.length (initState scenarioS5) + 3 ^ 36 + 2 ≤ fuel →
      SolveBoard fuel scenarioS5 = Outcome.noSolution) ∧
    (∀ fuel, SolveBoard fuel scenarioS5 = Outcome.noSolution ∨
      SolveBoard fuel scenarioS5 = Outcome.outOfFuel) ∧
    ∃ k s, runSteps k (initState scenarioS5) = some s ∧ s.queue = []) :=
  ⟨by decide, by decide, C6_unsolvable scenarioS5 (by decide) scenarioS5_no_goal⟩

/-- C7 (termination).  For every valid input the main loop of `SolveBoard` ends,
for every amount of fuel from an explicit bound on and with one and the same
result: either in the success branch, whose backtracking loop ends at the sentinel
entry of the input (the solution starts with the input), or with an empty queue.
Every iteration that goes round again decreases the measure `potential`, because
it removes a list from the queue and then either skips it or adds a new key to the
visited set, whose size is bounded by the number `3 ^ 36` of keys, and enqueues at
most four successors per piece. -/
theorem C7_termination (P0 : List Block) (h0 : ValidInput P0) :
    (∀ fuel, potential P0.length (initState P0) + 3 ^ 36 + 2 ≤ fuel →
      SolveBoard fuel P0 =
        SolveBoard (potential P0.length (initState P0) + 3 ^ 36 + 2) P0) ∧
    ((∃ sol, SolveBoard (potential P0.length (initState P0) + 3 ^ 36 + 2) P0 =
        Outcome.solved sol ∧ sol.head? = some P0) ∨
      SolveBoard (potential P0.length (initState P0) + 3 ^ 36 + 2) P0 = Outcome.noSolution) ∧
    (∀ n s s2, runSteps n (initState P0) = some s → step s = StepResult.next s2 →
      potential P0.length s2 < potential P0.length s ∧ s.visited.length ≤ 3 ^ 36) := by
  have hI := initState_inv h0
  have hN := solveLoop_total (potential P0.length (initState P0) + 3 ^ 36 + 2) _ hI (le_refl _)
  refine ⟨?_, ?_, ?_⟩
  · intro fuel hf
    apply solveLoop_mono_le hf rfl
    rcases hN with ⟨sol, h⟩ | h
    · rw [h]
      exact fun hh => Outcome.noConfusion hh
    · rw [h]
      exact fun hh => Outcome.noConfusion hh
  · rcases hN with ⟨sol, h⟩ | h
    · left
      obtain ⟨m, path, F, rfl, ht, _⟩ := solveLoop_solved _ _ hI h
      exact ⟨_, h, ht.chain.1⟩
    · exact Or.inr h
  · intro n s s2 hs hstep
    have hIs := runSteps_inv n _ _ hI hs
    exact ⟨step_potential hIs hstep, keys_length_le hIs.vkeys hIs.nodup⟩

theorem C7_termination_witness :
    ValidInput scenarioS3 ∧
    SolveBoard 10 scenarioS3 = Outcome.solved [scenarioS3, scenarioS3down] ∧
    ((∀ fuel, potential scenarioS3.length (initState scenarioS3) + 3 ^ 36 + 2 ≤ fuel →
      SolveBoard fuel scenarioS3 =
        SolveBoard (potential scenarioS3.length (initState scenarioS3) + 3 ^ 36 + 2)
          scenarioS3) ∧
    ((∃ sol, SolveBoard (potential scenarioS3.length (initState scenarioS3) + 3 ^ 36 + 2)
          scenarioS3 = Outcome.solved sol ∧ sol.head? = some scenarioS3) ∨
      SolveBoard (potential scenarioS3.length (initState scenarioS3) + 3 ^ 36 + 2) scenarioS3 =
        Outcome.noSolution) ∧
    (∀ n s s2, runSteps n (initState scenarioS3) = some s → step s = StepResult.next s2 →
      potential scenarioS3.length s2 < potential scenarioS3.length s ∧
        s.visited.length ≤ 3 ^ 36)) :=
  ⟨by decide, by decide, C7_termination scenarioS3 (by decide)⟩

theorem foldl_insert_extends (em : List (List Block × Move)) (m : MoveMap) :
    MoveMap.Extends m (em.foldl (fun m e => MoveMap.insert m (renderPieces e.1) e.2) m) := by
  induction em generalizing m with
  | nil => exact MoveMap.extends_refl m
  | cons e em ih =>
    exact MoveMap.extends_trans (MoveMap.extends_insert m _ _) (ih _)

theorem step_extends {s s2 : SolverState} (h : step s = StepResult.next s2) :
    MoveMap.Extends s.previousMoves s2.previousMoves := by
  obtain ⟨L, rest, _, hcase | hcase⟩ := step_next_cases h
  · obtain ⟨_, rfl⟩ := hcase
    exact MoveMap.extends_refl _
  · obtain ⟨_, it, _, _, rfl⟩ := hcase
    rw [foldl_recordMove_previousMoves]
    exact foldl_insert_extends _ _

theorem runSteps_extends :
    ∀ (n : Nat) (s s2 : SolverState), runSteps n s = some s2 →
      MoveMap.Extends s.previousMoves s2.previousMoves := by
  intro n
  induction n with
  | zero =>
    intro s s2 h
    simp only [runSteps, Option.some.injEq] at h
    exact h ▸ MoveMap.extends_refl _
  | succ n ih =>
    intro s s2 h
    simp only [runSteps] at h
    split at h
    · rename_i s1 hs
      exact MoveMap.extends_trans (step_extends hs) (ih s1 s2 h)
    · exact Option.noConfusion h

/-- C9 (the parent map is write-once).  An insertion attempt for any key leaves
the Move stored for a key that has an entry unchanged, and for the inserted key
the entry afterwards is the old one if there was one and the new one otherwise;
so every iteration of the main loop, and every run of iterations, keeps all the
entries it found; in particular the key of the initial board keeps its sentinel
entry (block id -1) in every state the main loop reaches. -/
theorem C9_write_once (P0 : List Block) :
    (∀ (m : MoveMap) (k b : Board) (v mv : Move),
      MoveMap.find m k = some v → MoveMap.find (MoveMap.insert m b mv) k = some v) ∧
    (∀ (m : MoveMap) (b : Board) (mv : Move),
      MoveMap.find (MoveMap.insert m b mv) b = some ((MoveMap.find m b).getD mv)) ∧
    (∀ (s s2 : SolverState), step s = StepResult.next s2 →
      ∀ k v, MoveMap.find s.previousMoves k = some v →
        MoveMap.find s2.previousMoves k = some v) ∧
    (∀ (n : Nat) (s s2 : SolverState), runSteps n s = some s2 →
      ∀ k v, MoveMap.find s.previousMoves k = some v →
        MoveMap.find s2.previousMoves k = some v) ∧
    (∀ (n : Nat) (s : SolverState), runSteps n (initState P0) = some s →
      MoveMap.find s.previousMoves (renderPieces P0) = some ⟨-1, Direction.left⟩) := by
  refine ⟨fun m k b v mv h => MoveMap.find_insert_of_some b mv h,
    MoveMap.find_insert_self, fun s s2 h => step_extends h,
    fun n s s2 h => runSteps_extends n s s2 h, ?_⟩
  intro n s h
  apply runSteps_extends n _ _ h
  simp [initState, MoveMap.insert, MoveMap.find, sameKey_refl]

theorem C9_write_once_witness :
    ∃ s, runSteps 3 (initState scenarioS3) = some s ∧ s.previousMoves.length = 7 ∧
      MoveMap.find s.previousMoves (renderPieces scenarioS3) = some ⟨-1, Direction.left⟩ :=
  ⟨_, rfl, by decide, (C9_write_once scenarioS3).2.2.2.2 3 _ rfl⟩

theorem step_visited {s s2 : SolverState} (h : step s = StepResult.next s2) :
    (passedKey s = none ∧ s2.visited = s.visited) ∨
    (∃ k, passedKey s = some k ∧ s2.visited = s.visited ++ [k]) := by
  obtain ⟨L, rest, hq, hcase | hcase⟩ := step_next_cases h
  · obtain ⟨hv, rfl⟩ := hcase
    left
    simp [passedKey, hq, hv]
  · obtain ⟨hv, it, _, _, rfl⟩ := hcase
    right
    refine ⟨renderPieces L, by simp [passedKey, hq, hv], ?_⟩
    rw [foldl_recordMove_visited]

theorem passedKey_not_visited {s : SolverState} {k : Board} (h : passedKey s = some k) :
    ∀ v ∈ s.visited, v.sameKey k = false := by
  unfold passedKey at h
  split at h
  · exact Option.noConfusion h
  · split at h
    · exact Option.noConfusion h
    · rename_i hv
      simp only [Option.some.injEq] at h
      subst h
      intro v hv2
      simp only [BoardSet.has, List.any_eq_true, not_exists, not_and, Bool.not_eq_true] at hv
      exact hv v hv2

theorem expandedKeys_fresh :
    ∀ (n : Nat) (s : SolverState),
      (expandedKeys n s).Pairwise (fun a b => a.sameKey b = false) ∧
      ∀ k ∈ expandedKeys n s, ∀ v ∈ s.visited, v.sameKey k = false := by
  intro n
  induction n with
  | zero => intro s; simp [expandedKeys]
  | succ n ih =>
    intro s
    simp only [expandedKeys]
    cases hs : step s with
    | next s1 =>
      obtain ⟨h1, h2⟩ := ih s1
      rcases step_visited hs with ⟨hp, hv⟩ | ⟨k, hp, hv⟩
      · rw [hp]
        simp only [List.nil_append]
        rw [hv] at h2
        exact ⟨h1, h2⟩
      · rw [hp]
        simp only [List.singleton_append, List.pairwise_cons, List.mem_cons]
        rw [hv] at h2
        refine ⟨⟨fun a ha => h2 a ha k (by simp), h1⟩, ?_⟩
        rintro a (rfl | ha) v hv2
        · exact passedKey_not_visited hp v hv2
        · exact h2 a ha v (by simp [hv2])
    | goal P s1 =>
      simp only [List.append_nil]
      cases hp : passedKey s with
      | none => simp
      | some k =>
        simp only [List.pairwise_cons, List.not_mem_nil, false_implies, implies_true,
          List.Pairwise.nil, and_self, List.mem_singleton, forall_eq, true_and]
        exact passedKey_not_visited hp
    | emptyQueue =>
      simp only [List.append_nil]
      cases hp : passedKey s with
      | none => simp
      | some k =>
        simp only [List.pairwise_cons, List.not_mem_nil, false_implies, implies_true,
          List.Pairwise.nil, and_self, List.mem_singleton, forall_eq, true_and]
        exact passedKey_not_visited hp
    | assertFailed =>
      simp only [List.append_nil]
      cases hp : passedKey s with
      | none => simp
      | some k =>
        simp only [List.pairwise_cons, List.not_mem_nil, false_implies, implies_true,
          List.Pairwise.nil, and_self, List.mem_singleton, forall_eq, true_and]
        exact passedKey_not_visited hp

/-- C10 (visited monotonicity).  In every run of `SolveBoard`, the keys that pass
the visited check (and so reach the goal test and the successor expansion) during
any number of iterations are pairwise different keys: no key is expanded more
than once.  The visited set only grows: an iteration keeps every key of the set,
and the key that passes the check is added to it. -/
theorem C10_visited_monotone (P0 : List Block) (n : Nat) :
    (expandedKeys n (initState P0)).Pairwise (fun a b => a.sameKey b = false) ∧
    (expandedKeys n (initState P0)).Nodup ∧
    (∀ (s s2 : SolverState), step s = StepResult.next s2 →
      (∀ k ∈ s.visited, k ∈ s2.visited) ∧
      (∀ k, passedKey s = some k → k ∈ s2.visited)) := by
  have h := (expandedKeys_fresh n (initState P0)).1
  refine ⟨h, ?_, ?_⟩
  · refine List.Pairwise.imp ?_ h
    intro a b hab heq
    rw [heq, sameKey_refl] at hab
    exact Bool.noConfusion hab
  · intro s s2 hs
    rcases step_visited hs with ⟨hp, hv⟩ | ⟨k, hp, hv⟩
    · rw [hv, hp]
      exact ⟨fun k hk => hk, fun k hk => Option.noConfusion hk⟩
    · rw [hv, hp]
      refine ⟨fun a ha => List.mem_append_left _ ha, fun a ha => ?_⟩
      rw [← Option.some.inj ha]
      simp

theorem C10_visited_monotone_witness :
    (expandedKeys 4 (initState scenarioS3)).length = 4 ∧
    (expandedKeys 4 (initState scenarioS3)).Nodup :=
  ⟨by decide, (C10_visited_monotone scenarioS3 4).2.1⟩

theorem board_ext {a b : Board} (ha : a._data.length = 36) (hb : b._data.length = 36)
    (h : ∀ d : Int × Int, inGrid d → a.get d.1 d.2 = b.get d.1 d.2) : a = b := by
  cases a with
  | mk da =>
    cases b with
    | mk db =>
      simp only [Board.mk.injEq]
      simp only at ha hb
      apply List.ext_getElem (by rw [ha, hb])
      intro i h1 h2
      have hi : i < 36 := by omega
      have := h (((i / 6 : Nat) : Int), ((i % 6 : Nat) : Int)) (by
        simp only [inGrid, SIZE]
        omega)
      have e : (((i / 6 : Nat) : Int) * 6 + ((i % 6 : Nat) : Int)).toNat = i := by omega
      have e0 : (0 : Int) ≤ ((i / 6 : Nat) : Int) * 6 + ((i % 6 : Nat) : Int) := by omega
      simp only [Board.get, SIZE, e0, if_true, e, List.getD_eq_getElem?_getD] at this
      rw [List.getElem?_eq_getElem h1, List.getElem?_eq_getElem h2] at this
      simpa using this

theorem placed_covered_iff {P : List Block} (hP : Placed P) (c : Int × Int) (k : TileKind) :
    (∃ p ∈ P, c ∈ p.cells ∧ p._kind = k) ↔
      (inGrid c ∧ k ≠ TileKind.empty ∧ (renderPieces P).get c.1 c.2 = k) := by
  have hgrid : ∀ p ∈ P, ∀ c ∈ p.cells, inGrid c := fun p hp => (hP.1 p hp).2
  constructor
  · rintro ⟨p, hp, hc, rfl⟩
    exact ⟨hgrid p hp c hc, (hP.1 p hp).1, render_get_of_mem hgrid hP.2 hp hc⟩
  · rintro ⟨hg, hk, hget⟩
    by_contra hno
    have : ∀ p ∈ P, c ∉ p.cells := by
      intro p hp hc
      apply hno
      refine ⟨p, hp, hc, ?_⟩
      rw [← hget]
      exact (render_get_of_mem hgrid hP.2 hp hc).symm
    rw [render_get_of_not_mem hgrid hg this] at hget
    exact hk hget.symm

theorem render_eq_iff_occupancy {P Q : List Block} (hP : Placed P) (hQ : Placed Q) :
    renderPieces P = renderPieces Q ↔
      ∀ c k, (∃ p ∈ P, c ∈ p.cells ∧ p._kind = k) ↔ (∃ q ∈ Q, c ∈ q.cells ∧ q._kind = k) := by
  constructor
  · intro h c k
    rw [placed_covered_iff hP, placed_covered_iff hQ, h]
  · intro h
    apply board_ext (renderPieces_length P) (renderPieces_length Q)
    intro d hd
    by_cases hk : (renderPieces P).get d.1 d.2 = TileKind.empty
    · rw [hk]
      by_contra hne
      have := (placed_covered_iff hQ d _).2 ⟨hd, fun e => hne e.symm, rfl⟩
      have := (placed_covered_iff hP d _).1 ((h d _).2 this)
      rw [hk] at this
      exact hne this.2.2
    · have := (placed_covered_iff hP d _).2 ⟨hd, hk, rfl⟩
      exact ((placed_covered_iff hQ d _).1 ((h d _).1 this)).2.2.symm

theorem renderPieces_relabel (f : Block → Nat) (P : List Block) :
    renderPieces (P.map (fun p => { p with _id := f p })) = renderPieces P := by
  unfold renderPieces
  rw [List.foldl_map]
  rfl

/-- C8 (the board key is exactly the labelled occupancy).  For piece lists `P` and
`Q` that satisfy the on-board and no-overlap preconditions, the renders of `P` and
`Q` are the same key (neither is less than the other under `Board::operator<`) if
and only if `P` and `Q` cover the same cells with the same kind on every cell;
the key is then also the same board, it does not change when the list is
reordered, and it does not change when the ids are changed. -/
theorem C8_key_is_occupancy (P Q : List Block) (hP : Placed P) (hQ : Placed Q) :
    (((renderPieces P).lt (renderPieces Q) = false ∧
        (renderPieces Q).lt (renderPieces P) = false) ↔
      ∀ c k, (∃ p ∈ P, c ∈ p.cells ∧ p._kind = k) ↔ (∃ q ∈ Q, c ∈ q.cells ∧ q._kind = k)) ∧
    ((renderPieces P).sameKey (renderPieces Q) = true ↔ renderPieces P = renderPieces Q) ∧
    (∀ P2, P2.Perm P → renderPieces P2 = renderPieces P) ∧
    (∀ f : Block → Nat, renderPieces (P.map (fun p => { p with _id := f p })) =
      renderPieces P) := by
  have hkey : (renderPieces P).sameKey (renderPieces Q) = true ↔
      renderPieces P = renderPieces Q :=
    sameKey_iff (by rw [renderPieces_length, renderPieces_length])
  refine ⟨?_, hkey, ?_, fun f => renderPieces_relabel f P⟩
  · rw [← render_eq_iff_occupancy hP hQ, ← hkey]
    simp [Board.sameKey]
  · intro P2 hperm
    have hP2 : Placed P2 := by
      refine ⟨fun p hp => hP.1 p (hperm.mem_iff.1 hp), ?_⟩
      exact (List.Perm.pairwise_iff (fun {a b} h => disjointBlocks_symm h) hperm).2 hP.2
    rw [render_eq_iff_occupancy hP2 hP]
    intro c k
    constructor
    · rintro ⟨p, hp, h⟩
      exact ⟨p, hperm.mem_iff.1 hp, h⟩
    · rintro ⟨p, hp, h⟩
      exact ⟨p, hperm.mem_iff.2 hp, h⟩

theorem C8_key_is_occupancy_witness :
    Placed scenarioS3 ∧ Placed scenarioS3relabelled ∧
    renderPieces scenarioS3 = renderPieces scenarioS3relabelled ∧
    ∀ c k, (∃ p ∈ scenarioS3, c ∈ p.cells ∧ p._kind = k) ↔
      (∃ q ∈ scenarioS3relabelled, c ∈ q.cells ∧ q._kind = k) :=
  ⟨by decide, by decide, by decide,
    (C8_key_is_occupancy scenarioS3 scenarioS3relabelled (by decide) (by decide)).1.1
      ⟨by decide, by decide⟩⟩

theorem TileKind.toNat_lt (k : TileKind) : k.toNat < 4 := by
  cases k <;> simp [TileKind.toNat]

theorem encode_inj_list : ∀ (a b : List TileKind), a.length = b.length →
    a.foldr (fun k acc => k.toNat + 4 * acc) 0 = b.foldr (fun k acc => k.toNat + 4 * acc) 0 →
    a = b := by
  intro a
  induction a with
  | nil =>
    intro b hl _
    cases b with
    | nil => rfl
    | cons y ys => simp at hl
  | cons x xs ih =>
    intro b hl h
    cases b with
    | nil => simp at hl
    | cons y ys =>
      simp only [List.foldr_cons] at h
      simp only [List.length_cons, Nat.add_right_cancel_iff] at hl
      have hx := TileKind.toNat_lt x
      have hy := TileKind.toNat_lt y
      have h1 : x.toNat = y.toNat := by omega
      have h2 := ih ys hl (by omega)
      rw [TileKind.toNat_inj h1, h2]

theorem encodeKey_inj {a b : Board} (ha : a._data.length = 36) (hb : b._data.length = 36)
    (h : encodeKey a = encodeKey b) : a = b := by
  cases a with
  | mk da =>
    cases b with
    | mk db =>
      simp only [Board.mk.injEq]
      exact encode_inj_list da db (by simp only at ha hb; rw [ha, hb]) h

theorem packedFind_eq {m : MoveMap} (hm : ∀ e ∈ m, e.1._data.length = 36) {b : Board}
    (hb : b._data.length = 36) :
    packedFind (m.map (fun e => (encodeKey e.1, e.2))) (encodeKey b) = MoveMap.find m b := by
  induction m with
  | nil => rfl
  | cons e m ih =>
    have he := hm e (List.mem_cons_self _ _)
    simp only [List.map_cons, packedFind, MoveMap.find]
    rw [ih (fun x hx => hm x (List.mem_cons_of_mem _ hx))]
    by_cases h : e.1 = b
    · rw [if_pos (by rw [h]), if_pos ((sameKey_iff (by rw [he, hb])).2 h)]
    · have h1 : ¬ encodeKey e.1 = encodeKey b := fun hh => h (encodeKey_inj he hb hh)
      have h2 : ¬ e.1.sameKey b = true := fun hh => h ((sameKey_iff (by rw [he, hb])).1 hh)
      rw [if_neg h1, if_neg h2]

theorem packedInsert_eq {m : MoveMap} (hm : ∀ e ∈ m, e.1._data.length = 36) {b : Board}
    (hb : b._data.length = 36) (mv : Move) :
    packedInsert (m.map (fun e => (encodeKey e.1, e.2))) (encodeKey b) mv =
      (MoveMap.insert m b mv).map (fun e => (encodeKey e.1, e.2)) := by
  unfold packedInsert MoveMap.insert
  rw [packedFind_eq hm hb]
  cases MoveMap.find m b with
  | none => simp
  | some v => rfl

theorem packedContains_eq {s : BoardSet} (hs : ∀ k ∈ s, k._data.length = 36) {b : Board}
    (hb : b._data.length = 36) :
    (s.map encodeKey).contains (encodeKey b) = BoardSet.has s b := by
  induction s with
  | nil => rfl
  | cons k s ih =>
    have hk := hs k (List.mem_cons_self _ _)
    simp only [List.map_cons, List.contains_cons, BoardSet.has, List.any_cons] at ih ⊢
    rw [ih (fun x hx => hs x (List.mem_cons_of_mem _ hx))]
    congr 1
    by_cases h : k = b
    · rw [h, sameKey_refl]
      simp
    · have h1 : ¬ encodeKey b = encodeKey k := fun hh => h (encodeKey_inj hk hb hh.symm)
      have h2 : k.sameKey b = false := by
        cases hh : k.sameKey b with
        | false => rfl
        | true => exact absurd ((sameKey_iff (by rw [hk, hb])).1 hh) h
      rw [h2]
      simpa using h1

theorem recordMove_keys {s : SolverState} (hk : ∀ e ∈ s.previousMoves, e.1._data.length = 36)
    (e : List Block × Move) : ∀ x ∈ (recordMove s e).previousMoves, x.1._data.length = 36 := by
  intro x hx
  rcases MoveMap.mem_insert hx with h | h
  · exact hk x h
  · rw [h]
    exact renderPieces_length _

theorem packedRecord_fold (em : List (List Block × Move)) :
    ∀ (s : SolverState), (∀ e ∈ s.previousMoves, e.1._data.length = 36) →
      em.foldl packedRecord (packState s) = packState (em.foldl recordMove s) := by
  induction em with
  | nil => intro s _; rfl
  | cons e em ih =>
    intro s hk
    rw [List.foldl_cons, List.foldl_cons, ← ih _ (recordMove_keys hk e)]
    congr 1
    simp only [packedRecord, packState, recordMove]
    rw [packedInsert_eq hk (renderPieces_length _)]

theorem packedStep_eq {s : SolverState} (hk : ∀ e ∈ s.previousMoves, e.1._data.length = 36)
    (hv : ∀ k ∈ s.visited, k._data.length = 36) :
    packedStep (packState s) =
      match step s with
      | .next s1 => PackedResult.next (packState s1)
      | .goal P s1 => PackedResult.goal P (packState s1)
      | .emptyQueue => PackedResult.emptyQueue
      | .assertFailed => PackedResult.assertFailed := by
  unfold packedStep step
  cases hq : s.queue with
  | nil => simp [packState, hq]
  | cons L rest =>
    simp only [packState, hq]
    rw [packedContains_eq hv (renderPieces_length L)]
    cases hvis : BoardSet.has s.visited (renderPieces L) with
    | true => simp
    | false =>
      simp only [Bool.false_eq_true, if_false]
      cases hp : findPrisoner L with
      | none => rfl
      | some it =>
        simp only [BoardSet.insert, hvis, Bool.false_eq_true, if_false]
        cases hc : allClear (renderPieces L) it with
        | true => simp [packState]
        | false =>
          simp only [Bool.false_eq_true, if_false]
          rw [expandLoop_eq]
          have := packedRecord_fold (legalMoves (renderPieces L) [] L)
            ⟨s.previousMoves, s.visited ++ [renderPieces L], rest⟩ hk
          simp only [packState, List.map_append, List.map_cons, List.map_nil] at this
          rw [this]

theorem packedBacktrack_eq {m : MoveMap} (hm : ∀ e ∈ m, e.1._data.length = 36) :
    ∀ (fuel : Nat) (P : List Block) (sol : List (List Block)),
      packedBacktrack (m.map (fun e => (encodeKey e.1, e.2))) fuel P sol =
        backtrack m fuel P sol := by
  intro fuel
  induction fuel with
  | zero => intro P sol; rfl
  | succ fuel ih =>
    intro P sol
    simp only [packedBacktrack, backtrack]
    rw [packedFind_eq hm (renderPieces_length P)]
    cases MoveMap.find m (renderPieces P) with
    | none => rfl
    | some mv =>
      dsimp only
      split
      · rfl
      · cases revertMove mv P with
        | none => rfl
        | some moved =>
          dsimp only
          rw [ih, copyPieces_eq]

/-- The main loop on packed containers computes what the main loop computes. -/
theorem packedLoop_eq {P0 : List Block} :
    ∀ (fuel : Nat) (s : SolverState), Inv P0 s →
      packedLoop fuel (packState s) = solveLoop fuel s := by
  intro fuel
  induction fuel with
  | zero => intro s _; rfl
  | succ fuel ih =>
    intro s hI
    simp only [packedLoop, solveLoop]
    rw [packedStep_eq hI.keys hI.vkeys]
    cases hs : step s with
    | next s1 =>
      dsimp only
      exact ih s1 (step_inv hI hs)
    | goal P s1 =>
      dsimp only
      obtain ⟨rest, _, _, _, rfl⟩ := step_goal_cases hs
      simp only [packState]
      rw [packedBacktrack_eq hI.keys, copyPieces_eq]
    | emptyQueue => rfl
    | assertFailed => rfl

theorem packedLoop_SolveBoard {P0 : List Block} (h0 : ValidInput P0) (fuel : Nat) :
    packedLoop fuel (packState (initState P0)) = SolveBoard fuel P0 :=
  packedLoop_eq fuel _ (initState_inv h0)

theorem initState_find (P0 : List Block) :
    MoveMap.find (initState P0).previousMoves (renderPieces P0) =
      some ⟨-1, Direction.left⟩ := by
  simp [initState, MoveMap.insert, MoveMap.find, sameKey_refl]

/-- C14 (already-solved input).  For every input, valid ones included, whose
initial state satisfies the goal test (a prisoner is found and every cell to its
right on its row is empty), `SolveBoard` succeeds with the solution sequence that
consists of the input piece list alone: length 1, that is 0 moves. -/
theorem C14_already_solved (P0 : List Block) (hg : IsGoal P0)
    (fuel : Nat) (hf : 2 ≤ fuel) :
    SolveBoard fuel P0 = Outcome.solved [P0] ∧
    (SolveBoard fuel P0).moves = some 0 := by
  obtain ⟨z, hz, hclear⟩ := hg
  have hc : allClear (renderPieces P0) z = true := (allClear_iff _ _).2 hclear
  have hstep : step (initState P0) =
      StepResult.goal P0 ⟨(initState P0).previousMoves, [renderPieces P0], []⟩ := by
    simp [step, initState, copyPieces_eq, BoardSet.has, BoardSet.insert, hz, hc]
  have h2 : SolveBoard 2 P0 = Outcome.solved [P0] := by
    simp only [SolveBoard, solveLoop, hstep, backtrack, initState_find, copyPieces_eq]
    simp
  have h := solveLoop_mono_le hf h2 (fun hh => Outcome.noConfusion hh)
  have h3 : SolveBoard fuel P0 = Outcome.solved [P0] := h
  exact ⟨h3, by rw [h3]; rfl⟩

theorem C14_already_solved_witness :
    (ValidInput scenarioS1 ∧ SolveBoard 5 scenarioS1 = Outcome.solved [scenarioS1]) ∧
    (ValidInput scenarioS2 ∧ SolveBoard 5 scenarioS2 = Outcome.solved [scenarioS2]) :=
  ⟨⟨by decide, (C14_already_solved scenarioS1
      (isGoal_of_allClear ⟨⟨0, 2, 0, true, TileKind.prisoner, 2⟩, by decide, by decide⟩)
      5 (by decide)).1⟩,
   ⟨by decide, (C14_already_solved scenarioS2
      (isGoal_of_allClear ⟨⟨0, 2, 0, true, TileKind.prisoner, 2⟩, by decide, by decide⟩)
      5 (by decide)).1⟩⟩

theorem moveStep_of_mem_generated {S T : List Block} (h : T ∈ generated S) : MoveStep S T :=
  generated_iff_moveStep.1 h

/-- C15, as stated, fails on scenario S4: `SolveBoard` returns a solution of one
move, and one legal move leads from the input to a goal state. -/
theorem C15_scenarioS4_counterexample :
    SolveBoard 10 scenarioS4 = Outcome.solved [scenarioS4, scenarioS4down] ∧
    (SolveBoard 10 scenarioS4).moves = some 1 ∧
    MovesTo 1 scenarioS4 scenarioS4down ∧ IsGoal scenarioS4down :=
  ⟨by decide, by decide, ⟨scenarioS4, rfl, moveStep_of_mem_generated (by decide)⟩,
    isGoal_of_allClear ⟨⟨0, 2, 0, true, TileKind.prisoner, 2⟩, by decide, by decide⟩⟩

/-- C15 (scenario S4), amended.  For the input that consists of the prisoner at
(2,0) of length 2, a vertical ordinary piece of length 2 at (2,3) and a horizontal
ordinary piece of length 2 at (0,3), the initial state fails the goal test, the
minimum-length solution has 1 move, and `SolveBoard` returns the solution of
exactly 1 move that shifts the vertical piece down to (3,3). -/
theorem C15_scenarioS4 (fuel : Nat) (hf : 10 ≤ fuel) :
    ValidInput scenarioS4 ∧ ¬ IsGoal scenarioS4 ∧
    MoveStep scenarioS4 scenarioS4down ∧ IsGoal scenarioS4down ∧
    SolveBoard fuel scenarioS4 = Outcome.solved [scenarioS4, scenarioS4down] ∧
    (SolveBoard fuel scenarioS4).moves = some 1 := by
  have h10 : SolveBoard 10 scenarioS4 = Outcome.solved [scenarioS4, scenarioS4down] := by
    decide
  have h : SolveBoard fuel scenarioS4 = Outcome.solved [scenarioS4, scenarioS4down] :=
    solveLoop_mono_le hf h10 (fun hh => Outcome.noConfusion hh)
  refine ⟨by decide, ?_, moveStep_of_mem_generated (by decide), ?_, h, by rw [h]; rfl⟩
  · exact not_isGoal_of_allClear (z := ⟨0, 2, 0, true, TileKind.prisoner, 2⟩) (by decide)
      (by decide)
  · exact isGoal_of_allClear ⟨⟨0, 2, 0, true, TileKind.prisoner, 2⟩, by decide, by decide⟩

theorem C15_scenarioS4_witness :
    (10 : Nat) ≤ 12 ∧
    SolveBoard 12 scenarioS4 = Outcome.solved [scenarioS4, scenarioS4down] :=
  ⟨by decide, (C15_scenarioS4 12 (by decide)).2.2.2.2.1⟩

/-- C16, as stated, fails on scenario S3: the shift of the ordinary piece up to
(1,3) is legal, but the resulting state does not satisfy the goal test, because
the piece still covers (2,3). -/
theorem C16_scenarioS3_counterexample :
    MoveStep scenarioS3 scenarioS3up ∧ ¬ IsGoal scenarioS3up ∧
    (renderPieces scenarioS3up).get 2 3 = TileKind.block :=
  ⟨moveStep_of_mem_generated (by decide),
    not_isGoal_of_allClear (z := ⟨0, 2, 0, true, TileKind.prisoner, 2⟩) (by decide) (by decide),
    by decide⟩

/-- C16 (scenario S3), amended.  For the input that consists of the prisoner at
(2,0) of length 2 and a vertical ordinary piece of length 2 at (2,3), the initial
state fails the goal test (the prisoner is blocked at column 3), both one-cell
shifts of the ordinary piece, up to (1,3) and down to (3,3), are legal moves and
are, with the shift of the prisoner to (2,1), the successors the expansion
generates; the state after the shift down satisfies the goal test, while the
state after the shift up does not. -/
theorem C16_scenarioS3 :
    ValidInput scenarioS3 ∧ ¬ IsGoal scenarioS3 ∧
    (renderPieces scenarioS3).get 2 3 = TileKind.block ∧
    MoveStep scenarioS3 scenarioS3up ∧ MoveStep scenarioS3 scenarioS3down ∧
    scenarioS3up ∈ generated scenarioS3 ∧ scenarioS3down ∈ generated scenarioS3 ∧
    (generated scenarioS3).length = 3 ∧
    IsGoal scenarioS3down ∧ ¬ IsGoal scenarioS3up := by
  refine ⟨by decide, ?_, by decide, moveStep_of_mem_generated (by decide),
    moveStep_of_mem_generated (by decide), by decide, by decide, by decide, ?_, ?_⟩
  · exact not_isGoal_of_allClear (z := ⟨0, 2, 0, true, TileKind.prisoner, 2⟩) (by decide)
      (by decide)
  · exact isGoal_of_allClear ⟨⟨0, 2, 0, true, TileKind.prisoner, 2⟩, by decide, by decide⟩
  · exact not_isGoal_of_allClear (z := ⟨0, 2, 0, true, TileKind.prisoner, 2⟩) (by decide)
      (by decide)

theorem applyMove_frame (d : Direction) (p : Block) (board : Board) (h : canMove board p d) :
    (p._isHorizontal = true ∧ (applyMove d p)._y = p._y ∧
      ((applyMove d p)._x = p._x - 1 ∨ (applyMove d p)._x = p._x + 1)) ∨
    (p._isHorizontal = false ∧ (applyMove d p)._x = p._x ∧
      ((applyMove d p)._y = p._y - 1 ∨ (applyMove d p)._y = p._y + 1)) := by
  cases d <;> simp only [canMove] at h <;> simp [applyMove, h.1]

/-- C12 (frame of a move).  The expansion of a piece list `P` leaves `P` itself
unchanged, and every successor it enqueues has the length of `P` and agrees with
`P` piece by piece, in the same list positions, except for exactly one piece,
which keeps its id, kind, orientation and length and of which exactly one
coordinate, `_x` if horizontal and `_y` if vertical, differs by exactly 1.  No piece
is added or removed, and `copyPieces` returns the pieces with their ids. -/
theorem C12_move_frame (P : List Block) (s : SolverState) :
    (expandLoop (renderPieces P) [] P s).1 = P ∧
    copyPieces P = P ∧
    ∃ added : List (List Block),
      (expandLoop (renderPieces P) [] P s).2.queue = s.queue ++ added ∧
      ∀ T ∈ added, T.length = P.length ∧
        ∃ l1 p q l2, P = l1 ++ p :: l2 ∧ T = l1 ++ q :: l2 ∧
          q._id = p._id ∧ q._kind = p._kind ∧ q._isHorizontal = p._isHorizontal ∧
          q._length = p._length ∧
          ((p._isHorizontal = true ∧ q._y = p._y ∧ (q._x = p._x - 1 ∨ q._x = p._x + 1)) ∨
           (p._isHorizontal = false ∧ q._x = p._x ∧
             (q._y = p._y - 1 ∨ q._y = p._y + 1))) := by
  refine ⟨by rw [expandLoop_eq]; rfl, copyPieces_eq P,
    (legalMoves (renderPieces P) [] P).map Prod.fst, ?_, ?_⟩
  · rw [expandLoop_eq]
    exact foldl_recordMove_queue _ _
  · intro T hT
    obtain ⟨⟨T2, m⟩, hm, rfl⟩ := List.mem_map.1 hT
    refine ⟨by simpa using legalMoves_length_eq hm, ?_⟩
    obtain ⟨l1, p, l2, d, h1, h2, h3, _⟩ := mem_legalMoves.1 hm
    obtain ⟨f1, f2, f3, f4⟩ := applyMove_fields d p
    exact ⟨l1, p, applyMove d p, l2, by simpa using h1, by simpa using h3, f1, f2, f3, f4,
      applyMove_frame d p _ h2⟩

/-- C13, as stated, fails: `SolveBoard` accepts an input with two overlapping
pieces, dequeues and expands it, and reports a solution; it accepts an input with
a prisoner of length 4 and a second prisoner as well. -/
theorem C13_malformed_counterexample :
    ¬ ValidInput malformedOverlap ∧
    ¬ disjointBlocks ⟨0, 2, 0, true, TileKind.prisoner, 2⟩ ⟨1, 1, 1, false, TileKind.block, 2⟩ ∧
    (∃ s, step (initState malformedOverlap) = StepResult.next s ∧ s.queue.length = 5) ∧
    SolveBoard 20 malformedOverlap =
      Outcome.solved [malformedOverlap, malformedOverlapDown] ∧
    ¬ ValidInput malformedLengthAndPrisoners ∧
    (SolveBoard 20 malformedLengthAndPrisoners).moves = some 1 :=
  ⟨by decide, by decide, ⟨_, rfl, by decide⟩, by decide, by decide, by decide⟩

theorem movesTo_cons {S R T : List Block} (h1 : MoveStep S R) :
    ∀ n, MovesTo n R T → MovesTo (n + 1) S T := by
  intro n
  induction n generalizing T with
  | zero =>
    intro h
    exact ⟨S, rfl, h ▸ h1⟩
  | succ n ih =>
    rintro ⟨U, hU, hstep⟩
    exact ⟨U, ih hU, hstep⟩

theorem movesTo_of_legalPath :
    ∀ (path : List (List Block)) (S : List Block), legalPath S path = true →
      MovesTo path.length S ((S :: path).getLast (List.cons_ne_nil _ _)) := by
  intro path
  induction path with
  | nil => intro S _; rfl
  | cons R path ih =>
    intro S h
    simp only [legalPath, Bool.and_eq_true, decide_eq_true_eq] at h
    have := ih R h.2
    rw [List.getLast_cons (List.cons_ne_nil _ _)]
    exact movesTo_cons (generated_iff_moveStep.1 h.1) _ this

theorem step_skip_of_visited {s : SolverState} {Q : List Block} {rest : List (List Block)}
    (hq : s.queue = Q :: rest) (hv : BoardSet.has s.visited (renderPieces Q) = true) :
    step s = StepResult.next { s with queue := rest } := by
  simp [step, hq, hv]

/-- C18 (the board key does not determine the piece placement).  The valid piece
lists `pinwheelP` and `pinwheelQ` consist of the same pieces (same ids, kinds,
orientations and lengths, in the same list positions) at different coordinates;
each is reached from the other by twelve legal moves; their renders are the same
board; their legal moves differ (piece 3 can move right in `pinwheelP` only, piece
1 in `pinwheelQ` only), and so do the successors the expansion generates.  The
first iteration of the search on `pinwheelP` expands it and marks its key; and in
every state whose visited set holds that key, an iteration that dequeues
`pinwheelQ` discards it without goal test and expansion. -/
theorem C18_key_not_placement :
    ValidInput pinwheelP ∧ ValidInput pinwheelQ ∧ pinwheelP ≠ pinwheelQ ∧
    pinwheelP.map (fun p => (p._id, p._kind, p._isHorizontal, p._length)) =
      pinwheelQ.map (fun p => (p._id, p._kind, p._isHorizontal, p._length)) ∧
    MovesTo 12 pinwheelP pinwheelQ ∧ MovesTo 12 pinwheelQ pinwheelP ∧
    renderPieces pinwheelP = renderPieces pinwheelQ ∧
    (canMove (renderPieces pinwheelP) ⟨3, 2, 1, true, TileKind.block, 2⟩ Direction.right ∧
      ¬ canMove (renderPieces pinwheelQ) ⟨3, 2, 0, true, TileKind.block, 2⟩ Direction.right) ∧
    (canMove (renderPieces pinwheelQ) ⟨1, 0, 1, true, TileKind.block, 2⟩ Direction.right ∧
      ¬ canMove (renderPieces pinwheelP) ⟨1, 0, 0, true, TileKind.block, 2⟩ Direction.right) ∧
    (legalMoves (renderPieces pinwheelP) [] pinwheelP).map Prod.snd =
      [⟨0, Direction.right⟩, ⟨3, Direction.right⟩, ⟨4, Direction.down⟩, ⟨5, Direction.up⟩] ∧
    (legalMoves (renderPieces pinwheelQ) [] pinwheelQ).map Prod.snd =
      [⟨0, Direction.right⟩, ⟨1, Direction.right⟩, ⟨2, Direction.down⟩, ⟨5, Direction.up⟩] ∧
    (∃ T ∈ generated pinwheelP, renderPieces T ∉ (generated pinwheelQ).map renderPieces) ∧
    (∃ T ∈ generated pinwheelQ, renderPieces T ∉ (generated pinwheelP).map renderPieces) ∧
    (∃ s1, step (initState pinwheelP) = StepResult.next s1 ∧
      s1.visited = [renderPieces pinwheelP] ∧ s1.queue = generated pinwheelP) ∧
    (∀ (s : SolverState) (rest : List (List Block)),
      BoardSet.has s.visited (renderPieces pinwheelP) = true → s.queue = pinwheelQ :: rest →
      step s = StepResult.next { s with queue := rest }) := by
  have hrender : renderPieces pinwheelP = renderPieces pinwheelQ := by decide
  refine ⟨by decide, by decide, by decide, by decide, ?_, ?_, hrender, by decide, by decide,
    by decide, by decide, by decide, by decide, ⟨_, rfl, by decide, by decide⟩, ?_⟩
  · exact movesTo_of_legalPath pinwheelPathPQ pinwheelP (by decide)
  · exact movesTo_of_legalPath pinwheelPathQP pinwheelQ (by decide)
  · intro s rest hv hq
    rw [hrender] at hv
    exact step_skip_of_visited hq hv

/-! ## The scanner -/

theorem markKnown_known (st : ScanState) (y x : Nat) (h : y * 6 + x < st.isTileKnown.length) :
    (markKnown st y x).isTileKnown.getD (y * 6 + x) false = true := by
  simp [markKnown, List.getD_eq_getElem?_getD, List.getElem?_set, h]

theorem markKnown_mono (st : ScanState) (y x : Nat) :
    (markKnown st y x).isTileKnown.length = st.isTileKnown.length ∧
    ∀ i, st.isTileKnown.getD i false = true →
      (markKnown st y x).isTileKnown.getD i false = true := by
  refine ⟨by simp [markKnown], ?_⟩
  intro i hi
  simp only [markKnown, List.getD_eq_getElem?_getD, List.getElem?_set] at hi ⊢
  split
  · rename_i he
    split
    · simp
    · rename_i hlt
      rw [← he, List.getElem?_eq_none (by omega)] at hi
      simp at hi
  · exact hi

theorem scanHorizontal_mono (g_borders : Nat → Nat → BorderKind) (y : Nat) :
    ∀ (n xend : Nat) (st : ScanState),
      (scanHorizontal g_borders y n xend st).2.isTileKnown.length = st.isTileKnown.length ∧
      (∀ i, st.isTileKnown.getD i false = true →
        (scanHorizontal g_borders y n xend st).2.isTileKnown.getD i false = true) ∧
      (scanHorizontal g_borders y n xend st).2.pieces = st.pieces ∧
      (scanHorizontal g_borders y n xend st).2.BlockId = st.BlockId := by
  intro n
  induction n with
  | zero => intro xend st; exact ⟨rfl, fun _ h => h, rfl, rfl⟩
  | succ n ih =>
    intro xend st
    simp only [scanHorizontal]
    split
    · obtain ⟨h1, h2, h3, h4⟩ := ih (xend + 1) (markKnown st y xend)
      obtain ⟨m1, m2⟩ := markKnown_mono st y xend
      exact ⟨h1.trans m1, fun i hi => h2 i (m2 i hi), h3, h4⟩
    · exact ⟨rfl, fun _ h => h, rfl, rfl⟩

theorem scanVertical_mono (g_borders : Nat → Nat → BorderKind) (x : Nat) :
    ∀ (n yend : Nat) (st : ScanState),
      (scanVertical g_borders x n yend st).2.isTileKnown.length = st.isTileKnown.length ∧
      (∀ i, st.isTileKnown.getD i false = true →
        (scanVertical g_borders x n yend st).2.isTileKnown.getD i false = true) ∧
      (scanVertical g_borders x n yend st).2.pieces = st.pieces ∧
      (scanVertical g_borders x n yend st).2.BlockId = st.BlockId := by
  intro n
  induction n with
  | zero => intro yend st; exact ⟨rfl, fun _ h => h, rfl, rfl⟩
  | succ n ih =>
    intro yend st
    simp only [scanVertical]
    split
    · obtain ⟨h1, h2, h3, h4⟩ := ih (yend + 1) (markKnown st yend x)
      obtain ⟨m1, m2⟩ := markKnown_mono st yend x
      exact ⟨h1.trans m1, fun i hi => h2 i (m2 i hi), h3, h4⟩
    · exact ⟨rfl, fun _ h => h, rfl, rfl⟩

theorem scanTile_mono (g_tiles : Nat → Nat → TileKind) (g_borders : Nat → Nat → BorderKind)
    (st : ScanState) (y x : Nat) :
    (scanTile g_tiles g_borders st y x).isTileKnown.length = st.isTileKnown.length ∧
    (∀ i, st.isTileKnown.getD i false = true →
      (scanTile g_tiles g_borders st y x).isTileKnown.getD i false = true) ∧
    (y * 6 + x < st.isTileKnown.length →
      (scanTile g_tiles g_borders st y x).isTileKnown.getD (y * 6 + x) false = true) := by
  obtain ⟨m1, m2⟩ := markKnown_mono st y x
  unfold scanTile
  split
  · rename_i hk
    exact ⟨rfl, fun _ h => h, fun _ => hk⟩
  · split
    · exact ⟨m1, m2, markKnown_known st y x⟩
    · split
      · obtain ⟨h1, h2, _, _⟩ := scanHorizontal_mono g_borders y 6 (x + 1) (markKnown st y x)
        dsimp only
        split <;>
          exact ⟨h1.trans m1, fun i hi => h2 i (m2 i hi),
            fun hb => h2 _ (markKnown_known st y x hb)⟩
      · split
        · obtain ⟨h1, h2, _, _⟩ := scanVertical_mono g_borders x 6 (y + 1) (markKnown st y x)
          exact ⟨h1.trans m1, fun i hi => h2 i (m2 i hi),
            fun hb => h2 _ (markKnown_known st y x hb)⟩
        · exact ⟨m1, m2, markKnown_known st y x⟩

theorem scanRow_known (g_tiles : Nat → Nat → TileKind) (g_borders : Nat → Nat → BorderKind)
    (y : Nat) (xs : List Nat) :
    ∀ (st : ScanState),
      (xs.foldl (fun st x => scanTile g_tiles g_borders st y x) st).isTileKnown.length =
        st.isTileKnown.length ∧
      (∀ i, st.isTileKnown.getD i false = true →
        (xs.foldl (fun st x => scanTile g_tiles g_borders st y x) st).isTileKnown.getD i false =
          true) ∧
      (∀ x ∈ xs, y * 6 + x < st.isTileKnown.length →
        (xs.foldl (fun st x => scanTile g_tiles g_borders st y x) st).isTileKnown.getD
          (y * 6 + x) false = true) := by
  induction xs with
  | nil => intro st; exact ⟨rfl, fun _ h => h, fun _ h => absurd h (List.not_mem_nil _)⟩
  | cons a xs ih =>
    intro st
    obtain ⟨t1, t2, t3⟩ := scanTile_mono g_tiles g_borders st y a
    obtain ⟨h1, h2, h3⟩ := ih (scanTile g_tiles g_borders st y a)
    simp only [List.foldl_cons]
    refine ⟨h1.trans t1, fun i hi => h2 i (t2 i hi), ?_⟩
    intro x hx hb
    rcases List.mem_cons.1 hx with rfl | hx
    · exact h2 _ (t3 hb)
    · exact h3 x hx (by rw [t1]; exact hb)

theorem scanRows_known (g_tiles : Nat → Nat → TileKind) (g_borders : Nat → Nat → BorderKind)
    (xs ys : List Nat) :
    ∀ (st : ScanState),
      (ys.foldl (fun st y => xs.foldl (fun st x => scanTile g_tiles g_borders st y x) st)
        st).isTileKnown.length = st.isTileKnown.length ∧
      (∀ i, st.isTileKnown.getD i false = true →
        (ys.foldl (fun st y => xs.foldl (fun st x => scanTile g_tiles g_borders st y x) st)
          st).isTileKnown.getD i false = true) ∧
      (∀ y ∈ ys, ∀ x ∈ xs, y * 6 + x < st.isTileKnown.length →
        (ys.foldl (fun st y => xs.foldl (fun st x => scanTile g_tiles g_borders st y x) st)
          st).isTileKnown.getD (y * 6 + x) false = true) := by
  induction ys with
  | nil => intro st; exact ⟨rfl, fun _ h => h, fun _ h => absurd h (List.not_mem_nil _)⟩
  | cons b ys ih =>
    intro st
    obtain ⟨t1, t2, t3⟩ := scanRow_known g_tiles g_borders b xs st
    obtain ⟨h1, h2, h3⟩ := ih (xs.foldl (fun st x => scanTile g_tiles g_borders st b x) st)
    simp only [List.foldl_cons]
    refine ⟨h1.trans t1, fun i hi => h2 i (t2 i hi), ?_⟩
    intro y hy x hx hb
    rcases List.mem_cons.1 hy with rfl | hy
    · exact h2 _ (t3 x hx hb)
    · exact h3 y hy x hx (by rw [t1]; exact hb)

theorem scanPass_allDone (g_tiles : Nat → Nat → TileKind) (g_borders : Nat → Nat → BorderKind)
    (st : ScanState) (hl : st.isTileKnown.length = 36) :
    allDone (scanPass g_tiles g_borders st) = true := by
  obtain ⟨_, _, h3⟩ := scanRows_known g_tiles g_borders (List.range 6) (List.range 6) st
  simp only [allDone, List.all_eq_true, List.mem_range]
  intro y hy x hx
  exact h3 y (List.mem_range.2 hy) x (List.mem_range.2 hx) (by rw [hl]; omega)

theorem scanVertical_to_bottom (g_borders : Nat → Nat → BorderKind) (x : Nat) :
    ∀ (n yend : Nat) (st : ScanState), yend ≤ 6 → 6 - yend ≤ n →
      (∀ y2, yend ≤ y2 → y2 < 6 → g_borders (2 * y2 + 1) x ≠ BorderKind.black) →
      (scanVertical g_borders x n yend st).1 = 6 := by
  intro n
  induction n with
  | zero =>
    intro yend st h1 h2 _
    simp only [scanVertical]
    omega
  | succ n ih =>
    intro yend st h1 h2 h3
    simp only [scanVertical]
    split
    · rename_i hc
      exact ih (yend + 1) _ (by omega) (by omega) (fun y2 h4 h5 => h3 y2 (by omega) h5)
    · rename_i hc
      by_cases h6 : yend < 6
      · exact absurd ⟨h6, h3 yend (le_refl _) h6⟩ hc
      · dsimp only
        omega

set_option maxRecDepth 100000 in
/-- C19 (the scanner can violate the input precondition of the solver).  The scan
ends after a single pass over the 36 tiles, whatever `g_tiles` and `g_borders`
hold.  When the pass reaches a tile `(y, x)` that is not yet known, is not empty,
has a white top border and no black bottom border, and no tile below it in column
`x` has a black bottom border, it emits a vertical block at `(y, x)` of length
`6 - y + 1`, which extends past the bottom of the grid.  For the contents
`bottomTiles` and `bottomBorders` the scanner returns one vertical block at (5,0)
of length 2, which is not a well-formed piece. -/
theorem C19_scanner_off_grid :
    (∀ (g_tiles : Nat → Nat → TileKind) (g_borders : Nat → Nat → BorderKind) (fuel : Nat),
      ScanBodiesAndBordersAndEmitStartingPiecePositions g_tiles g_borders (fuel + 1) =
        some (scanPass g_tiles g_borders ⟨[], List.replicate 36 false, 0⟩).pieces) ∧
    (∀ (g_tiles : Nat → Nat → TileKind) (g_borders : Nat → Nat → BorderKind)
      (st : ScanState) (y x : Nat), y < 6 → x < 6 →
      st.isTileKnown.getD (y * 6 + x) false = false →
      g_tiles y x ≠ TileKind.empty →
      g_borders (2 * y) x = BorderKind.white →
      g_borders (2 * y + 1) x ≠ BorderKind.black →
      (∀ y2, y < y2 → y2 < 6 → g_borders (2 * y2 + 1) x ≠ BorderKind.black) →
      (scanTile g_tiles g_borders st y x).pieces =
        st.pieces ++ [⟨st.BlockId, (y : Int), (x : Int), false, g_tiles y x, 6 - (y : Int) + 1⟩] ∧
      (6 : Int) < (y : Int) + (6 - (y : Int) + 1)) ∧
    (ScanBodiesAndBordersAndEmitStartingPiecePositions bottomTiles bottomBorders 1 =
        some [⟨0, 5, 0, false, TileKind.block, 2⟩] ∧
      ¬ Block.wellFormed ⟨0, 5, 0, false, TileKind.block, 2⟩ ∧
      ¬ ValidInput [⟨0, 5, 0, false, TileKind.block, 2⟩]) := by
  refine ⟨?_, ?_, by decide, by decide, by decide⟩
  · intro g_tiles g_borders fuel
    simp only [ScanBodiesAndBordersAndEmitStartingPiecePositions, scanLoop]
    rw [scanPass_allDone g_tiles g_borders _ (by simp)]
    rfl
  · intro g_tiles g_borders st y x hy hx hk ht hw hb hbelow
    refine ⟨?_, by omega⟩
    have hk2 : ¬ st.isTileKnown.getD (y * 6 + x) false = true := by
      rw [hk]
      exact Bool.false_ne_true
    have ht2 : ¬ TileKind.empty = g_tiles y x := fun h => ht h.symm
    obtain ⟨_, _, h3, h4⟩ := scanVertical_mono g_borders x 6 (y + 1) (markKnown st y x)
    have h6 := scanVertical_to_bottom g_borders x 6 (y + 1) (markKnown st y x) (by omega)
      (by omega) (fun y2 h1 h2 => hbelow y2 (by omega) h2)
    simp only [scanTile, hk2, ht2, hw, hb, and_false, true_and, if_false, if_true, pushBlock,
      h3, h4, h6]
    simp [markKnown]

theorem C19_scanner_off_grid_witness :
    (scanTile bottomTiles bottomBorders ⟨[], List.replicate 36 false, 0⟩ 5 0).pieces =
      [⟨0, 5, 0, false, TileKind.block, 2⟩] :=
  (C19_scanner_off_grid.2.1 bottomTiles bottomBorders ⟨[], List.replicate 36 false, 0⟩ 5 0
    (by decide) (by decide) (by decide) (by decide) (by decide) (by decide)
    (fun y2 h1 h2 => absurd h2 (by omega))).1

theorem backtrackEnd_traced {m : MoveMap} {P0 : List Block} {pre : List (List Block)}
    {F : List Block} (t : TracedPath m P0 pre F) :
    ∀ (fuel : Nat),
      (pre.length < fuel → backtrackEnd m fuel F = BacktrackEnd.sentinel) ∧
      (fuel ≤ pre.length → backtrackEnd m fuel F = BacktrackEnd.outOfFuel) := by
  induction t with
  | base h0 =>
    intro fuel
    cases fuel with
    | zero => exact ⟨fun h => absurd h (by simp), fun _ => rfl⟩
    | succ fuel => exact ⟨fun _ => by simp [backtrackEnd, h0], fun h => absurd h (by simp)⟩
  | @move pre l1 l2 p d _ hv hc hfind ih =>
    intro fuel
    cases fuel with
    | zero => exact ⟨fun h => absurd h (by simp), fun _ => rfl⟩
    | succ fuel =>
      have hne : ¬ ((p._id : Int) = -1) := by omega
      simp only [backtrackEnd, hfind, hne, if_false]
      rw [revertMove_moved d (ids_before_ne hv)]
      simp only [List.length_append, List.length_singleton]
      exact ⟨fun h => (ih fuel).1 (by omega), fun h => (ih fuel).2 (by omega)⟩

theorem backtrackEnd_outcome (m : MoveMap) :
    ∀ (fuel : Nat) (P : List Block) (sol : List (List Block)),
      (backtrackEnd m fuel P = BacktrackEnd.assertFailed ↔
        backtrack m fuel P sol = Outcome.assertionFailed) ∧
      (backtrackEnd m fuel P = BacktrackEnd.outOfFuel ↔
        backtrack m fuel P sol = Outcome.outOfFuel) := by
  intro fuel
  induction fuel with
  | zero => intro P sol; simp [backtrackEnd, backtrack]
  | succ fuel ih =>
    intro P sol
    simp only [backtrackEnd, backtrack]
    cases MoveMap.find m (renderPieces P) with
    | none => simp
    | some mv =>
      dsimp only
      split
      · simp
      · cases revertMove mv P with
        | none => simp
        | some moved => exact ih moved _

theorem allClearReads_inGrid (board : Board) (y : Int) (hy : 0 ≤ y ∧ y < 6) :
    ∀ (n : Nat) (x : Int), 0 ≤ x → x + (n : Int) ≤ 6 →
      ∀ c ∈ allClearReads board y n x, inGrid c := by
  intro n
  induction n with
  | zero => intro x _ _ c hc; simp [allClearReads] at hc
  | succ n ih =>
    intro x h0 h6 c hc
    simp only [allClearReads, List.mem_cons] at hc
    rcases hc with rfl | hc
    · simp only [inGrid, SIZE]
      push_cast at h6
      omega
    · split at hc
      · exact ih (x + 1) (by omega) (by push_cast at h6 ⊢; omega) c hc
      · simp at hc

theorem goalAccesses_inGrid {it : Block} (hw : it.wellFormed) (hh : it._isHorizontal = true)
    (board : Board) : ∀ c ∈ goalAccesses board it, inGrid c := by
  obtain ⟨b1, b2, b3, b4, _⟩ := wf_bounds hw
  have := b4 hh
  unfold goalAccesses
  apply allClearReads_inGrid board it._y ⟨b1, this.1⟩
  · omega
  · simp only [SIZE]
    have e := Int.toNat_of_nonneg (show 0 ≤ 6 - (it._x + it._length) by omega)
    omega

theorem expandAccesses_inGrid {p : Block} (hw : p.wellFormed) :
    ∀ c ∈ expandAccesses p, inGrid c := by
  obtain ⟨b1, b2, b3, b4, b5⟩ := wf_bounds hw
  intro c hc
  unfold expandAccesses at hc
  cases hh : p._isHorizontal
  · have := b5 hh
    simp only [hh, Bool.false_eq_true, if_false, List.mem_append, SIZE] at hc
    rcases hc with hc | hc <;> split at hc <;> simp at hc <;> subst hc <;>
      simp only [inGrid, SIZE] <;> omega
  · have := b4 hh
    simp only [hh, if_true, List.mem_append, SIZE] at hc
    rcases hc with hc | hc <;> split at hc <;> simp at hc <;> subst hc <;>
      simp only [inGrid, SIZE] <;> omega

/-- C17 (internal assertions and lookups never fail on valid input).  For a valid
input and every state `s` the main loop reaches: (1) every piece list on the queue
has an entry in `previousMoves` under its rendered key; (2) the assertion that the
prisoner is there does not fail in the next iteration; (3) when the next iteration
enters the success branch, the backtracking loop ends at the sentinel: no lookup
fails and the piece with the recorded block id is found each time, so the second
assertion holds as well; (4) for every list on the queue, all the cells
`renderPieces` writes, the goal test reads and the move generation reads have both
coordinates in `0..5`. -/
theorem C17_no_internal_failure (P0 : List Block) (h0 : ValidInput P0) (n : Nat)
    (s : SolverState) (h : runSteps n (initState P0) = some s) :
    (∀ L ∈ s.queue, (MoveMap.find s.previousMoves (renderPieces L)).isSome = true) ∧
    step s ≠ StepResult.assertFailed ∧
    (∀ P s1, step s = StepResult.goal P s1 →
      backtrackEnd s1.previousMoves (s.visited.length + 1) P = BacktrackEnd.sentinel ∧
      (∀ fuel, backtrackEnd s1.previousMoves fuel P = BacktrackEnd.sentinel ∨
        backtrackEnd s1.previousMoves fuel P = BacktrackEnd.outOfFuel) ∧
      (∀ fuel sol, backtrack s1.previousMoves fuel P sol ≠ Outcome.assertionFailed)) ∧
    (∀ L ∈ s.queue,
      (∀ c ∈ renderAccesses L, inGrid c) ∧
      (∃ z, findPrisoner L = some z ∧ ∀ c ∈ goalAccesses (renderPieces L) z, inGrid c) ∧
      (∀ p ∈ L, ∀ c ∈ expandAccesses p, inGrid c)) := by
  have hI := runSteps_inv n _ _ (initState_inv h0) h
  refine ⟨hI.queued, step_no_assert hI, ?_, ?_⟩
  · intro P s1 hs
    obtain ⟨rest, hq, hv, _, rfl⟩ := step_goal_cases hs
    obtain ⟨path, ht, hlen⟩ := head_traced hI hq hv
    have hend := backtrackEnd_traced ht
    refine ⟨(hend _).1 (by omega), ?_, ?_⟩
    · intro fuel
      by_cases hf : path.length < fuel
      · exact Or.inl ((hend fuel).1 hf)
      · exact Or.inr ((hend fuel).2 (by omega))
    · intro fuel sol hbad
      have := (backtrackEnd_outcome s.previousMoves fuel P sol).1.2 hbad
      by_cases hf : path.length < fuel
      · rw [(hend fuel).1 hf] at this
        exact BacktrackEnd.noConfusion this
      · rw [(hend fuel).2 (by omega)] at this
        exact BacktrackEnd.noConfusion this
  · intro L hL
    have hv := (hI.valid L hL).1
    refine ⟨?_, ?_, fun p hp => expandAccesses_inGrid (hv.1 p hp)⟩
    · intro c hc
      simp only [renderAccesses, List.mem_flatMap] at hc
      obtain ⟨p, hp, hcp⟩ := hc
      exact (hv.1 p hp).2.2 c hcp
    · obtain ⟨z, hz⟩ := findPrisoner_of_valid hv
      obtain ⟨hzm, hzk⟩ := findPrisoner_some hz
      exact ⟨z, hz, goalAccesses_inGrid (hv.1 z hzm) (hv.2.2.2.2 z hzm hzk) _⟩

theorem C17_no_internal_failure_witness :
    ValidInput scenarioS3 ∧
    ∃ s, runSteps 3 (initState scenarioS3) = some s ∧
      step s = StepResult.goal scenarioS3down
        ⟨s.previousMoves, s.visited ++ [renderPieces scenarioS3down], s.queue.tail⟩ ∧
      backtrackEnd s.previousMoves (s.visited.length + 1) scenarioS3down =
        BacktrackEnd.sentinel :=
  ⟨by decide, _, rfl, rfl,
    ((C17_no_internal_failure scenarioS3 (by decide) 3 _ rfl).2.2.1 scenarioS3down _
      rfl).1⟩

/-! ## Renaming the ids -/

theorem swapId_injective (a b : Nat) : Function.Injective (swapId a b) := by
  intro i j h
  unfold swapId at h
  split at h <;> split at h <;> (try split at h) <;> (try split at h) <;> omega

theorem exchangeIds_eq_relabel (a b : Nat) (P : List Block) :
    exchangeIds a b P = relabel (swapId a b) P := by
  unfold exchangeIds relabel
  apply List.map_congr_left
  intro p _
  unfold relabelBlock swapId
  split
  · rfl
  · split
    · rfl
    · rfl

theorem renderPieces_relabel2 (f : Nat → Nat) (P : List Block) :
    renderPieces (relabel f P) = renderPieces P :=
  renderPieces_relabel (fun p => f p._id) P

theorem findPrisoner_relabel (f : Nat → Nat) (P : List Block) :
    findPrisoner (relabel f P) = (findPrisoner P).map (relabelBlock f) := by
  induction P with
  | nil => rfl
  | cons p P ih =>
    simp only [relabel, List.map_cons, findPrisoner] at ih ⊢
    by_cases h : p._kind = TileKind.prisoner
    · simp [relabelBlock, h]
    · simp only [relabelBlock, h, if_false]
      exact ih

theorem relabelMove_cast (f : Nat → Nat) (i : Nat) (d : Direction) :
    relabelMove f ⟨(i : Int), d⟩ = ⟨(f i : Int), d⟩ := by
  simp [relabelMove]

theorem legalMoves_relabel (f : Nat → Nat) (board : Board) (rest before : List Block) :
    legalMoves board (relabel f before) (relabel f rest) =
      (legalMoves board before rest).map (fun e => (relabel f e.1, relabelMove f e.2)) := by
  induction rest generalizing before with
  | nil => rfl
  | cons p rest ih =>
    have hcm : ∀ d, canMove board (relabelBlock f p) d ↔ canMove board p d := by
      intro d
      cases d <;> exact Iff.rfl
    have hfilter : [Direction.left, Direction.right, Direction.up, Direction.down].filter
          (fun d => decide (canMove board (relabelBlock f p) d)) =
        [Direction.left, Direction.right, Direction.up, Direction.down].filter
          (fun d => decide (canMove board p d)) := by
      apply List.filter_congr
      intro d _
      simp only [hcm]
    have happ : relabel f before ++ [relabelBlock f p] = relabel f (before ++ [p]) := by
      simp [relabel]
    simp only [relabel, List.map_cons] at ih ⊢
    simp only [legalMoves, hfilter, List.map_append, List.map_map]
    congr 1
    · apply List.map_congr_left
      intro d _
      cases d <;> simp [relabelBlock, relabelMove_cast, applyMove]
    · have := ih (before ++ [p])
      simp only [relabel, List.map_append, List.map_cons, List.map_nil] at this
      exact this

theorem find_relabel (f : Nat → Nat) (m : MoveMap) (b : Board) :
    MoveMap.find (m.map (fun e => (e.1, relabelMove f e.2))) b =
      (MoveMap.find m b).map (relabelMove f) := by
  induction m with
  | nil => rfl
  | cons e m ih =>
    simp only [List.map_cons, MoveMap.find]
    split
    · rfl
    · exact ih

theorem insert_relabel (f : Nat → Nat) (m : MoveMap) (b : Board) (mv : Move) :
    MoveMap.insert (m.map (fun e => (e.1, relabelMove f e.2))) b (relabelMove f mv) =
      (MoveMap.insert m b mv).map (fun e => (e.1, relabelMove f e.2)) := by
  unfold MoveMap.insert
  rw [find_relabel]
  cases MoveMap.find m b with
  | none => simp
  | some v => rfl

theorem recordMove_relabel (f : Nat → Nat) (s : SolverState) (e : List Block × Move) :
    recordMove (relabelState f s) (relabel f e.1, relabelMove f e.2) =
      relabelState f (recordMove s e) := by
  simp only [recordMove, relabelState, renderPieces_relabel2, insert_relabel, List.map_append,
    List.map_cons, List.map_nil]

theorem foldl_recordMove_relabel (f : Nat → Nat) (em : List (List Block × Move)) :
    ∀ s : SolverState,
      (em.map (fun e => (relabel f e.1, relabelMove f e.2))).foldl recordMove
          (relabelState f s) =
        relabelState f (em.foldl recordMove s) := by
  induction em with
  | nil => intro s; rfl
  | cons e em ih =>
    intro s
    simp only [List.map_cons, List.foldl_cons]
    rw [recordMove_relabel, ih]

theorem step_relabel (f : Nat → Nat) (s : SolverState) :
    step (relabelState f s) = relabelStep f (step s) := by
  unfold step
  cases hq : s.queue with
  | nil => simp [relabelState, hq, relabelStep]
  | cons L rest =>
    simp only [relabelState, hq, List.map_cons, renderPieces_relabel2]
    cases hv : BoardSet.has s.visited (renderPieces L) with
    | true => simp [relabelStep, relabelState]
    | false =>
      simp only [Bool.false_eq_true, if_false, findPrisoner_relabel]
      cases hp : findPrisoner L with
      | none => rfl
      | some it =>
        simp only [Option.map_some']
        have hc : allClear (renderPieces L) (relabelBlock f it) = allClear (renderPieces L) it :=
          rfl
        rw [hc]
        cases hclear : allClear (renderPieces L) it with
        | true => simp [relabelStep, relabelState]
        | false =>
          simp only [Bool.false_eq_true, if_false, relabelStep]
          rw [expandLoop_eq, expandLoop_eq]
          have h1 := legalMoves_relabel f (renderPieces L) L []
          have h2 := foldl_recordMove_relabel f (legalMoves (renderPieces L) [] L)
            ⟨s.previousMoves, BoardSet.insert s.visited (renderPieces L), rest⟩
          simp only [relabel, List.map_nil] at h1
          simp only [relabel] at h2 ⊢
          rw [h1]
          exact congrArg StepResult.next h2

theorem revertMove_relabel {f : Nat → Nat} (hf : Function.Injective f) (mv : Move)
    (L : List Block) :
    revertMove (relabelMove f mv) (relabel f L) = (revertMove mv L).map (relabel f) := by
  induction L with
  | nil => rfl
  | cons b L ih =>
    simp only [relabel, List.map_cons, revertMove] at ih ⊢
    by_cases h0 : 0 ≤ mv._blockId
    · have e := Int.toNat_of_nonneg h0
      have hiff : ((relabelBlock f b)._id : Int) = (relabelMove f mv)._blockId ↔
          (b._id : Int) = mv._blockId := by
        simp only [relabelMove, h0, if_true, relabelBlock]
        constructor
        · intro h
          have := hf (Int.ofNat.inj h)
          omega
        · intro h
          have : b._id = mv._blockId.toNat := by omega
          rw [this]
      by_cases hb : (b._id : Int) = mv._blockId
      · rw [if_pos (hiff.2 hb), if_pos hb]
        simp only [relabelMove, h0, if_true, Option.map_some', List.map_cons]
        congr 2
        cases mv._move <;> rfl
      · rw [if_neg (fun h => hb (hiff.1 h)), if_neg hb, ih]
        cases revertMove mv L <;> rfl
    · have hm : relabelMove f mv = mv := by simp [relabelMove, h0]
      have h1 : ¬ ((relabelBlock f b)._id : Int) = mv._blockId := by omega
      have h2 : ¬ (b._id : Int) = mv._blockId := by omega
      rw [hm] at ih ⊢
      rw [if_neg h1, if_neg h2, ih]
      cases revertMove mv L <;> rfl

theorem relabelMove_sentinel (f : Nat → Nat) (mv : Move) :
    (relabelMove f mv)._blockId = -1 ↔ mv._blockId = -1 := by
  unfold relabelMove
  split
  · simp only
    constructor <;> intro h <;> omega
  · exact Iff.rfl

theorem backtrack_relabel {f : Nat → Nat} (hf : Function.Injective f) (m : MoveMap) :
    ∀ (fuel : Nat) (P : List Block) (sol : List (List Block)),
      backtrack (m.map (fun e => (e.1, relabelMove f e.2))) fuel (relabel f P)
          (sol.map (relabel f)) =
        relabelOutcome f (backtrack m fuel P sol) := by
  intro fuel
  induction fuel with
  | zero => intro P sol; rfl
  | succ fuel ih =>
    intro P sol
    simp only [backtrack, renderPieces_relabel2, find_relabel]
    cases MoveMap.find m (renderPieces P) with
    | none => rfl
    | some mv =>
      simp only [Option.map_some']
      by_cases hs : mv._blockId = -1
      · rw [if_pos ((relabelMove_sentinel f mv).2 hs), if_pos hs]
        rfl
      · rw [if_neg (fun h => hs ((relabelMove_sentinel f mv).1 h)), if_neg hs,
          revertMove_relabel hf]
        cases revertMove mv P with
        | none => rfl
        | some moved =>
          simp only [Option.map_some', copyPieces_eq]
          exact ih moved (moved :: sol)

theorem solveLoop_relabel {f : Nat → Nat} (hf : Function.Injective f) :
    ∀ (fuel : Nat) (s : SolverState),
      solveLoop fuel (relabelState f s) = relabelOutcome f (solveLoop fuel s) := by
  intro fuel
  induction fuel with
  | zero => intro s; rfl
  | succ fuel ih =>
    intro s
    simp only [solveLoop, step_relabel]
    cases step s with
    | next s1 => exact ih s1
    | goal P s1 =>
      simp only [relabelStep, relabelState, copyPieces_eq]
      exact backtrack_relabel hf s1.previousMoves fuel P [P]
    | emptyQueue => rfl
    | assertFailed => rfl

theorem initState_relabel (f : Nat → Nat) (P : List Block) :
    initState (relabel f P) = relabelState f (initState P) := by
  simp [initState, relabelState, renderPieces_relabel2, copyPieces_eq, MoveMap.insert,
    MoveMap.find, relabelMove]

theorem relabelOutcome_moves (f : Nat → Nat) (o : Outcome) :
    (relabelOutcome f o).moves = o.moves := by
  cases o <;> simp [relabelOutcome, Outcome.moves]

/-- C11 (identity relabelling).  Exchanging two ids `a` and `b` in the input (for a
valid input: exchanging the ids of two of its pieces, whatever their kind,
orientation and length) yields a run of `SolveBoard` that is the run on the
original input with the two ids exchanged throughout: the outcome is the same up
to the exchange, and a solution has the same number of moves. -/
theorem C11_id_relabelling (P0 : List Block) (a b : Nat) (fuel : Nat) :
    SolveBoard fuel (exchangeIds a b P0) =
      relabelOutcome (swapId a b) (SolveBoard fuel P0) ∧
    (SolveBoard fuel (exchangeIds a b P0)).moves = (SolveBoard fuel P0).moves ∧
    (∀ sol, SolveBoard fuel P0 = Outcome.solved sol →
      SolveBoard fuel (exchangeIds a b P0) = Outcome.solved (sol.map (exchangeIds a b))) := by
  have h : SolveBoard fuel (exchangeIds a b P0) =
      relabelOutcome (swapId a b) (SolveBoard fuel P0) := by
    unfold SolveBoard
    rw [exchangeIds_eq_relabel, initState_relabel]
    exact solveLoop_relabel (swapId_injective a b) fuel _
  refine ⟨h, by rw [h, relabelOutcome_moves], ?_⟩
  intro sol hsol
  rw [h, hsol]
  simp only [relabelOutcome]
  congr 1
  apply List.map_congr_left
  intro L _
  exact (exchangeIds_eq_relabel a b L).symm

theorem C11_id_relabelling_witness :
    ValidInput scenarioTwins ∧
    (SolveBoard 30 scenarioTwins).moves = some 2 ∧
    (SolveBoard 30 (exchangeIds 1 2 scenarioTwins)).moves = some 2 ∧
    SolveBoard 30 (exchangeIds 1 2 scenarioTwins) =
      Outcome.solved (scenarioTwinsSolution.map (exchangeIds 1 2)) :=
  ⟨by decide, by decide,
   ((C11_id_relabelling scenarioTwins 1 2 30).2.1).trans (by decide),
   (C11_id_relabelling scenarioTwins 1 2 30).2.2 _ (by decide)⟩



/-- C2 (optimality), at the input on which the search is not optimal.  The board
`pinwheelBoard` is a valid input that is not yet solved, and a sequence of 17
legal one-cell moves leads from it to a state that satisfies the goal test, so
the minimum number of moves over all move sequences to a goal state is at most
17.  For scenario S3 the reported solution has exactly 1 move, and S3 itself is
not a goal state. -/
theorem C2_shorter_solution :
    ValidInput pinwheelBoard ∧ ¬ IsGoal pinwheelBoard ∧
    pinwheelBoardPath.length = 17 ∧
    List.Chain' (fun S T => T ∈ generated S ∧ MoveStep S T)
      (pinwheelBoard :: pinwheelBoardPath) ∧
    (∃ T, MovesTo 17 pinwheelBoard T ∧ IsGoal T) ∧
    ¬ IsGoal scenarioS3 ∧ (SolveBoard 10 scenarioS3).moves = some 1 := by
  have hchain : ∀ (path : List (List Block)) (S : List Block), legalPath S path = true →
      List.Chain' (fun S T => T ∈ generated S ∧ MoveStep S T) (S :: path) := by
    intro path
    induction path with
    | nil => intro S _; exact List.chain'_singleton S
    | cons R path ih =>
      intro S h
      simp only [legalPath, Bool.and_eq_true, decide_eq_true_eq] at h
      exact List.Chain'.cons ⟨h.1, moveStep_of_mem_generated h.1⟩ (ih R h.2)
  have hp : legalPath pinwheelBoard pinwheelBoardPath = true := by decide
  refine ⟨by decide, ?_, by decide, hchain _ _ hp, ?_, ?_, by decide⟩
  · exact not_isGoal_of_allClear (z := ⟨0, 0, 0, true, TileKind.prisoner, 2⟩) (by decide)
      (by decide)
  · refine ⟨_, movesTo_of_legalPath pinwheelBoardPath pinwheelBoard hp, ?_⟩
    exact isGoal_of_allClear ⟨⟨0, 0, 3, true, TileKind.prisoner, 2⟩, by decide, by decide⟩
  · exact not_isGoal_of_allClear (z := ⟨0, 2, 0, true, TileKind.prisoner, 2⟩) (by decide)
      (by decide)

theorem cells_applyMove {board : Board} {p : Block} {d : Direction} (h : canMove board p d)
    {c : Int × Int} (hc : c ∈ (applyMove d p).cells) : c ∈ p.cells ∨ c ∈ expandAccesses p := by
  obtain ⟨c1, c2⟩ := c
  rw [mem_cells] at hc
  rw [mem_cells]
  cases d with
  | left =>
    obtain ⟨h1, h2, _⟩ := h
    have hc2 : c1 = p._y ∧ p._x - 1 ≤ c2 ∧ c2 < p._x - 1 + p._length := by
      simpa [applyMove, h1] using hc
    by_cases h0 : c2 = p._x - 1
    · right
      simp [expandAccesses, h1, h2, hc2.1, h0]
    · exact Or.inl (Or.inl ⟨h1, hc2.1, by omega, by omega⟩)
  | right =>
    obtain ⟨h1, h2, _⟩ := h
    have hc2 : c1 = p._y ∧ p._x + 1 ≤ c2 ∧ c2 < p._x + 1 + p._length := by
      simpa [applyMove, h1] using hc
    by_cases h0 : c2 = p._x + p._length
    · right
      simp [expandAccesses, h1, h2, hc2.1, h0]
    · exact Or.inl (Or.inl ⟨h1, hc2.1, by omega, by omega⟩)
  | up =>
    obtain ⟨h1, h2, _⟩ := h
    have hc2 : c2 = p._x ∧ p._y - 1 ≤ c1 ∧ c1 < p._y - 1 + p._length := by
      simpa [applyMove, h1] using hc
    by_cases h0 : c1 = p._y - 1
    · right
      simp [expandAccesses, h1, h2, hc2.1, h0]
    · exact Or.inl (Or.inr ⟨h1, hc2.1, by omega, by omega⟩)
  | down =>
    obtain ⟨h1, h2, _⟩ := h
    have hc2 : c2 = p._x ∧ p._y + 1 ≤ c1 ∧ c1 < p._y + 1 + p._length := by
      simpa [applyMove, h1] using hc
    by_cases h0 : c1 = p._y + p._length
    · right
      simp [expandAccesses, h1, h2, hc2.1, h0]
    · exact Or.inl (Or.inr ⟨h1, hc2.1, by omega, by omega⟩)

theorem successor_accesses {board : Board} {P : List Block} {e : List Block × Move}
    (he : e ∈ legalMoves board [] P) {c : Int × Int} (hc : c ∈ renderAccesses e.1) :
    c ∈ renderAccesses P ∨ ∃ p ∈ P, c ∈ expandAccesses p := by
  obtain ⟨T, m⟩ := e
  obtain ⟨l1, p, l2, d, h1, h2, h3, _⟩ := mem_legalMoves.1 he
  subst h1
  simp only [List.nil_append] at h3
  simp only [h3, renderAccesses, List.mem_flatMap, List.mem_append, List.mem_cons] at hc ⊢
  obtain ⟨q, hq, hcq⟩ := hc
  rcases hq with hq | rfl | hq
  · exact Or.inl ⟨q, Or.inl hq, hcq⟩
  · rcases cells_applyMove h2 hcq with h | h
    · exact Or.inl ⟨p, Or.inr (Or.inl rfl), h⟩
    · exact Or.inr ⟨p, Or.inr (Or.inl rfl), h⟩
  · exact Or.inl ⟨q, Or.inr (Or.inr hq), hcq⟩

/-- C13 (malformed input), amended.  `SolveBoard` does not validate its input.
For every input piece list whose board accesses have defined behaviour
(`AccessesDefined`: each cell written by `renderPieces`, read by the goal test or
read by the move generation has its flat index inside the array `_data`) the main
loop starts at once: the first iteration dequeues the input.  An input without a
prisoner is stopped there by the assertion of the goal test, after it was
dequeued; an input with a prisoner, whatever its other defects, passes on to the
goal test and to the expansion, whose successors are again rendered inside the
array, and no error is reported before the search.  Nothing is stated for an input
with an access outside the array, where the behaviour of the source is
undefined. -/
theorem C13_malformed_input (P : List Block) (hP : AccessesDefined P) :
    (initState P).queue = [P] ∧ (initState P).visited = [] ∧
    (findPrisoner P = none →
      step (initState P) = StepResult.assertFailed ∧
      ∀ fuel, SolveBoard (fuel + 1) P = Outcome.assertionFailed) ∧
    (∀ z, findPrisoner P = some z →
      (allClear (renderPieces P) z = true →
        step (initState P) =
          StepResult.goal P ⟨(initState P).previousMoves, [renderPieces P], []⟩) ∧
      (allClear (renderPieces P) z = false →
        step (initState P) =
          StepResult.next ((legalMoves (renderPieces P) [] P).foldl recordMove
            ⟨(initState P).previousMoves, [renderPieces P], []⟩) ∧
        ∀ e ∈ legalMoves (renderPieces P) [] P, ∀ c ∈ renderAccesses e.1, inArray c)) := by
  refine ⟨by simp [initState, copyPieces_eq], rfl, ?_, ?_⟩
  · intro hz
    have hs : step (initState P) = StepResult.assertFailed := by
      simp [step, initState, copyPieces_eq, BoardSet.has, hz]
    exact ⟨hs, fun fuel => by simp [SolveBoard, solveLoop, hs]⟩
  · intro z hz
    constructor
    · intro hc
      simp [step, initState, copyPieces_eq, BoardSet.has, BoardSet.insert, hz, hc]
    · intro hc
      refine ⟨by simp [step, initState, copyPieces_eq, BoardSet.has, BoardSet.insert, hz, hc,
        expandLoop_eq], ?_⟩
      intro e he c hce
      obtain ⟨_, hr, hm⟩ := hP
      rw [hz] at hm
      rcases successor_accesses he hce with h | ⟨p, hp, h⟩
      · exact hr c h
      · exact hm.2 hc p hp c h

theorem C13_malformed_input_witness :
    (AccessesDefined malformedNoPrisoner ∧ findPrisoner malformedNoPrisoner = none ∧
      SolveBoard 1 malformedNoPrisoner = Outcome.assertionFailed) ∧
    (AccessesDefined malformedOverlap ∧
      findPrisoner malformedOverlap = some ⟨0, 2, 0, true, TileKind.prisoner, 2⟩ ∧
      allClear (renderPieces malformedOverlap) ⟨0, 2, 0, true, TileKind.prisoner, 2⟩ = false ∧
      step (initState malformedOverlap) =
        StepResult.next ((legalMoves (renderPieces malformedOverlap) [] malformedOverlap).foldl
          recordMove ⟨(initState malformedOverlap).previousMoves,
            [renderPieces malformedOverlap], []⟩)) ∧
    (AccessesDefined malformedOffGrid ∧ ¬ ValidInput malformedOffGrid ∧
      step (initState malformedOffGrid) =
        StepResult.goal malformedOffGrid
          ⟨(initState malformedOffGrid).previousMoves, [renderPieces malformedOffGrid], []⟩) :=
  ⟨⟨by decide, by decide,
    ((C13_malformed_input malformedNoPrisoner (by decide)).2.2.1 (by decide)).2 0⟩,
   ⟨by decide, by decide, by decide,
    (((C13_malformed_input malformedOverlap (by decide)).2.2.2
      ⟨0, 2, 0, true, TileKind.prisoner, 2⟩ (by decide)).2 (by decide)).1⟩,
   ⟨by decide, by decide,
    ((C13_malformed_input malformedOffGrid (by decide)).2.2.2
      ⟨0, 2, 0, true, TileKind.prisoner, 2⟩ (by decide)).1 (by decide)⟩⟩

end Unblock
